import Mathlib

/-!
Shallow embedding of the two-tier memory allocator (buddy + slab) from the
repository's C source, together with theorems checking the natural-language
specification against it.

Modelling conventions:
* machine addresses and PFNs are `Nat`; the simulated physical base
  (`malloc`ed in C) is a fixed nonzero constant `PHYS_MEM_START`, so the
  null pointer `0` is distinct from every arena address;
* the page-frame table `mem_map`, the per-order buddy free-list heads,
  the slab caches and the arena words used by the in-band slab freelist
  are total functions, updated pointwise;
* the C `struct page` overlays a union (buddy `order` versus the slab
  triple); the model keeps the fields side by side — the code only ever
  reads the variant it last wrote, which the theorems respect;
* pointer-linked lists (`page->next` chains) are kept as such; the C
  scan-to-unlink loops are modelled with an explicit fuel of `NUM_PAGES`
  steps, enough for every list the allocator can build;
* `printf` error reports in `kfree` become an explicit outcome value;
* `memset(obj, 0, 8)` zeroes exactly one stored pointer word, which is
  how the model represents it.
-/

namespace Alloc

/-- `MEM_SIZE` from the source: 128 MiB of simulated physical memory. -/
def MEM_SIZE : Nat := 128 * 1024 * 1024

/-- `PAGE_SHIFT` from the source. -/
def PAGE_SHIFT : Nat := 12

/-- `PAGE_SIZE = 1 << PAGE_SHIFT`. -/
def PAGE_SIZE : Nat := 1 <<< PAGE_SHIFT

/-- `MAX_ORDER` from the source. -/
def MAX_ORDER : Nat := 16

/-- Number of page frames in the arena (`MEM_SIZE / PAGE_SIZE` = 32768). -/
def NUM_PAGES : Nat := MEM_SIZE / PAGE_SIZE

/-- Model stand-in for the `malloc`ed arena base pointer: any fixed
nonzero value; all address arithmetic is relative to it. -/
def PHYS_MEM_START : Nat := 2 ^ 32

/-- Page flag `PG_free`. -/
def PG_free : Nat := 0x01

/-- Page flag `PG_buddy`. -/
def PG_buddy : Nat := 0x02

/-- Page flag `PG_slab`. -/
def PG_slab : Nat := 0x04

/-- `SLAB_INDEX_COUNT` from the source. -/
def SLAB_INDEX_COUNT : Nat := 7

/-- `slab_sizes[]` from the source, as a total function (out-of-range
indices are never used by the code). -/
def slab_sizes (i : Nat) : Nat := [32, 64, 128, 256, 512, 1024, 2048].getD i 0

/-- `struct page`: flags, the generic list link (a PFN; `none` = NULL),
and the union payload kept as side-by-side fields (`order` for buddy,
`slab_cache`/`freelist`/`active_objects` for slab; `freelist` is an
arena address, `0` = NULL). -/
structure Page where
  flags : Nat
  next : Option Nat
  order : Nat
  slab_cache : Option Nat
  freelist : Nat
  active_objects : Int

/-- `struct kmem_cache`: object size and the head of the cache's list of
partially-used slab pages (C field `partial`, renamed for Lean). -/
structure KmemCache where
  obj_size : Nat
  slabPartial : Option Nat

/-- Whole-allocator state: the page-frame table `MEM_MAP`, the
`buddy_free_area` heads (indexed by order), the `slab_caches` array and
the arena words `mem` holding the in-band slab freelist links. -/
structure State where
  mem_map : Nat → Page
  buddy_free_area : Nat → Option Nat
  slab_caches : Nat → KmemCache
  mem : Nat → Nat

/-- Pointwise update of the page-frame table. -/
def updMap (mm : Nat → Page) (i : Nat) (pg : Page) : Nat → Page :=
  fun j => if j = i then pg else mm j

/-- Pointwise update of an arena word. -/
def updMem (m : Nat → Nat) (a v : Nat) : Nat → Nat :=
  fun b => if b = a then v else m b

/-- Pointwise update of a buddy free-list head. -/
def updArea (fa : Nat → Option Nat) (o : Nat) (h : Option Nat) : Nat → Option Nat :=
  fun k => if k = o then h else fa k

/-- Pointwise update of a slab cache. -/
def updCache (cs : Nat → KmemCache) (i : Nat) (c : KmemCache) : Nat → KmemCache :=
  fun j => if j = i then c else cs j

/-- The contents of a `page->next`-linked list starting at `head`,
cut off after `fuel` nodes (every list the code builds is shorter than
`NUM_PAGES`, the fuel all callers pass). -/
def chain (mm : Nat → Page) : Option Nat → Nat → List Nat
  | _, 0 => []
  | none, _ + 1 => []
  | some p, fuel + 1 => p :: chain mm (mm p).next fuel

/-- Inner walk of the C unlink idiom
`while (*prev && *prev != tgt) prev = &(*prev)->next; if (*prev) *prev = tgt->next;`
once past the head: `cur` is the node whose `next` link is inspected. -/
def unlinkAux (mm : Nat → Page) (cur tgt : Nat) : Nat → (Nat → Page)
  | 0 => mm
  | fuel + 1 =>
    match (mm cur).next with
    | none => mm
    | some n =>
      if n = tgt then updMap mm cur { mm cur with next := (mm tgt).next }
      else unlinkAux mm n tgt fuel

/-- Remove the first occurrence of `tgt` from the `next`-linked list with
head `head`, returning the new head and page table; a no-op when `tgt` is
absent. This is the C pointer-to-pointer scan used both by
`__free_pages` (buddy list) and `kmem_cache_free` (partial list). -/
def unlinkList (mm : Nat → Page) (head : Option Nat) (tgt : Nat) :
    Option Nat × (Nat → Page) :=
  match head with
  | none => (none, mm)
  | some h =>
    if h = tgt then ((mm tgt).next, mm)
    else (some h, unlinkAux mm h tgt NUM_PAGES)

/-- `virt_to_page`: address range check, then PFN by shift. -/
def virt_to_page (addr : Nat) : Option Nat :=
  if addr < PHYS_MEM_START ∨ PHYS_MEM_START + MEM_SIZE ≤ addr then none
  else some ((addr - PHYS_MEM_START) >>> PAGE_SHIFT)

/-- `page_address`: base address of a page frame. -/
def page_address (pfn : Nat) : Nat :=
  PHYS_MEM_START + (pfn <<< PAGE_SHIFT)

/-- A page descriptor as left by `memset(MEM_MAP, 0, ...)`: every field
zero (`next`/`slab_cache` NULL). -/
def zeroPage : Page :=
  { flags := 0, next := none, order := 0, slab_cache := none,
    freelist := 0, active_objects := 0 }

/-- State after `kmalloc_init` (`buddy_init` + `slab_init`): page 0 seeded
as the single free block of order `MAX_ORDER-1`, all other descriptors
zeroed, caches set from `slab_sizes` with empty partial lists. The arena
contents `m0` are arbitrary (C: uninitialised `malloc` memory). -/
def initState (m0 : Nat → Nat) : State :=
  { mem_map := fun pfn =>
      if pfn = 0 then { zeroPage with flags := PG_free, order := MAX_ORDER - 1 }
      else zeroPage,
    buddy_free_area := fun o => if o = MAX_ORDER - 1 then some 0 else none,
    slab_caches := fun i => { obj_size := slab_sizes i, slabPartial := none },
    mem := m0 }

/-- The upward scan in `alloc_pages`, with an explicit structural fuel
(one unit per examined order; `MAX_ORDER + 1` always suffices). -/
def findFreeAux (s : State) : Nat → Nat → Option (Nat × Nat)
  | _cur, 0 => none
  | cur, fuel + 1 =>
    if cur < MAX_ORDER then
      match s.buddy_free_area cur with
      | some p => some (cur, p)
      | none => findFreeAux s (cur + 1) fuel
    else none

/-- The upward scan in `alloc_pages`: first order `cur ≤ k < MAX_ORDER`
whose free list is non-empty, returned with the head PFN. -/
def findFreeFrom (s : State) (cur : Nat) : Option (Nat × Nat) :=
  findFreeAux s cur (MAX_ORDER + 1)

/-- The halving loop in `alloc_pages`: while `target < cur`, decrement
`cur`, mark the upper half `pfn + (1 << cur)` free at order `cur` and
push it onto that order's list (structural recursion on `cur`). -/
def splitDown (s : State) (pfn : Nat) : Nat → Nat → State
  | 0, _target => s
  | c + 1, target =>
    if target < c + 1 then
      let bpfn := pfn + 2 ^ c
      let pg := { s.mem_map bpfn with
                  flags := PG_free, order := c, next := s.buddy_free_area c }
      let s1 : State :=
        { s with mem_map := updMap s.mem_map bpfn pg,
                 buddy_free_area := updArea s.buddy_free_area c (some bpfn) }
      splitDown s1 pfn c target
    else s

/-- `alloc_pages(order)`: first-fit scan upward, pop, split down to the
requested order, mark the retained page `PG_buddy` with the requested
order and a cleared `next`. Returns the PFN (C: `struct page *`). -/
def alloc_pages (s : State) (order : Nat) : Option Nat × State :=
  match findFreeFrom s order with
  | none => (none, s)
  | some (k, pfn) =>
    let s1 : State :=
      { s with buddy_free_area := updArea s.buddy_free_area k (s.mem_map pfn).next }
    let s2 := splitDown s1 pfn k order
    let pg := { s2.mem_map pfn with flags := PG_buddy, order := order, next := none }
    (some pfn, { s2 with mem_map := updMap s2.mem_map pfn pg })

/-- The merge loop of `__free_pages`: while below `MAX_ORDER - 1`, look
at the buddy `pfn XOR (1 << order)`; if its descriptor is free at the
same order, unlink it from that order's list and continue with the
combined block `pfn AND buddy_pfn` one order up. Returns the final PFN,
order, and the state after the removals. -/
def mergeLoopAux (s : State) (pfn order : Nat) : Nat → Nat × Nat × State
  | 0 => (pfn, order, s)
  | fuel + 1 =>
    if order < MAX_ORDER - 1 then
      let bpfn := pfn ^^^ 2 ^ order
      let b := s.mem_map bpfn
      if b.flags &&& PG_free ≠ 0 ∧ b.order = order then
        let r := unlinkList s.mem_map (s.buddy_free_area order) bpfn
        let s1 : State :=
          { s with mem_map := r.2,
                   buddy_free_area := updArea s.buddy_free_area order r.1 }
        mergeLoopAux s1 (pfn &&& bpfn) (order + 1) fuel
      else (pfn, order, s)
    else (pfn, order, s)

/-- The merge loop of `__free_pages` (the loop runs at most
`MAX_ORDER - 1` times, so the fuel `MAX_ORDER + 1` never runs out). -/
def mergeLoop (s : State) (pfn order : Nat) : Nat × Nat × State :=
  mergeLoopAux s pfn order (MAX_ORDER + 1)

/-- `__free_pages(page, order)`: run the merge loop, then mark the final
block free at the final order and push it onto that order's list. -/
def __free_pages (s : State) (pfn order : Nat) : State :=
  let r := mergeLoop s pfn order
  let p := r.1
  let o := r.2.1
  let s1 := r.2.2
  let pg := { s1.mem_map p with
              flags := PG_free, order := o, next := s1.buddy_free_area o }
  { s1 with mem_map := updMap s1.mem_map p pg,
            buddy_free_area := updArea s1.buddy_free_area o (some p) }

/-- The freelist-building loop of `cache_grow`
(`for (i = count-1; i >= 0; i--) { obj = addr + i*sz; *obj = prev; prev = obj; }`):
iterated on the remaining count, threading the arena and the running
`prev` pointer; returns the final arena and the final `prev`
(the freelist head). -/
def buildFL (addr sz : Nat) : (Nat → Nat) → Nat → Nat → ((Nat → Nat) × Nat)
  | m, 0, prev => (m, prev)
  | m, i + 1, prev => buildFL addr sz (updMem m (addr + i * sz) prev) i (addr + i * sz)

/-- `cache_grow(cache)`: take one order-0 page from the buddy allocator
(propagating failure), carve it into `PAGE_SIZE / obj_size` slots linked
through their leading words, mark the page `PG_slab` for this cache with
no active objects, and push it onto the front of the cache's partial
list. Returns the C `int` success flag. -/
def cache_grow (s : State) (ci : Nat) : Bool × State :=
  match alloc_pages s 0 with
  | (none, s1) => (false, s1)
  | (some pfn, s1) =>
    let addr := page_address pfn
    let sz := (s1.slab_caches ci).obj_size
    let count := PAGE_SIZE / sz
    let r := buildFL addr sz s1.mem count 0
    let pg := { s1.mem_map pfn with
                flags := PG_slab
                slab_cache := some ci
                active_objects := 0
                freelist := r.2
                next := (s1.slab_caches ci).slabPartial }
    let c := { s1.slab_caches ci with slabPartial := some pfn }
    (true, { s1 with
             mem := r.1
             mem_map := updMap s1.mem_map pfn pg
             slab_caches := updCache s1.slab_caches ci c })

/-- The pop path of `kmem_cache_alloc(cache)` (everything after the
possible growth step): take the front page of the partial list, pop its
freelist head, advance the freelist, bump `active_objects`, drop the
page from the partial list if its freelist ran dry, and zero the
returned object's leading pointer word. The `none` arm is unreachable
after a successful grow (C would dereference a null page there); the
guard against a NULL freelist is the code's own error branch. -/
def cacheAllocPop (s1 : State) (ci : Nat) : Option Nat × State :=
  match (s1.slab_caches ci).slabPartial with
  | none => (none, s1)
  | some p =>
    let pg := s1.mem_map p
    if pg.freelist = 0 then (none, s1)
    else
      let obj := pg.freelist
      let fl := s1.mem obj
      let pg1 := { pg with freelist := fl, active_objects := pg.active_objects + 1 }
      let s2 : State := { s1 with mem_map := updMap s1.mem_map p pg1 }
      let s3 : State :=
        if fl = 0 then
          { s2 with
            slab_caches := updCache s2.slab_caches ci
              { s2.slab_caches ci with slabPartial := pg1.next },
            mem_map := updMap s2.mem_map p { pg1 with next := none } }
        else s2
      (some obj, { s3 with mem := updMem s3.mem obj 0 })

/-- `kmem_cache_alloc(cache)`: if the partial list is empty, grow the
cache first (propagating failure); then run the pop path on the
resulting state. -/
def kmem_cache_alloc (s : State) (ci : Nat) : Option Nat × State :=
  match (s.slab_caches ci).slabPartial with
  | none =>
    match cache_grow s ci with
    | (false, s1) => (none, s1)
    | (true, s1) => cacheAllocPop s1 ci
  | some _ => cacheAllocPop s ci

/-- `kmem_cache_free(obj)`: resolve the owning page (silently ignoring
non-slab pages, the code's own guard); push `obj` onto the page's
freelist and decrement `active_objects`; when the count lands on
`max_objs - 1` (the page was full) push the page back onto the partial
list; when it lands on `0` unlink the page from the partial list, mark
it `PG_buddy` and hand it back to `__free_pages` at order 0. A slab page
whose cache pointer was never set is modelled as a no-op (in C this
dereferences a wild pointer; it is unreachable from the façade). -/
def kmem_cache_free (s : State) (obj : Nat) : State :=
  match virt_to_page obj with
  | none => s
  | some p =>
    let pg := s.mem_map p
    if pg.flags &&& PG_slab = 0 then s
    else
      match pg.slab_cache with
      | none => s
      | some ci =>
        let sz := (s.slab_caches ci).obj_size
        let maxObjs : Int := (PAGE_SIZE / sz : Nat)
        let pg1 := { pg with freelist := obj, active_objects := pg.active_objects - 1 }
        let s1 : State := { s with mem := updMem s.mem obj pg.freelist,
                                   mem_map := updMap s.mem_map p pg1 }
        let s2 : State :=
          if pg1.active_objects = maxObjs - 1 then
            { s1 with
              mem_map := updMap s1.mem_map p
                { pg1 with next := (s1.slab_caches ci).slabPartial },
              slab_caches := updCache s1.slab_caches ci
                { s1.slab_caches ci with slabPartial := some p } }
          else s1
        if (s2.mem_map p).active_objects = 0 then
          let r := unlinkList s2.mem_map (s2.slab_caches ci).slabPartial p
          let s3 : State :=
            { s2 with mem_map := r.2,
                      slab_caches := updCache s2.slab_caches ci
                        { s2.slab_caches ci with slabPartial := r.1 } }
          let s4 : State :=
            { s3 with mem_map := updMap s3.mem_map p
                        { s3.mem_map p with flags := PG_buddy } }
          __free_pages s4 p 0
        else s2

/-- The size-class scan in `kmalloc`, with structural fuel. -/
def sizeLoopAux (size : Nat) : Nat → Nat → Option Nat
  | _i, 0 => none
  | i, fuel + 1 =>
    if i < SLAB_INDEX_COUNT then
      if size ≤ slab_sizes i then some i else sizeLoopAux size (i + 1) fuel
    else none

/-- The size-class scan in `kmalloc`: first index `i` with
`size ≤ slab_sizes[i]` (the fuel `SLAB_INDEX_COUNT + 1` covers the
whole scan from index 0). -/
def sizeLoop (size : Nat) (i : Nat) : Option Nat :=
  sizeLoopAux size i (SLAB_INDEX_COUNT + 1)

/-- The order computation loop in `kmalloc`, with structural fuel. -/
def kmallocOrderLoop (size : Nat) : Nat → Nat → Nat
  | o, 0 => o
  | o, fuel + 1 =>
    if PAGE_SIZE <<< o < size then kmallocOrderLoop size (o + 1) fuel else o

/-- The order computation in `kmalloc`:
`while ((PAGE_SIZE << order) < size) order++;` starting from 0; the
fuel `size + 1` always suffices since `PAGE_SIZE <<< o ≥ 2 ^ o ≥ o`. -/
def kmallocOrder (size : Nat) : Nat :=
  kmallocOrderLoop size 0 (size + 1)

/-- `kmalloc(size)`: route to the first size class that fits, else to
the buddy allocator at the smallest order whose block covers `size`,
returning the page's base address. -/
def kmalloc (s : State) (size : Nat) : Option Nat × State :=
  match sizeLoop size 0 with
  | some i => kmem_cache_alloc s i
  | none =>
    let order := kmallocOrder size
    match alloc_pages s order with
    | (none, s1) => (none, s1)
    | (some pfn, s1) => (some (page_address pfn), s1)

/-- Observable outcome of `kfree` (the C function prints its error
reports; the model returns them). -/
inductive FreeOutcome where
  | nullNoop
  | invalidAddr
  | slabFreed
  | buddyFreed
  | badState
deriving DecidableEq

/-- `kfree(ptr)`: NULL is a no-op; an address outside the arena is an
error; otherwise branch on the owning page's flags — slab free,
buddy free at the page's recorded order, or a double-free/invalid-state
error leaving the state untouched. -/
def kfree (s : State) (ptr : Nat) : State × FreeOutcome :=
  if ptr = 0 then (s, FreeOutcome.nullNoop)
  else
    match virt_to_page ptr with
    | none => (s, FreeOutcome.invalidAddr)
    | some pfn =>
      let pg := s.mem_map pfn
      if pg.flags &&& PG_slab ≠ 0 then (kmem_cache_free s ptr, FreeOutcome.slabFreed)
      else if pg.flags &&& PG_buddy ≠ 0 then
        (__free_pages s pfn pg.order, FreeOutcome.buddyFreed)
      else (s, FreeOutcome.badState)

/-! ### Spec-side definitions and supporting lemmas -/

/-- The merge loop exactly as worded by the spec for `free`: the same
stop conditions, but the merged block explicitly starts at
`min pfn buddy_pfn` (the code uses `pfn AND buddy_pfn`). -/
def mergeLoopSpecAux (s : State) (pfn order : Nat) : Nat → Nat × Nat × State
  | 0 => (pfn, order, s)
  | fuel + 1 =>
    if order < MAX_ORDER - 1 then
      let bpfn := pfn ^^^ 2 ^ order
      let b := s.mem_map bpfn
      if b.flags &&& PG_free ≠ 0 ∧ b.order = order then
        let r := unlinkList s.mem_map (s.buddy_free_area order) bpfn
        let s1 : State :=
          { s with mem_map := r.2,
                   buddy_free_area := updArea s.buddy_free_area order r.1 }
        mergeLoopSpecAux s1 (min pfn bpfn) (order + 1) fuel
      else (pfn, order, s)
    else (pfn, order, s)

/-- `free(page, order)` as worded by the spec: merge with the free
same-order buddy into the block starting at `min(pfn, buddy_pfn)` while
possible, then mark the final block free at the final order and insert
it into that order's list. -/
def free_pages_spec (s : State) (pfn order : Nat) : State :=
  let r := mergeLoopSpecAux s pfn order (MAX_ORDER + 1)
  let p := r.1
  let o := r.2.1
  let s1 := r.2.2
  let pg := { s1.mem_map p with
              flags := PG_free, order := o, next := s1.buddy_free_area o }
  { s1 with mem_map := updMap s1.mem_map p pg,
            buddy_free_area := updArea s1.buddy_free_area o (some p) }

/-- A block's PFN ANDed with its buddy's PFN is the smaller of the two:
the two differ exactly in bit `o`, so the AND clears that bit, which is
the one whose bit `o` is clear. -/
theorem land_xor_two_pow_eq_min (x o : Nat) :
    x &&& (x ^^^ 2 ^ o) = min x (x ^^^ 2 ^ o) := by
  have hbit : ∀ i, (x ^^^ 2 ^ o).testBit i = ((x.testBit i).xor ((2 ^ o).testBit i)) := by
    intro i; exact Nat.testBit_xor x (2 ^ o) i
  cases hxo : x.testBit o with
  | true =>
    have hyo : (x ^^^ 2 ^ o).testBit o = false := by
      rw [hbit, hxo, Nat.testBit_two_pow_self]; rfl
    have hyx : x ^^^ 2 ^ o < x := by
      refine Nat.lt_of_testBit o hyo hxo ?_
      intro j hj
      rw [hbit, Nat.testBit_two_pow_of_ne (Nat.ne_of_lt hj), Bool.xor_false]
    have hland : x &&& (x ^^^ 2 ^ o) = x ^^^ 2 ^ o := by
      refine Nat.eq_of_testBit_eq fun i => ?_
      rcases eq_or_ne i o with rfl | hne
      · rw [Nat.testBit_land, hxo, hyo, Bool.true_and]
      · rw [Nat.testBit_land, hbit, Nat.testBit_two_pow_of_ne (Ne.symm hne),
          Bool.xor_false, Bool.and_self]
    rw [hland, min_eq_right (Nat.le_of_lt hyx)]
  | false =>
    have hyo : (x ^^^ 2 ^ o).testBit o = true := by
      rw [hbit, hxo, Nat.testBit_two_pow_self]; rfl
    have hxy : x < x ^^^ 2 ^ o := by
      refine Nat.lt_of_testBit o hxo hyo ?_
      intro j hj
      rw [hbit, Nat.testBit_two_pow_of_ne (Nat.ne_of_lt hj), Bool.xor_false]
    have hland : x &&& (x ^^^ 2 ^ o) = x := by
      refine Nat.eq_of_testBit_eq fun i => ?_
      rcases eq_or_ne i o with rfl | hne
      · rw [Nat.testBit_land, hxo, Bool.false_and]
      · rw [Nat.testBit_land, hbit, Nat.testBit_two_pow_of_ne (Ne.symm hne),
          Bool.xor_false, Bool.and_self]
    rw [hland, min_eq_left (Nat.le_of_lt hxy)]

/-- The code's merge loop and the spec's agree step by step. -/
theorem mergeLoopAux_eq_spec (fuel : Nat) : ∀ s pfn order,
    mergeLoopAux s pfn order fuel = mergeLoopSpecAux s pfn order fuel := by
  induction fuel with
  | zero => intro s pfn order; rfl
  | succ n ih =>
    intro s pfn order
    simp only [mergeLoopAux, mergeLoopSpecAux]
    by_cases h1 : order < MAX_ORDER - 1
    · rw [if_pos h1, if_pos h1]
      by_cases h2 : (s.mem_map (pfn ^^^ 2 ^ order)).flags &&& PG_free ≠ 0 ∧
          (s.mem_map (pfn ^^^ 2 ^ order)).order = order
      · rw [if_pos h2, if_pos h2, land_xor_two_pow_eq_min]
        exact ih _ _ _
      · rw [if_neg h2, if_neg h2]
    · rw [if_neg h1, if_neg h1]

/-- Claim C1: for every page `pfn` and order, `__free_pages` runs the
spec's merge loop — while below `MAX_ORDER-1`, it checks the buddy
`pfn XOR (1 << order)`; when the buddy descriptor is free at the same
order it unlinks it and continues with the block starting at
`min(pfn, buddy_pfn)` one order up, otherwise it stops — and finally
marks the resulting block free at the final order and inserts it into
that order's free list. -/
theorem C1_free_pages_follows_spec_merge : ∀ (s : State) (pfn order : Nat),
    __free_pages s pfn order = free_pages_spec s pfn order := by
  intro s pfn order
  unfold __free_pages free_pages_spec mergeLoop
  rw [mergeLoopAux_eq_spec]

/-- Claim C10: `kmalloc 0` is not rejected: it is routed to the 32-byte
class (class index 0) exactly like an allocation of size 1, with
identical result and state; on a fresh allocator it succeeds and
returns the first object of the grown slab page. -/
theorem C10_kmalloc_zero_routes_to_smallest_class :
    ∀ s : State,
    kmalloc s 0 = kmem_cache_alloc s 0 ∧ kmalloc s 0 = kmalloc s 1 ∧
    slab_sizes 0 = 32 ∧
    (kmalloc (initState (fun _ => 0)) 0).1 = some PHYS_MEM_START := by
  intro s
  exact ⟨rfl, rfl, rfl, by decide⟩

/-- `free(ptr)` as worded by the spec: null is a no-op; an address
outside `[arena_base, arena_base + arena_size)` fails as invalid;
otherwise the owning page is the one at index `(ptr - base) >> page_shift`
and the branch is on its state — slab-owned pages go to the slab free
path, buddy-allocated pages to `__free_pages` at the page's recorded
order, and anything else is reported as a double-free / protocol
violation without touching the state. -/
def kfreeSpec (s : State) (ptr : Nat) : State × FreeOutcome :=
  if ptr = 0 then (s, FreeOutcome.nullNoop)
  else if ptr < PHYS_MEM_START ∨ PHYS_MEM_START + MEM_SIZE ≤ ptr then
    (s, FreeOutcome.invalidAddr)
  else
    let pfn := (ptr - PHYS_MEM_START) >>> PAGE_SHIFT
    let pg := s.mem_map pfn
    if pg.flags &&& PG_slab ≠ 0 then (kmem_cache_free s ptr, FreeOutcome.slabFreed)
    else if pg.flags &&& PG_buddy ≠ 0 then
      (__free_pages s pfn pg.order, FreeOutcome.buddyFreed)
    else (s, FreeOutcome.badState)

/-- Claim C9: `kfree` implements exactly the spec's branch structure
(null no-op; out-of-arena reported invalid; slab-owned → slab free;
buddy-allocated → buddy free at the recorded order; any other state
reported as double-free/bad state), and in each of the three reported
error cases the state is returned unmodified. -/
theorem C9_kfree_branch_structure : ∀ (s : State) (ptr : Nat),
    kfree s ptr = kfreeSpec s ptr ∧
    (((kfree s ptr).2 = FreeOutcome.nullNoop ∨
      (kfree s ptr).2 = FreeOutcome.invalidAddr ∨
      (kfree s ptr).2 = FreeOutcome.badState) → (kfree s ptr).1 = s) := by
  intro s ptr
  constructor
  · unfold kfree kfreeSpec virt_to_page
    by_cases h0 : ptr = 0
    · rw [if_pos h0, if_pos h0]
    · rw [if_neg h0, if_neg h0]
      by_cases h1 : ptr < PHYS_MEM_START ∨ PHYS_MEM_START + MEM_SIZE ≤ ptr
      · rw [if_pos h1, if_pos h1]
      · rw [if_neg h1, if_neg h1]
  · intro h
    unfold kfree at h ⊢
    by_cases h0 : ptr = 0
    · rw [if_pos h0]
    · rw [if_neg h0] at h ⊢
      cases hv : virt_to_page ptr with
      | none => rfl
      | some pfn =>
        rw [hv] at h
        dsimp only at h ⊢
        by_cases h2 : (s.mem_map pfn).flags &&& PG_slab ≠ 0
        · rw [if_pos h2] at h
          rcases h with h | h | h <;> simp at h
        · rw [if_neg h2] at h ⊢
          by_cases h3 : (s.mem_map pfn).flags &&& PG_buddy ≠ 0
          · rw [if_pos h3] at h
            rcases h with h | h | h <;> simp at h
          · rw [if_neg h3]

/-- Witness for C9: freeing the out-of-arena address 5 on a fresh
allocator is reported invalid and leaves the state unchanged. -/
theorem C9_kfree_branch_structure_witness :
    (kfree (initState (fun _ => 0)) 5).1 = initState (fun _ => 0) :=
  (C9_kfree_branch_structure (initState (fun _ => 0)) 5).2
    (Or.inr (Or.inl (by decide)))

/-- `allocate(size)` as worded by the spec: select the smallest
configured size class `≥ size` from the fixed ascending sequence
(the first fitting index of the ascending class table); if `size`
exceeds the largest class, route directly to the buddy allocator with
`order = ⌈log2(size / page_size)⌉` (on naturals: `clog 2` of the
ceiling division) and return the page's base address, failing when that
order reaches `MAX_ORDER`. -/
def kmallocSpec (s : State) (size : Nat) : Option Nat × State :=
  match ((List.range SLAB_INDEX_COUNT).filter
      (fun i => decide (size ≤ slab_sizes i))).head? with
  | some i => kmem_cache_alloc s i
  | none =>
    let o := Nat.clog 2 ((size + PAGE_SIZE - 1) / PAGE_SIZE)
    if MAX_ORDER ≤ o then (none, s)
    else
      match alloc_pages s o with
      | (none, s1) => (none, s1)
      | (some pfn, s1) => (some (page_address pfn), s1)

/-- The class scan of `kmalloc` picks the first (hence, the table being
ascending, the smallest) fitting class of the table. -/
theorem sizeLoop_eq_filter_head (size : Nat) :
    sizeLoop size 0 = ((List.range SLAB_INDEX_COUNT).filter
      (fun i => decide (size ≤ slab_sizes i))).head? := by
  have hr : List.range SLAB_INDEX_COUNT = [0, 1, 2, 3, 4, 5, 6] := by decide
  rw [hr]
  by_cases h0 : size ≤ 32
  · simp [sizeLoop, sizeLoopAux, slab_sizes, SLAB_INDEX_COUNT, List.filter, h0]
  by_cases h1 : size ≤ 64
  · simp [sizeLoop, sizeLoopAux, slab_sizes, SLAB_INDEX_COUNT, List.filter, h0, h1]
  by_cases h2 : size ≤ 128
  · simp [sizeLoop, sizeLoopAux, slab_sizes, SLAB_INDEX_COUNT, List.filter, h0, h1, h2]
  by_cases h3 : size ≤ 256
  · simp [sizeLoop, sizeLoopAux, slab_sizes, SLAB_INDEX_COUNT, List.filter, h0, h1, h2, h3]
  by_cases h4 : size ≤ 512
  · simp [sizeLoop, sizeLoopAux, slab_sizes, SLAB_INDEX_COUNT, List.filter,
      h0, h1, h2, h3, h4]
  by_cases h5 : size ≤ 1024
  · simp [sizeLoop, sizeLoopAux, slab_sizes, SLAB_INDEX_COUNT, List.filter,
      h0, h1, h2, h3, h4, h5]
  by_cases h6 : size ≤ 2048
  · simp [sizeLoop, sizeLoopAux, slab_sizes, SLAB_INDEX_COUNT, List.filter,
      h0, h1, h2, h3, h4, h5, h6]
  · simp [sizeLoop, sizeLoopAux, slab_sizes, SLAB_INDEX_COUNT, List.filter,
      h0, h1, h2, h3, h4, h5, h6]

/-- Postcondition of the `kmalloc` order loop: the result is at least
the start, its block covers `size`, and every order passed over was too
small — provided the fuel reaches a covering order. -/
theorem kmallocOrderLoop_post : ∀ (fuel o size : Nat),
    size ≤ PAGE_SIZE <<< (o + fuel) →
    o ≤ kmallocOrderLoop size o fuel ∧
    size ≤ PAGE_SIZE <<< kmallocOrderLoop size o fuel ∧
    ∀ j, o ≤ j → j < kmallocOrderLoop size o fuel → PAGE_SIZE <<< j < size := by
  intro fuel
  induction fuel with
  | zero =>
    intro o size h
    refine ⟨Nat.le_refl o, h, ?_⟩
    intro j h1 h2
    exact absurd (Nat.lt_of_le_of_lt h1 h2) (Nat.lt_irrefl o)
  | succ n ih =>
    intro o size h
    rw [kmallocOrderLoop]
    by_cases hc : PAGE_SIZE <<< o < size
    · rw [if_pos hc]
      have h' : size ≤ PAGE_SIZE <<< (o + 1 + n) := by
        have : o + 1 + n = o + (n + 1) := by omega
        rw [this]; exact h
      obtain ⟨ha, hb, hj⟩ := ih (o + 1) size h'
      refine ⟨Nat.le_trans (Nat.le_succ o) ha, hb, ?_⟩
      intro j hj1 hj2
      rcases Nat.eq_or_lt_of_le hj1 with rfl | hlt
      · exact hc
      · exact hj j hlt hj2
    · rw [if_neg hc]
      refine ⟨Nat.le_refl o, Nat.le_of_not_lt hc, ?_⟩
      intro j h1 h2
      exact absurd (Nat.lt_of_le_of_lt h1 h2) (Nat.lt_irrefl o)

/-- Ceiling-division bridge: the ceiling of `size / PAGE_SIZE` is below
`t` iff a block of `PAGE_SIZE * t` bytes covers `size`. -/
theorem ceilDiv_le_iff (size t : Nat) :
    (size + PAGE_SIZE - 1) / PAGE_SIZE ≤ t ↔ size ≤ PAGE_SIZE * t := by
  have hP : PAGE_SIZE = 4096 := by decide
  rw [hP, ← Nat.lt_succ_iff, Nat.div_lt_iff_lt_mul (by omega : (0 : Nat) < 4096)]
  omega

/-- The order loop of `kmalloc` computes exactly the spec's
`⌈log2(size / page_size)⌉` (as `clog 2` of the ceiling division). -/
theorem kmallocOrder_eq_clog (size : Nat) :
    kmallocOrder size = Nat.clog 2 ((size + PAGE_SIZE - 1) / PAGE_SIZE) := by
  have h2 : (1 : Nat) < 2 := by decide
  have hfuel : size ≤ PAGE_SIZE <<< (0 + (size + 1)) := by
    rw [Nat.shiftLeft_eq]
    calc size ≤ 2 ^ size := Nat.le_of_lt (Nat.lt_two_pow size)
    _ ≤ 2 ^ (0 + (size + 1)) := Nat.pow_le_pow_right (by decide) (by omega)
    _ ≤ PAGE_SIZE * 2 ^ (0 + (size + 1)) :=
        Nat.le_mul_of_pos_left _ (by decide)
  obtain ⟨_, hcov, hleast⟩ := kmallocOrderLoop_post (size + 1) 0 size hfuel
  set r := kmallocOrderLoop size 0 (size + 1) with hr
  have hshift : ∀ t : Nat, PAGE_SIZE <<< t = PAGE_SIZE * 2 ^ t := fun t =>
    Nat.shiftLeft_eq PAGE_SIZE t
  -- clog ≤ r
  have hclog_le : Nat.clog 2 ((size + PAGE_SIZE - 1) / PAGE_SIZE) ≤ r := by
    rw [← Nat.le_pow_iff_clog_le h2]
    exact (ceilDiv_le_iff size (2 ^ r)).mpr (by rw [← hshift]; exact hcov)
  -- r ≤ clog
  have hr_le : r ≤ Nat.clog 2 ((size + PAGE_SIZE - 1) / PAGE_SIZE) := by
    by_contra hlt
    push_neg at hlt
    set c := Nat.clog 2 ((size + PAGE_SIZE - 1) / PAGE_SIZE) with hc
    have hcle : (size + PAGE_SIZE - 1) / PAGE_SIZE ≤ 2 ^ c :=
      Nat.le_pow_clog h2 _
    have hsize : size ≤ PAGE_SIZE <<< c := by
      rw [hshift]; exact (ceilDiv_le_iff size (2 ^ c)).mp hcle
    have := hleast c (Nat.zero_le c) hlt
    omega
  exact Nat.le_antisymm hr_le hclog_le

/-- A request of order `MAX_ORDER` or above makes `alloc_pages` return
NULL without touching the state: the first-fit scan starts past the top
order. -/
theorem alloc_pages_of_max_le (s : State) (o : Nat) (h : MAX_ORDER ≤ o) :
    alloc_pages s o = (none, s) := by
  unfold alloc_pages findFreeFrom
  have hn : findFreeAux s o (MAX_ORDER + 1) = none := by
    rw [findFreeAux, if_neg (Nat.not_lt_of_ge h)]
  rw [hn]

/-- First-fit characterization of the class scan: a found index is in
range, its class covers the request, and every earlier class is too
small. -/
theorem sizeLoop_first_fit (size i : Nat) (hi : sizeLoop size 0 = some i) :
    i < SLAB_INDEX_COUNT ∧ size ≤ slab_sizes i ∧
    ∀ j, j < i → slab_sizes j < size := by
  by_cases h0 : size ≤ 32
  · have h : sizeLoop size 0 = some 0 := by
      simp [sizeLoop, sizeLoopAux, slab_sizes, SLAB_INDEX_COUNT, h0]
    rw [h] at hi; injection hi with hh; subst hh
    exact ⟨by decide, by simpa [slab_sizes] using h0, by omega⟩
  by_cases h1 : size ≤ 64
  · have h : sizeLoop size 0 = some 1 := by
      simp [sizeLoop, sizeLoopAux, slab_sizes, SLAB_INDEX_COUNT, h0, h1]
    rw [h] at hi; injection hi with hh; subst hh
    refine ⟨by decide, by simpa [slab_sizes] using h1, ?_⟩
    intro j hj; interval_cases j; simp [slab_sizes]; omega
  by_cases h2 : size ≤ 128
  · have h : sizeLoop size 0 = some 2 := by
      simp [sizeLoop, sizeLoopAux, slab_sizes, SLAB_INDEX_COUNT, h0, h1, h2]
    rw [h] at hi; injection hi with hh; subst hh
    refine ⟨by decide, by simpa [slab_sizes] using h2, ?_⟩
    intro j hj; interval_cases j <;> simp [slab_sizes] <;> omega
  by_cases h3 : size ≤ 256
  · have h : sizeLoop size 0 = some 3 := by
      simp [sizeLoop, sizeLoopAux, slab_sizes, SLAB_INDEX_COUNT, h0, h1, h2, h3]
    rw [h] at hi; injection hi with hh; subst hh
    refine ⟨by decide, by simpa [slab_sizes] using h3, ?_⟩
    intro j hj; interval_cases j <;> simp [slab_sizes] <;> omega
  by_cases h4 : size ≤ 512
  · have h : sizeLoop size 0 = some 4 := by
      simp [sizeLoop, sizeLoopAux, slab_sizes, SLAB_INDEX_COUNT, h0, h1, h2, h3, h4]
    rw [h] at hi; injection hi with hh; subst hh
    refine ⟨by decide, by simpa [slab_sizes] using h4, ?_⟩
    intro j hj; interval_cases j <;> simp [slab_sizes] <;> omega
  by_cases h5 : size ≤ 1024
  · have h : sizeLoop size 0 = some 5 := by
      simp [sizeLoop, sizeLoopAux, slab_sizes, SLAB_INDEX_COUNT, h0, h1, h2, h3, h4, h5]
    rw [h] at hi; injection hi with hh; subst hh
    refine ⟨by decide, by simpa [slab_sizes] using h5, ?_⟩
    intro j hj; interval_cases j <;> simp [slab_sizes] <;> omega
  by_cases h6 : size ≤ 2048
  · have h : sizeLoop size 0 = some 6 := by
      simp [sizeLoop, sizeLoopAux, slab_sizes, SLAB_INDEX_COUNT,
        h0, h1, h2, h3, h4, h5, h6]
    rw [h] at hi; injection hi with hh; subst hh
    refine ⟨by decide, by simpa [slab_sizes] using h6, ?_⟩
    intro j hj; interval_cases j <;> simp [slab_sizes] <;> omega
  · have h : sizeLoop size 0 = none := by
      simp [sizeLoop, sizeLoopAux, slab_sizes, SLAB_INDEX_COUNT,
        h0, h1, h2, h3, h4, h5, h6]
    rw [h] at hi; exact absurd hi (by simp)

/-- Claim C3: `kmalloc` selects the smallest configured size class
`≥ size` from the ascending table (32..2048) and delegates to that
cache; above the largest class it routes to the buddy allocator with
order `⌈log2(size / page_size)⌉`, returning the allocated page's base
address, and returns NULL (the failure result) whenever that order is
`≥ MAX_ORDER`. The chosen class index is fitting and minimal. -/
theorem C3_kmalloc_routing : ∀ (s : State) (size : Nat),
    kmalloc s size = kmallocSpec s size ∧
    (∀ i, sizeLoop size 0 = some i →
      size ≤ slab_sizes i ∧
      ∀ j, j < SLAB_INDEX_COUNT → size ≤ slab_sizes j → slab_sizes i ≤ slab_sizes j) := by
  intro s size
  constructor
  · unfold kmalloc kmallocSpec
    rw [← sizeLoop_eq_filter_head]
    cases hs : sizeLoop size 0 with
    | some i => rfl
    | none =>
      dsimp only
      rw [← kmallocOrder_eq_clog]
      by_cases hbig : MAX_ORDER ≤ kmallocOrder size
      · rw [if_pos hbig, alloc_pages_of_max_le s _ hbig]
      · rw [if_neg hbig]
  · intro i hi
    obtain ⟨hibound, hfit, hless⟩ := sizeLoop_first_fit size i hi
    refine ⟨hfit, ?_⟩
    intro j hj hjfit
    rcases Nat.lt_or_ge j i with hji | hij
    · exact absurd hjfit (Nat.not_le_of_lt (hless j hji))
    · have hmono : ∀ b, b < SLAB_INDEX_COUNT → ∀ a, a ≤ b →
          slab_sizes a ≤ slab_sizes b := by decide
      exact hmono j hj i hij

/-- Witness for C3: a request of 50 bytes is routed to class index 1,
whose 64-byte class fits 50 and is minimal among fitting classes. -/
theorem C3_kmalloc_routing_witness :
    sizeLoop 50 0 = some 1 ∧ 50 ≤ slab_sizes 1 ∧
    ∀ j, j < SLAB_INDEX_COUNT → 50 ≤ slab_sizes j → slab_sizes 1 ≤ slab_sizes j :=
  ⟨by decide, (C3_kmalloc_routing (initState (fun _ => 0)) 50).2 1 (by decide)⟩

/-! ### Pointwise lookup lemmas for the state updates -/

theorem updArea_self (fa : Nat → Option Nat) (o : Nat) (h : Option Nat) :
    updArea fa o h o = h := by simp [updArea]

theorem updArea_other (fa : Nat → Option Nat) (o : Nat) (h : Option Nat)
    (k : Nat) (hne : k ≠ o) : updArea fa o h k = fa k := by simp [updArea, hne]

theorem updMap_self (mm : Nat → Page) (i : Nat) (pg : Page) :
    updMap mm i pg i = pg := by simp [updMap]

theorem updMap_other (mm : Nat → Page) (i : Nat) (pg : Page) (j : Nat)
    (hne : j ≠ i) : updMap mm i pg j = mm j := by simp [updMap, hne]

theorem updMem_self (m : Nat → Nat) (a v : Nat) : updMem m a v a = v := by
  simp [updMem]

theorem updMem_other (m : Nat → Nat) (a v b : Nat) (hne : b ≠ a) :
    updMem m a v b = m b := by simp [updMem, hne]

theorem updCache_self (cs : Nat → KmemCache) (i : Nat) (c : KmemCache) :
    updCache cs i c i = c := by simp [updCache]

theorem updCache_other (cs : Nat → KmemCache) (i : Nat) (c : KmemCache)
    (j : Nat) (hne : j ≠ i) : updCache cs i c j = cs j := by simp [updCache, hne]

/-! ### Characterization of the buddy allocation path (claim C2) -/

/-- A successful first-fit scan returns the first non-empty order at or
above the start, together with that list's head. -/
theorem findFreeAux_some : ∀ (fuel cur : Nat) (s : State) (k p : Nat),
    findFreeAux s cur fuel = some (k, p) →
    cur ≤ k ∧ k < MAX_ORDER ∧ s.buddy_free_area k = some p ∧
    ∀ j, cur ≤ j → j < k → s.buddy_free_area j = none := by
  intro fuel
  induction fuel with
  | zero => intro cur s k p h; exact absurd h (by simp [findFreeAux])
  | succ n ih =>
    intro cur s k p h
    rw [findFreeAux] at h
    by_cases hcur : cur < MAX_ORDER
    · rw [if_pos hcur] at h
      cases harea : s.buddy_free_area cur with
      | some q =>
        rw [harea] at h
        simp only [Option.some.injEq, Prod.mk.injEq] at h
        obtain ⟨rfl, rfl⟩ := h
        exact ⟨Nat.le_refl _, hcur, harea, fun j h1 h2 => absurd (Nat.lt_of_le_of_lt h1 h2) (Nat.lt_irrefl _)⟩
      | none =>
        rw [harea] at h
        obtain ⟨h1, h2, h3, h4⟩ := ih (cur + 1) s k p h
        refine ⟨by omega, h2, h3, ?_⟩
        intro j hj1 hj2
        rcases Nat.eq_or_lt_of_le hj1 with rfl | hlt
        · exact harea
        · exact h4 j hlt hj2
    · rw [if_neg hcur] at h
      exact absurd h (by simp)

/-- The first-fit scan fails exactly when every list at or above the
start (below `MAX_ORDER`) is empty — granted enough fuel. -/
theorem findFreeAux_none_iff : ∀ (fuel cur : Nat) (s : State),
    MAX_ORDER ≤ cur + fuel →
    (findFreeAux s cur fuel = none ↔
      ∀ k, cur ≤ k → k < MAX_ORDER → s.buddy_free_area k = none) := by
  intro fuel
  induction fuel with
  | zero =>
    intro cur s hle
    constructor
    · intro _ k hk1 hk2
      exact absurd (Nat.lt_of_le_of_lt hk1 hk2) (by omega)
    · intro _; rfl
  | succ n ih =>
    intro cur s hle
    rw [findFreeAux]
    by_cases hcur : cur < MAX_ORDER
    · rw [if_pos hcur]
      cases harea : s.buddy_free_area cur with
      | some q =>
        constructor
        · intro h; exact absurd h (by simp)
        · intro hall
          rw [hall cur (Nat.le_refl cur) hcur] at harea
          exact absurd harea (by simp)
      | none =>
        rw [ih (cur + 1) s (by omega)]
        constructor
        · intro h k hk1 hk2
          rcases Nat.eq_or_lt_of_le hk1 with rfl | hlt
          · exact harea
          · exact h k hlt hk2
        · intro hall k hk1 hk2
          exact hall k (by omega) hk2
    · rw [if_neg hcur]
      constructor
      · intro _ k hk1 hk2
        exact absurd (Nat.lt_of_le_of_lt hk1 hk2) hcur
      · intro _; rfl

/-- Closed form of the halving loop `splitDown`, under the lists in the
halving range being empty (guaranteed at its call site by first-fit):
each freed half `pfn + 2^j` heads the (previously empty) order-`j`
list and is marked free at order `j`; everything else is untouched. -/
theorem splitDown_char : ∀ (cur : Nat) (s : State) (pfn target : Nat),
    (∀ j, target ≤ j → j < cur → s.buddy_free_area j = none) →
    (∀ j, target ≤ j → j < cur →
        (splitDown s pfn cur target).buddy_free_area j = some (pfn + 2 ^ j) ∧
        ((splitDown s pfn cur target).mem_map (pfn + 2 ^ j)).flags = PG_free ∧
        ((splitDown s pfn cur target).mem_map (pfn + 2 ^ j)).order = j ∧
        ((splitDown s pfn cur target).mem_map (pfn + 2 ^ j)).next = none) ∧
    (∀ j, j < target ∨ cur ≤ j →
        (splitDown s pfn cur target).buddy_free_area j = s.buddy_free_area j) ∧
    (∀ q, (∀ j, target ≤ j → j < cur → q ≠ pfn + 2 ^ j) →
        (splitDown s pfn cur target).mem_map q = s.mem_map q) ∧
    (splitDown s pfn cur target).slab_caches = s.slab_caches ∧
    (splitDown s pfn cur target).mem = s.mem := by
  intro cur
  induction cur with
  | zero =>
    intro s pfn target hemp
    exact ⟨fun j hj1 hj2 => absurd hj2 (by omega),
      fun j _ => rfl, fun q _ => rfl, rfl, rfl⟩
  | succ c ih =>
    intro s pfn target hemp
    rw [splitDown]
    by_cases htc : target < c + 1
    · rw [if_pos htc]
      dsimp only
      set s1 : State :=
        { s with
          mem_map := updMap s.mem_map (pfn + 2 ^ c)
            { s.mem_map (pfn + 2 ^ c) with
              flags := PG_free, order := c, next := s.buddy_free_area c },
          buddy_free_area := updArea s.buddy_free_area c (some (pfn + 2 ^ c)) }
        with hs1
      have hemp1 : ∀ j, target ≤ j → j < c → s1.buddy_free_area j = none := by
        intro j hj1 hj2
        show updArea s.buddy_free_area c (some (pfn + 2 ^ c)) j = none
        exact (updArea_other _ _ _ j (by omega)).trans (hemp j hj1 (by omega))
      obtain ⟨ihA, ihB, ihC, ihD, ihE⟩ := ih s1 pfn target hemp1
      have hseq : s.buddy_free_area c = none := hemp c (by omega) (by omega)
      have hm1self : s1.mem_map (pfn + 2 ^ c) =
          { s.mem_map (pfn + 2 ^ c) with
            flags := PG_free, order := c, next := s.buddy_free_area c } :=
        updMap_self _ _ _
      have hm1other : ∀ q, q ≠ pfn + 2 ^ c → s1.mem_map q = s.mem_map q :=
        fun q hq => updMap_other _ _ _ q hq
      have ha1self : s1.buddy_free_area c = some (pfn + 2 ^ c) :=
        updArea_self _ _ _
      have ha1other : ∀ j, j ≠ c → s1.buddy_free_area j = s.buddy_free_area j :=
        fun j hj => updArea_other _ _ _ j hj
      refine ⟨?_, ?_, ?_, ?_, ?_⟩
      · intro j hj1 hj2
        rcases Nat.lt_or_ge j c with hjc | hjc
        · exact ihA j hj1 hjc
        · have hj_eq : j = c := by omega
          subst hj_eq
          have hq : ∀ j', target ≤ j' → j' < j → pfn + 2 ^ j ≠ pfn + 2 ^ j' := by
            intro j' _ hj'c
            have := Nat.pow_lt_pow_right (a := 2) (by omega) hj'c
            omega
          have hmm : (splitDown s1 pfn j target).mem_map (pfn + 2 ^ j) =
              s1.mem_map (pfn + 2 ^ j) := ihC _ hq
          refine ⟨?_, ?_, ?_, ?_⟩
          · rw [ihB j (Or.inr (Nat.le_refl _))]
            exact ha1self
          · rw [hmm, hm1self]
          · rw [hmm, hm1self]
          · rw [hmm, hm1self]
            exact hseq
      · intro j hj
        rw [ihB j (by omega)]
        exact ha1other j (by omega)
      · intro q hq
        have hq1 : ∀ j, target ≤ j → j < c → q ≠ pfn + 2 ^ j := by
          intro j hj1 hj2; exact hq j hj1 (by omega)
        rw [ihC q hq1]
        exact hm1other q (hq c (by omega) (by omega))
      · rw [ihD]
      · rw [ihE]
    · rw [if_neg htc]
      exact ⟨fun j hj1 hj2 => absurd (Nat.lt_of_le_of_lt hj1 hj2) (by omega),
        fun j _ => rfl, fun q _ => rfl, rfl, rfl⟩

/-- Claim C2: buddy allocation is first-fit by order — the upward scan
takes the head of the first non-empty list at or above the requested
order; when that happens at order `k`, each halving step frees the
upper half `pfn + (1 << j)` (marked free with order `j` and pushed as
head of the — previously empty — order-`j` list, `o ≤ j < k`), order
`k`'s list loses its head, the other lists are untouched, and the
retained page is finally marked `PG_buddy` with the requested order;
allocation returns NULL exactly when `o ≥ MAX_ORDER` or every list at
orders `o..MAX_ORDER-1` is empty. -/
theorem C2_alloc_pages_first_fit_split : ∀ (s : State) (o : Nat),
    ((alloc_pages s o).1 = none ↔
      (MAX_ORDER ≤ o ∨ ∀ k, o ≤ k → k < MAX_ORDER → s.buddy_free_area k = none)) ∧
    (∀ k pfn, findFreeFrom s o = some (k, pfn) →
      o ≤ k ∧ k < MAX_ORDER ∧ s.buddy_free_area k = some pfn ∧
      (∀ j, o ≤ j → j < k → s.buddy_free_area j = none) ∧
      (alloc_pages s o).1 = some pfn ∧
      ((alloc_pages s o).2.mem_map pfn).flags = PG_buddy ∧
      ((alloc_pages s o).2.mem_map pfn).order = o ∧
      ((alloc_pages s o).2.mem_map pfn).next = none ∧
      (∀ j, o ≤ j → j < k →
        (alloc_pages s o).2.buddy_free_area j = some (pfn + 2 ^ j) ∧
        ((alloc_pages s o).2.mem_map (pfn + 2 ^ j)).flags = PG_free ∧
        ((alloc_pages s o).2.mem_map (pfn + 2 ^ j)).order = j ∧
        ((alloc_pages s o).2.mem_map (pfn + 2 ^ j)).next = none) ∧
      (alloc_pages s o).2.buddy_free_area k = (s.mem_map pfn).next ∧
      (∀ j, j < o ∨ k < j →
        (alloc_pages s o).2.buddy_free_area j = s.buddy_free_area j)) := by
  intro s o
  constructor
  · cases hf : findFreeFrom s o with
    | none =>
      have hiff := findFreeAux_none_iff (MAX_ORDER + 1) o s (by omega)
      have halloc : alloc_pages s o = (none, s) := by
        unfold alloc_pages; rw [hf]
      rw [halloc]
      simp only [true_iff]
      exact Or.inr (hiff.mp hf)
    | some kp =>
      obtain ⟨k, pfn⟩ := kp
      obtain ⟨h1, h2, h3, _⟩ := findFreeAux_some _ _ _ _ _ hf
      have halloc : (alloc_pages s o).1 = some pfn := by
        unfold alloc_pages; rw [hf]
      rw [halloc]
      constructor
      · intro h; exact absurd h (by simp)
      · intro hor
        exfalso
        rcases hor with hbig | hall
        · omega
        · rw [hall k h1 h2] at h3; exact absurd h3 (by simp)
  · intro k pfn hf
    obtain ⟨h1, h2, h3, h4⟩ := findFreeAux_some _ _ _ _ _ hf
    set s1 : State :=
      { s with buddy_free_area := updArea s.buddy_free_area k (s.mem_map pfn).next }
      with hs1
    have hempty : ∀ j, o ≤ j → j < k → s1.buddy_free_area j = none := by
      intro j hj1 hj2
      show updArea s.buddy_free_area k (s.mem_map pfn).next j = none
      exact (updArea_other _ _ _ j (by omega)).trans (h4 j hj1 hj2)
    obtain ⟨hA, hB, hC, _, _⟩ := splitDown_char k s1 pfn o hempty
    set s2 := splitDown s1 pfn k o with hs2
    have halloc : alloc_pages s o = (some pfn,
        { s2 with
          mem_map := updMap s2.mem_map pfn
              { s2.mem_map pfn with flags := PG_buddy, order := o, next := none } }) := by
      unfold alloc_pages; rw [hf]
    have hm_half : ∀ j, o ≤ j → j < k →
        updMap s2.mem_map pfn
            { s2.mem_map pfn with flags := PG_buddy, order := o, next := none }
            (pfn + 2 ^ j) =
          s2.mem_map (pfn + 2 ^ j) := by
      intro j _ _
      refine updMap_other _ _ _ _ ?_
      have : 0 < 2 ^ j := Nat.pos_pow_of_pos j (by omega)
      omega
    refine ⟨h1, h2, h3, h4, ?_, ?_, ?_, ?_, ?_, ?_, ?_⟩
    · rw [halloc]
    · rw [halloc]; exact congrArg Page.flags (updMap_self _ _ _)
    · rw [halloc]; exact congrArg Page.order (updMap_self _ _ _)
    · rw [halloc]; exact congrArg Page.next (updMap_self _ _ _)
    · intro j hj1 hj2
      obtain ⟨hA1, hA2, hA3, hA4⟩ := hA j hj1 hj2
      rw [halloc]
      exact ⟨hA1, (congrArg Page.flags (hm_half j hj1 hj2)).trans hA2,
        (congrArg Page.order (hm_half j hj1 hj2)).trans hA3,
        (congrArg Page.next (hm_half j hj1 hj2)).trans hA4⟩
    · rw [halloc]
      show s2.buddy_free_area k = (s.mem_map pfn).next
      rw [hB k (Or.inr (Nat.le_refl k))]
      exact updArea_self _ _ _
    · intro j hj
      rw [halloc]
      show s2.buddy_free_area j = s.buddy_free_area j
      rw [hB j (by omega)]
      exact updArea_other _ _ _ j (by omega)

/-- Witness for C2: on the fresh allocator the scan for order 0 finds
the seed block (order 15, PFN 0) and the allocation returns PFN 0. -/
theorem C2_alloc_pages_first_fit_split_witness :
    findFreeFrom (initState (fun _ => 0)) 0 = some (15, 0) ∧
    (alloc_pages (initState (fun _ => 0)) 0).1 = some 0 :=
  ⟨by decide,
    ((C2_alloc_pages_first_fit_split (initState (fun _ => 0)) 0).2 15 0
      (by decide)).2.2.2.2.1⟩

/-! ### Characterization of cache growth (claim C6) -/

/-- A failed buddy allocation returns the state unchanged. -/
theorem alloc_pages_none_eq (s : State) (o : Nat)
    (h : (alloc_pages s o).1 = none) : alloc_pages s o = (none, s) := by
  unfold alloc_pages at h ⊢
  cases hf : findFreeFrom s o with
  | none => rfl
  | some kp =>
    obtain ⟨k, p⟩ := kp
    rw [hf] at h
    exact absurd h (by simp)

/-- The halving loop never touches the slab caches or the arena. -/
theorem splitDown_caches_mem : ∀ (cur : Nat) (s : State) (pfn target : Nat),
    (splitDown s pfn cur target).slab_caches = s.slab_caches ∧
    (splitDown s pfn cur target).mem = s.mem := by
  intro cur
  induction cur with
  | zero => intro s pfn target; exact ⟨rfl, rfl⟩
  | succ c ih =>
    intro s pfn target
    rw [splitDown]
    by_cases htc : target < c + 1
    · rw [if_pos htc]
      dsimp only
      exact ih _ pfn target
    · rw [if_neg htc]
      exact ⟨rfl, rfl⟩

/-- Buddy allocation never touches the slab caches or the arena. -/
theorem alloc_pages_caches_mem (s : State) (o : Nat) :
    (alloc_pages s o).2.slab_caches = s.slab_caches ∧
    (alloc_pages s o).2.mem = s.mem := by
  unfold alloc_pages
  cases hf : findFreeFrom s o with
  | none => exact ⟨rfl, rfl⟩
  | some kp =>
    obtain ⟨k, pfn⟩ := kp
    dsimp only
    obtain ⟨h1, h2⟩ := splitDown_caches_mem k
      { s with buddy_free_area := updArea s.buddy_free_area k (s.mem_map pfn).next }
      pfn o
    exact ⟨h1, h2⟩

/-- Closed form of the in-band freelist construction loop: slot `i`
(for `i < n`) stores the address of slot `i+1`, the last slot stores
the seed, the returned head is the first slot (or the seed when there
are no slots), and no other arena word changes. -/
theorem buildFL_char (addr sz : Nat) (hsz : 0 < sz) : ∀ (n : Nat) (m : Nat → Nat) (prev : Nat),
    (buildFL addr sz m n prev).2 = (if n = 0 then prev else addr) ∧
    (∀ i, i < n → (buildFL addr sz m n prev).1 (addr + i * sz) =
        (if i = n - 1 then prev else addr + (i + 1) * sz)) ∧
    (∀ a, (∀ i, i < n → a ≠ addr + i * sz) → (buildFL addr sz m n prev).1 a = m a) := by
  intro n
  induction n with
  | zero =>
    intro m prev
    exact ⟨by simp [buildFL], fun i hi => absurd hi (by omega), fun a _ => rfl⟩
  | succ n ih =>
    intro m prev
    obtain ⟨ih1, ih2, ih3⟩ := ih (updMem m (addr + n * sz) prev) (addr + n * sz)
    have hstep : buildFL addr sz m (n + 1) prev =
        buildFL addr sz (updMem m (addr + n * sz) prev) n (addr + n * sz) := by
      rw [buildFL]
    refine ⟨?_, ?_, ?_⟩
    · rw [hstep, ih1]
      cases n with
      | zero => simp
      | succ n' => simp
    · intro i hi
      rcases Nat.lt_or_ge i n with hin | hin
      · rw [hstep, ih2 i hin]
        by_cases hii : i = n - 1
        · have hn : n = i + 1 := by omega
          rw [if_pos hii, if_neg (by omega), hn]
        · rw [if_neg hii, if_neg (by omega)]
      · have hieq : i = n := by omega
        subst hieq
        have hne : ∀ i', i' < i → addr + i * sz ≠ addr + i' * sz := by
          intro i' hi'
          have : i' * sz < i * sz := (Nat.mul_lt_mul_right hsz).mpr hi'
          omega
        rw [hstep, ih3 _ hne, if_pos (by omega)]
        exact updMem_self _ _ _
    · intro a ha
      have ha' : ∀ i, i < n → a ≠ addr + i * sz := fun i hi => ha i (by omega)
      rw [hstep, ih3 a ha']
      exact updMem_other _ _ _ _ (ha n (by omega))

/-- Claim C6: `cache_grow` asks the buddy allocator for exactly one
order-0 page; on failure it reports failure with the whole state
(hence the cache) unmodified and no retry; on success it partitions the
page into `⌊PAGE_SIZE / obj_size⌋` slots linked through their leading
words (slot `i` points to slot `i+1`, the last slot holds the null
sentinel, the freelist head is the first slot), marks the page
`PG_slab` owned by this cache with `active_objects = 0`, and pushes it
onto the front of the cache's partial list; nothing else changes. -/
theorem C6_cache_grow_builds_slab : ∀ (s : State) (ci : Nat),
    ((alloc_pages s 0).1 = none → cache_grow s ci = (false, s)) ∧
    (∀ pfn, (alloc_pages s 0).1 = some pfn →
      0 < (s.slab_caches ci).obj_size →
      (cache_grow s ci).1 = true ∧
      ((cache_grow s ci).2.mem_map pfn).flags = PG_slab ∧
      ((cache_grow s ci).2.mem_map pfn).slab_cache = some ci ∧
      ((cache_grow s ci).2.mem_map pfn).active_objects = 0 ∧
      ((cache_grow s ci).2.slab_caches ci).slabPartial = some pfn ∧
      ((cache_grow s ci).2.mem_map pfn).next = (s.slab_caches ci).slabPartial ∧
      ((cache_grow s ci).2.mem_map pfn).freelist =
        (if PAGE_SIZE / (s.slab_caches ci).obj_size = 0 then 0 else page_address pfn) ∧
      (∀ i, i < PAGE_SIZE / (s.slab_caches ci).obj_size →
        (cache_grow s ci).2.mem (page_address pfn + i * (s.slab_caches ci).obj_size) =
          (if i = PAGE_SIZE / (s.slab_caches ci).obj_size - 1 then 0
           else page_address pfn + (i + 1) * (s.slab_caches ci).obj_size)) ∧
      (∀ a, (∀ i, i < PAGE_SIZE / (s.slab_caches ci).obj_size →
          a ≠ page_address pfn + i * (s.slab_caches ci).obj_size) →
        (cache_grow s ci).2.mem a = s.mem a) ∧
      (∀ q, q ≠ pfn → (cache_grow s ci).2.mem_map q = (alloc_pages s 0).2.mem_map q) ∧
      (∀ j, (cache_grow s ci).2.buddy_free_area j = (alloc_pages s 0).2.buddy_free_area j) ∧
      (∀ c, c ≠ ci → (cache_grow s ci).2.slab_caches c = s.slab_caches c)) := by
  intro s ci
  constructor
  · intro h
    have heq := alloc_pages_none_eq s 0 h
    unfold cache_grow
    rw [heq]
  · intro pfn h hsz
    obtain ⟨hcach, hmem⟩ := alloc_pages_caches_mem s 0
    have hpair : alloc_pages s 0 = (some pfn, (alloc_pages s 0).2) := by
      rw [← h]
    set s1 := (alloc_pages s 0).2 with hs1
    have hgrow : cache_grow s ci = (true,
        { s1 with
          mem := (buildFL (page_address pfn) ((s1.slab_caches ci).obj_size) s1.mem
            (PAGE_SIZE / (s1.slab_caches ci).obj_size) 0).1
          mem_map := updMap s1.mem_map pfn
            { s1.mem_map pfn with
              flags := PG_slab
              slab_cache := some ci
              active_objects := 0
              freelist := (buildFL (page_address pfn) ((s1.slab_caches ci).obj_size) s1.mem
                (PAGE_SIZE / (s1.slab_caches ci).obj_size) 0).2
              next := (s1.slab_caches ci).slabPartial }
          slab_caches := updCache s1.slab_caches ci
            { s1.slab_caches ci with slabPartial := some pfn } }) := by
      unfold cache_grow
      rw [hpair]
    have hszeq : (s1.slab_caches ci).obj_size = (s.slab_caches ci).obj_size := by
      rw [hcach]
    obtain ⟨hF1, hF2, hF3⟩ := buildFL_char (page_address pfn)
      ((s.slab_caches ci).obj_size) hsz
      (PAGE_SIZE / (s.slab_caches ci).obj_size) s1.mem 0
    rw [hszeq] at hgrow
    refine ⟨?_, ?_, ?_, ?_, ?_, ?_, ?_, ?_, ?_, ?_, ?_, ?_⟩
    · rw [hgrow]
    · rw [hgrow]; exact congrArg Page.flags (updMap_self _ _ _)
    · rw [hgrow]; exact congrArg Page.slab_cache (updMap_self _ _ _)
    · rw [hgrow]; exact congrArg Page.active_objects (updMap_self _ _ _)
    · rw [hgrow]; exact congrArg KmemCache.slabPartial (updCache_self _ _ _)
    · rw [hgrow]
      refine (congrArg Page.next (updMap_self _ _ _)).trans ?_
      rw [hcach]
    · rw [hgrow]
      exact (congrArg Page.freelist (updMap_self _ _ _)).trans hF1
    · intro i hi
      rw [hgrow]
      exact hF2 i hi
    · intro a ha
      rw [hgrow]
      exact (hF3 a ha).trans (congrFun hmem a)
    · intro q hq
      rw [hgrow]
      exact updMap_other _ _ _ q hq
    · intro j
      rw [hgrow]
    · intro c hc
      rw [hgrow]
      exact (updCache_other _ _ _ c hc).trans (congrFun hcach c)

/-- Witness for C6: growing the 32-byte cache on the fresh allocator
succeeds and installs page 0 at the front of its partial list. -/
theorem C6_cache_grow_builds_slab_witness :
    (cache_grow (initState (fun _ => 0)) 0).1 = true ∧
    ((cache_grow (initState (fun _ => 0)) 0).2.slab_caches 0).slabPartial = some 0 :=
  ⟨(((C6_cache_grow_builds_slab (initState (fun _ => 0)) 0).2 0 (by decide)
      (by decide)).1),
   (((C6_cache_grow_builds_slab (initState (fun _ => 0)) 0).2 0 (by decide)
      (by decide)).2.2.2.2.1)⟩

/-! ### Characterization of slab allocation (claim C7) -/

/-- Claim C7: slab allocation grows the cache exactly when the partial
list is empty, propagating the grow failure (with the grow's state)
and otherwise continuing on the grown state; on a non-empty partial
list with front page `p` and non-null freelist head `obj`, it returns
`obj`, advances the freelist to the word stored in `obj`, increments
`active_objects`, removes the page from the partial list exactly when
the freelist ran dry (also clearing its link), and zeroes the leading
pointer-sized word of `obj` before returning it. -/
theorem C7_kmem_cache_alloc_pop : ∀ (s : State) (ci : Nat),
    ((s.slab_caches ci).slabPartial = none →
      ((cache_grow s ci).1 = false →
        kmem_cache_alloc s ci = (none, (cache_grow s ci).2)) ∧
      ((cache_grow s ci).1 = true →
        kmem_cache_alloc s ci = cacheAllocPop (cache_grow s ci).2 ci)) ∧
    (∀ p, (s.slab_caches ci).slabPartial = some p →
      kmem_cache_alloc s ci = cacheAllocPop s ci) ∧
    (∀ p obj, (s.slab_caches ci).slabPartial = some p →
      (s.mem_map p).freelist = obj → obj ≠ 0 →
      (cacheAllocPop s ci).1 = some obj ∧
      (cacheAllocPop s ci).2.mem obj = 0 ∧
      ((cacheAllocPop s ci).2.mem_map p).active_objects =
        (s.mem_map p).active_objects + 1 ∧
      ((cacheAllocPop s ci).2.mem_map p).freelist = s.mem obj ∧
      ((cacheAllocPop s ci).2.mem_map p).flags = (s.mem_map p).flags ∧
      (s.mem obj = 0 →
        ((cacheAllocPop s ci).2.slab_caches ci).slabPartial = (s.mem_map p).next ∧
        ((cacheAllocPop s ci).2.mem_map p).next = none) ∧
      (s.mem obj ≠ 0 →
        ((cacheAllocPop s ci).2.slab_caches ci).slabPartial = some p ∧
        ((cacheAllocPop s ci).2.mem_map p).next = (s.mem_map p).next) ∧
      (∀ a, a ≠ obj → (cacheAllocPop s ci).2.mem a = s.mem a) ∧
      (∀ q, q ≠ p → (cacheAllocPop s ci).2.mem_map q = s.mem_map q) ∧
      (∀ j, (cacheAllocPop s ci).2.buddy_free_area j = s.buddy_free_area j)) := by
  intro s ci
  refine ⟨?_, ?_, ?_⟩
  · intro hp
    have hpair : cache_grow s ci = ((cache_grow s ci).1, (cache_grow s ci).2) := rfl
    constructor
    · intro hgf
      rw [hgf] at hpair
      unfold kmem_cache_alloc
      rw [hp, hpair]
    · intro hgt
      rw [hgt] at hpair
      unfold kmem_cache_alloc
      rw [hp, hpair]
  · intro p hp
    unfold kmem_cache_alloc
    rw [hp]
  · intro p obj hp hobj hne
    by_cases hfl : s.mem obj = 0
    · have hpop : cacheAllocPop s ci = (some obj,
          { s with
            mem_map :=
              updMap (updMap s.mem_map p
                  { s.mem_map p with
                    freelist := s.mem obj
                    active_objects := (s.mem_map p).active_objects + 1 }) p
                { s.mem_map p with
                  freelist := s.mem obj
                  active_objects := (s.mem_map p).active_objects + 1
                  next := none }
            slab_caches :=
              updCache s.slab_caches ci
                { s.slab_caches ci with slabPartial := (s.mem_map p).next }
            mem := updMem s.mem obj 0 }) := by
        unfold cacheAllocPop
        rw [hp]
        dsimp only
        rw [hobj, if_neg hne, if_pos hfl]
      rw [hpop]
      refine ⟨rfl, by simp [updMem], by simp [updMap], by simp [updMap],
        by simp [updMap], ?_, ?_, ?_, ?_, fun j => rfl⟩
      · intro _
        exact ⟨by simp [updCache], by simp [updMap]⟩
      · intro h; exact absurd hfl h
      · intro a ha; simp [updMem, ha]
      · intro q hq; simp [updMap, hq]
    · have hpop : cacheAllocPop s ci = (some obj,
          { s with
            mem_map :=
              updMap s.mem_map p
                { s.mem_map p with
                  freelist := s.mem obj
                  active_objects := (s.mem_map p).active_objects + 1 }
            mem := updMem s.mem obj 0 }) := by
        unfold cacheAllocPop
        rw [hp]
        dsimp only
        rw [hobj, if_neg hne, if_neg hfl]
      rw [hpop]
      refine ⟨rfl, by simp [updMem], by simp [updMap], by simp [updMap],
        by simp [updMap], ?_, ?_, ?_, ?_, fun j => rfl⟩
      · intro h; exact absurd h hfl
      · intro _
        exact ⟨hp, by simp [updMap]⟩
      · intro a ha; simp [updMem, ha]
      · intro q hq; simp [updMap, hq]

/-- Witness for C7: on the grown fresh cache, allocation pops the first
object (the page base) and bumps the active count to 1. -/
theorem C7_kmem_cache_alloc_pop_witness :
    (cacheAllocPop (cache_grow (initState (fun _ => 0)) 0).2 0).1 =
      some PHYS_MEM_START ∧
    ((cacheAllocPop (cache_grow (initState (fun _ => 0)) 0).2 0).2.mem_map 0).active_objects = 1 :=
  ⟨(((C7_kmem_cache_alloc_pop (cache_grow (initState (fun _ => 0)) 0).2 0).2.2)
      0 PHYS_MEM_START (by decide) (by decide) (by decide)).1,
   by
    have h := (((C7_kmem_cache_alloc_pop (cache_grow (initState (fun _ => 0)) 0).2 0).2.2)
      0 PHYS_MEM_START (by decide) (by decide) (by decide)).2.2.1
    rw [h]
    decide⟩

/-! ### Characterization of slab free (claim C8) -/

/-- The unlink walk never rewrites the target's own descriptor. -/
theorem unlinkAux_target : ∀ (fuel cur tgt : Nat) (mm : Nat → Page),
    cur ≠ tgt → unlinkAux mm cur tgt fuel tgt = mm tgt := by
  intro fuel
  induction fuel with
  | zero => intro cur tgt mm _; rfl
  | succ n ih =>
    intro cur tgt mm hne
    rw [unlinkAux]
    cases hnext : (mm cur).next with
    | none => rfl
    | some m =>
      dsimp only
      by_cases hm : m = tgt
      · rw [if_pos hm]
        exact updMap_other _ _ _ _ (Ne.symm hne)
      · rw [if_neg hm]
        exact ih m tgt mm hm

/-- Removing a page from a list leaves that page's own descriptor
unchanged. -/
theorem unlinkList_target (mm : Nat → Page) (head : Option Nat) (tgt : Nat) :
    (unlinkList mm head tgt).2 tgt = mm tgt := by
  unfold unlinkList
  cases head with
  | none => rfl
  | some h =>
    dsimp only
    by_cases hh : h = tgt
    · rw [if_pos hh]
    · rw [if_neg hh]
      exact unlinkAux_target _ _ _ _ hh

/-! ### Reachability framework for the global invariants (claims C4, C5)

The allocator's global invariants are stated over states reachable from
initialization by legal call sequences. Legality of a `kfree` cannot be
read off the state alone (a stale `PG_buddy` descriptor inside a merged
block is indistinguishable from a live allocation), so reachability is
instrumented with ghost bookkeeping: a partition of the page range into
regions (listed free blocks, live buddy allocations, slab pages) and the
set of live slab objects. The ghost is specification-side only — the
operational definitions above are untouched. -/

/-- Ghost classification of a region of pages. -/
inductive RKind where
  | freeR
  | buddyR
  | slabR
deriving DecidableEq

/-- A ghost region: an aligned block of `2^ord` pages starting at `pfn`. -/
structure Region where
  pfn : Nat
  ord : Nat
  kind : RKind
deriving DecidableEq

/-- Ghost state: the region partition and the live slab objects. -/
structure Ghost where
  regions : List Region
  live : List Nat

/-- `IsChain mm head l`: `l` is the (finite, nil-terminated) contents of
the `next`-linked list starting at `head`. -/
inductive IsChain (mm : Nat → Page) : Option Nat → List Nat → Prop where
  | nil : IsChain mm none []
  | cons : ∀ (p : Nat) (l : List Nat),
      IsChain mm (mm p).next l → IsChain mm (some p) (p :: l)

/-- `IsFChain mem head l`: `l` is the contents of the in-band freelist
starting at address `head` (`0` = null sentinel), each link stored in
the arena word at the previous element. -/
inductive IsFChain (mem : Nat → Nat) : Nat → List Nat → Prop where
  | nil : IsFChain mem 0 []
  | cons : ∀ (a : Nat) (l : List Nat), a ≠ 0 →
      IsFChain mem (mem a) l → IsFChain mem a (a :: l)

/-! #### Chain lemmas -/

theorem IsChain.unique {mm : Nat → Page} : ∀ {h : Option Nat} {l1 l2 : List Nat},
    IsChain mm h l1 → IsChain mm h l2 → l1 = l2 := by
  intro h l1
  induction l1 generalizing h with
  | nil =>
    intro l2 h1 h2
    cases h1
    cases h2
    rfl
  | cons p t ih =>
    intro l2 h1 h2
    cases h1
    cases h2
    congr 1
    exact ih (by assumption) (by assumption)

theorem IsChain.stable {mm mm' : Nat → Page} : ∀ {h : Option Nat} {l : List Nat},
    IsChain mm h l → (∀ p ∈ l, (mm' p).next = (mm p).next) → IsChain mm' h l := by
  intro h l hc
  induction hc with
  | nil => intro _; exact IsChain.nil
  | cons p t ht ih =>
    intro hsame
    refine IsChain.cons p t ?_
    rw [hsame p (by simp)]
    exact ih (fun q hq => hsame q (by simp [hq]))

theorem IsChain.mem_ne_none {mm : Nat → Page} {h : Option Nat} {l : List Nat}
    (hc : IsChain mm h l) (hne : l ≠ []) : ∃ p l', h = some p ∧ l = p :: l' := by
  cases hc with
  | nil => exact absurd rfl hne
  | cons p t ht => exact ⟨p, t, rfl, rfl⟩

theorem IsFChain.uniqueF {mem : Nat → Nat} : ∀ {h : Nat} {l1 l2 : List Nat},
    IsFChain mem h l1 → IsFChain mem h l2 → l1 = l2 := by
  intro h l1
  induction l1 generalizing h with
  | nil =>
    intro l2 h1 h2
    cases h1
    cases h2 with
    | nil => rfl
    | cons a l ha _ => exact absurd rfl ha
  | cons a t ih =>
    intro l2 h1 h2
    cases h1 with
    | cons _ _ ha ht =>
      cases h2 with
      | nil => exact absurd rfl ha
      | cons _ _ _ ht2 =>
        congr 1
        exact ih ht ht2

theorem IsFChain.stableF {mem mem' : Nat → Nat} : ∀ {h : Nat} {l : List Nat},
    IsFChain mem h l → (∀ a ∈ l, mem' a = mem a) → IsFChain mem' h l := by
  intro h l hc
  induction hc with
  | nil => intro _; exact IsFChain.nil
  | cons a t ha ht ih =>
    intro hsame
    refine IsFChain.cons a t ha ?_
    rw [hsame a (by simp)]
    exact ih (fun b hb => hsame b (by simp [hb]))

/-! #### Bit geometry of buddies -/

/-- Addition splits into XOR plus twice the AND (carry decomposition). -/
theorem add_eq_xor_add_two_land : ∀ (a b : Nat), a + b = (a ^^^ b) + 2 * (a &&& b) := by
  intro a
  induction a using Nat.strong_induction_on with
  | _ a ih =>
    intro b
    rcases Nat.eq_zero_or_pos a with rfl | hpos
    · simp
    · have ha2 : a / 2 < a := Nat.div_lt_self hpos (by omega)
      have hrec := ih (a / 2) ha2 (b / 2)
      have hx : (a ^^^ b) / 2 = a / 2 ^^^ b / 2 := Nat.xor_div_two
      have hn : (a &&& b) / 2 = a / 2 &&& b / 2 := Nat.and_div_two
      have hxm := Nat.xor_mod_two_eq_one (a := a) (b := b)
      have hnm := Nat.and_mod_two_eq_one (a := a) (b := b)
      have e1 : a = 2 * (a / 2) + a % 2 := by omega
      have e2 : b = 2 * (b / 2) + b % 2 := by omega
      have e3 : a ^^^ b = 2 * ((a ^^^ b) / 2) + (a ^^^ b) % 2 := by omega
      have e4 : a &&& b = 2 * ((a &&& b) / 2) + (a &&& b) % 2 := by omega
      have hma : a % 2 = 0 ∨ a % 2 = 1 := Nat.mod_two_eq_zero_or_one a
      have hmb : b % 2 = 0 ∨ b % 2 = 1 := Nat.mod_two_eq_zero_or_one b
      have hmx : (a ^^^ b) % 2 = 0 ∨ (a ^^^ b) % 2 = 1 :=
        Nat.mod_two_eq_zero_or_one _
      have hmn : (a &&& b) % 2 = 0 ∨ (a &&& b) % 2 = 1 :=
        Nat.mod_two_eq_zero_or_one _
      rw [hx, hn] at *
      rcases hma with hA | hA <;> rcases hmb with hB | hB
      · have h1 : ¬(a ^^^ b) % 2 = 1 := by
          rw [hxm]; simp [hA, hB]
        have h2 : ¬(a &&& b) % 2 = 1 := by
          rw [hnm]; simp [hA]
        omega
      · have h1 : (a ^^^ b) % 2 = 1 := by
          rw [hxm]; simp [hA, hB]
        have h2 : ¬(a &&& b) % 2 = 1 := by
          rw [hnm]; simp [hA]
        omega
      · have h1 : (a ^^^ b) % 2 = 1 := by
          rw [hxm]; simp [hA, hB]
        have h2 : ¬(a &&& b) % 2 = 1 := by
          rw [hnm]; simp [hB]
        omega
      · have h1 : ¬(a ^^^ b) % 2 = 1 := by
          rw [hxm]; simp [hA, hB]
        have h2 : (a &&& b) % 2 = 1 := by
          rw [hnm]; exact ⟨hA, hB⟩
        omega

/-- The AND of a number with a single bit, by cases on that bit. -/
theorem land_two_pow (x o : Nat) :
    x &&& 2 ^ o = (if x.testBit o then 2 ^ o else 0) := by
  refine Nat.eq_of_testBit_eq fun i => ?_
  rcases eq_or_ne i o with rfl | hne
  · rw [Nat.testBit_land, Nat.testBit_two_pow_self]
    cases hx : x.testBit i
    · simp [hx]
    · simp [hx, Nat.testBit_two_pow_self]
  · rw [Nat.testBit_land, Nat.testBit_two_pow_of_ne (Ne.symm hne), Bool.and_false]
    cases hx : x.testBit o
    · simp
    · simp [Nat.testBit_two_pow_of_ne (Ne.symm hne)]

/-- XOR with a single clear bit adds it. -/
theorem xor_two_pow_of_testBit_false {x o : Nat} (h : x.testBit o = false) :
    x ^^^ 2 ^ o = x + 2 ^ o := by
  have hand : x &&& 2 ^ o = 0 := by rw [land_two_pow, h]; rfl
  have := add_eq_xor_add_two_land x (2 ^ o)
  rw [hand] at this
  omega

/-- XOR with a single set bit subtracts it. -/
theorem xor_two_pow_of_testBit_true {x o : Nat} (h : x.testBit o = true) :
    x ^^^ 2 ^ o = x - 2 ^ o ∧ 2 ^ o ≤ x := by
  have hand : x &&& 2 ^ o = 2 ^ o := by rw [land_two_pow, h]; rfl
  have hid := add_eq_xor_add_two_land x (2 ^ o)
  rw [hand] at hid
  constructor <;> omega

/-- `testBit` as a divisibility statement for aligned numbers: for
`2^o ∣ x`, bit `o` is clear exactly when `2^(o+1) ∣ x`. -/
theorem testBit_false_iff_dvd {x o : Nat} (hal : 2 ^ o ∣ x) :
    (x.testBit o = false ↔ 2 ^ (o + 1) ∣ x) := by
  obtain ⟨t, rfl⟩ := hal
  have h2 : (0 : Nat) < 2 ^ o := Nat.pos_pow_of_pos o (by omega)
  have hdiv : 2 ^ o * t / 2 ^ o = t := Nat.mul_div_cancel_left t h2
  rw [Nat.testBit_to_div_mod, hdiv, Nat.pow_succ]
  constructor
  · intro h
    have hne := of_decide_eq_false h
    have ht : t % 2 = 0 := by omega
    obtain ⟨u, hu⟩ := Nat.dvd_of_mod_eq_zero ht
    exact ⟨u, by rw [hu]; ring⟩
  · rintro ⟨u, hu⟩
    have ht : t = 2 * u := by
      have he : 2 ^ o * t = 2 ^ o * (2 * u) := by rw [hu]; ring
      exact Nat.eq_of_mul_eq_mul_left h2 he
    simp [ht, Nat.mul_mod_right]

/-- Buddy geometry: for a `2^o`-aligned PFN `p`, its buddy
`b = p XOR 2^o` is also aligned, the smaller of the two is
`2^(o+1)`-aligned, and the larger sits exactly `2^o` above it. -/
theorem buddy_cases {p o : Nat} (hal : 2 ^ o ∣ p) :
    (p.testBit o = false ∧ p ^^^ 2 ^ o = p + 2 ^ o ∧ 2 ^ (o + 1) ∣ p) ∨
    (p.testBit o = true ∧ p ^^^ 2 ^ o = p - 2 ^ o ∧ 2 ^ o ≤ p ∧
      2 ^ (o + 1) ∣ (p - 2 ^ o)) := by
  cases hb : p.testBit o
  · exact Or.inl ⟨rfl, xor_two_pow_of_testBit_false hb,
      (testBit_false_iff_dvd hal).mp hb⟩
  · obtain ⟨hsub, hle⟩ := xor_two_pow_of_testBit_true hb
    refine Or.inr ⟨rfl, hsub, hle, ?_⟩
    have h2 : (0 : Nat) < 2 ^ o := Nat.pos_pow_of_pos o (by omega)
    obtain ⟨t, ht⟩ := hal
    have hto : t % 2 = 1 := by
      have hdm := Nat.testBit_to_div_mod (x := p) (i := o)
      rw [hb, ht, Nat.mul_div_cancel_left t h2] at hdm
      exact of_decide_eq_true hdm.symm
    obtain ⟨u, hu⟩ : 2 ∣ t - 1 := by omega
    refine ⟨u, ?_⟩
    rw [ht, Nat.pow_succ]
    have htu : t = 2 * u + 1 := by omega
    rw [htu]
    have he : 2 ^ o * (2 * u + 1) = 2 ^ o * 2 * u + 2 ^ o := by ring
    omega

/-- Two aligned blocks either nest or are disjoint: an aligned `2^u`
block meeting an aligned `2^v` block with `u ≤ v` lies inside it. -/
theorem aligned_subset {x u y v z : Nat} (hux : 2 ^ u ∣ x) (hvy : 2 ^ v ∣ y)
    (huv : u ≤ v) (hz1 : x ≤ z) (hz2 : z < x + 2 ^ u) (hz3 : y ≤ z)
    (hz4 : z < y + 2 ^ v) : y ≤ x ∧ x + 2 ^ u ≤ y + 2 ^ v := by
  have hdvd : 2 ^ u ∣ y := Nat.dvd_trans (Nat.pow_dvd_pow 2 huv) hvy
  have h2u : (0 : Nat) < 2 ^ u := Nat.pos_pow_of_pos u (by omega)
  constructor
  · by_contra hxy
    push_neg at hxy
    have hd : 2 ^ u ∣ y - x := Nat.dvd_sub' hdvd hux
    have h1 : y - x < 2 ^ u := by omega
    have h2 : 0 < y - x := by omega
    obtain ⟨c, hc⟩ := hd
    rcases Nat.eq_zero_or_pos c with rfl | hcpos
    · omega
    · have : 2 ^ u ≤ y - x := by
        rw [hc]; exact Nat.le_mul_of_pos_right _ hcpos
      omega
  · by_contra hxy
    push_neg at hxy
    have hd : 2 ^ u ∣ x - y := Nat.dvd_sub' hux hdvd
    have hd2 : 2 ^ u ∣ (2 ^ v - 2 ^ u) := by
      refine Nat.dvd_sub' (Nat.pow_dvd_pow 2 huv) (Nat.dvd_refl _)
    have hxylt : x - y < 2 ^ v := by omega
    -- x - y is a multiple of 2^u below 2^v, but x + 2^u > y + 2^v
    -- forces x - y > 2^v - 2^u, contradicting divisibility.
    have hgt : 2 ^ v - 2 ^ u < x - y := by
      have h2v : 2 ^ u ≤ 2 ^ v := Nat.pow_le_pow_right (by omega) huv
      omega
    have hdvd3 : 2 ^ u ∣ (x - y) - (2 ^ v - 2 ^ u) := Nat.dvd_sub' hd hd2
    have hpos3 : 0 < (x - y) - (2 ^ v - 2 ^ u) := by omega
    have hlt3 : (x - y) - (2 ^ v - 2 ^ u) < 2 ^ u := by
      have h2v : 2 ^ u ≤ 2 ^ v := Nat.pow_le_pow_right (by omega) huv
      omega
    obtain ⟨c, hc⟩ := hdvd3
    rcases Nat.eq_zero_or_pos c with rfl | hcpos
    · omega
    · have : 2 ^ u ≤ (x - y) - (2 ^ v - 2 ^ u) := by
        rw [hc]; exact Nat.le_mul_of_pos_right _ hcpos
      omega

/-- All page fields except the list link survive an update that only
rewrites `next`. -/
def SameButNext (mm mm' : Nat → Page) : Prop :=
  ∀ q, ((mm' q).flags = (mm q).flags) ∧ ((mm' q).order = (mm q).order) ∧
    ((mm' q).freelist = (mm q).freelist) ∧
    ((mm' q).active_objects = (mm q).active_objects) ∧
    ((mm' q).slab_cache = (mm q).slab_cache)

theorem sameButNext_refl (mm : Nat → Page) : SameButNext mm mm :=
  fun _ => ⟨rfl, rfl, rfl, rfl, rfl⟩

theorem IsChain.cons_inv {mm : Nat → Page} {h : Option Nat} {p : Nat}
    {rest : List Nat} (hc : IsChain mm h (p :: rest)) :
    h = some p ∧ IsChain mm (mm p).next rest := by
  cases hc with
  | cons _ _ hr => exact ⟨rfl, hr⟩

theorem sameButNext_updNext (mm : Nat → Page) (i : Nat) (h : Option Nat) :
    SameButNext mm (updMap mm i { mm i with next := h }) := by
  intro q
  by_cases hq : q = i
  · subst hq
    rw [updMap_self]
    exact ⟨rfl, rfl, rfl, rfl, rfl⟩
  · rw [updMap_other _ _ _ _ hq]
    exact ⟨rfl, rfl, rfl, rfl, rfl⟩

/-- Effect of the inner unlink walk on the chain hanging off `cur`:
the target is erased, nodes outside the chain (and the target itself)
are untouched, and only `next` links change anywhere. -/
theorem unlinkAux_chain : ∀ (rest : List Nat) (fuel cur b : Nat) (mm : Nat → Page),
    IsChain mm (mm cur).next rest → b ∈ rest → List.Nodup (cur :: rest) →
    rest.length ≤ fuel →
    IsChain (unlinkAux mm cur b fuel) (some cur) (cur :: rest.erase b) ∧
    (∀ q, q ∉ (cur :: rest) → unlinkAux mm cur b fuel q = mm q) ∧
    (unlinkAux mm cur b fuel b = mm b) ∧
    SameButNext mm (unlinkAux mm cur b fuel) := by
  intro rest
  induction rest with
  | nil => intro fuel cur b mm _ hb; exact absurd hb (by simp)
  | cons r rest' ih =>
    intro fuel cur b mm hchain hb hnd hlen
    obtain ⟨hnext, hrest⟩ := hchain.cons_inv
    cases fuel with
    | zero => simp at hlen
    | succ f =>
      rw [unlinkAux, hnext]
      dsimp only
      by_cases hrb : r = b
      · rw [if_pos hrb]
        subst hrb
        have hcurr : cur ≠ r := by
          intro h; rw [h] at hnd; simp at hnd
        have hrrest : r ∉ rest' := by
          simp at hnd; exact hnd.2.1
        refine ⟨?_, ?_, ?_, sameButNext_updNext mm cur (mm r).next⟩
        · have herase : (r :: rest').erase r = rest' := by simp
          rw [herase]
          refine IsChain.cons cur rest' ?_
          rw [updMap_self]
          show IsChain _ (mm r).next rest'
          refine hrest.stable ?_
          intro q hq
          have hqcur : q ≠ cur := by
            intro h; subst h
            simp at hnd
            exact hnd.1.2 hq
          rw [updMap_other _ _ _ _ hqcur]
        · intro q hq
          have : q ≠ cur := by intro h; subst h; simp at hq
          exact updMap_other _ _ _ _ this
        · have : r ≠ cur := fun h => by
            rw [h] at hnd; simp at hnd
          exact updMap_other _ _ _ _ this
      · rw [if_neg hrb]
        have hb' : b ∈ rest' := by
          rcases List.mem_cons.mp hb with h | h
          · exact absurd h.symm hrb
          · exact h
        have hnd' : List.Nodup (r :: rest') := by
          simp at hnd ⊢
          exact ⟨hnd.2.1, hnd.2.2⟩
        have hlen' : rest'.length ≤ f := by simp at hlen; omega
        obtain ⟨ihc, ihf, ihb, ihs⟩ := ih f r b mm hrest hb' hnd' hlen'
        have hcur_notin : cur ∉ r :: rest' := by
          simp at hnd ⊢
          exact ⟨hnd.1.1, hnd.1.2⟩
        have hcur_same : unlinkAux mm r b f cur = mm cur := ihf cur hcur_notin
        refine ⟨?_, ?_, ihb, ihs⟩
        · have herase : (r :: rest').erase b = r :: rest'.erase b := by
            rw [List.erase_cons_tail]
            simp [hrb]
          rw [herase]
          refine IsChain.cons cur (r :: rest'.erase b) ?_
          rw [hcur_same, hnext]
          exact ihc
        · intro q hq
          refine ihf q ?_
          simp at hq ⊢
          exact ⟨fun h => hq.2.1 h, fun h => hq.2.2 h⟩

/-- Effect of the C unlink idiom on the whole list: the first occurrence
of the target is removed, every node outside the list (and the target)
keeps its descriptor, and only `next` links change anywhere. -/
theorem unlinkList_spec (mm : Nat → Page) (head : Option Nat) (b : Nat)
    (l : List Nat) (hc : IsChain mm head l) (hnd : l.Nodup) (hb : b ∈ l)
    (hlen : l.length ≤ NUM_PAGES) :
    IsChain (unlinkList mm head b).2 (unlinkList mm head b).1 (l.erase b) ∧
    (∀ q, q ∉ l → (unlinkList mm head b).2 q = mm q) ∧
    ((unlinkList mm head b).2 b = mm b) ∧
    SameButNext mm (unlinkList mm head b).2 := by
  cases hc with
  | nil => exact absurd hb (by simp)
  | cons p rest hrest =>
    unfold unlinkList
    dsimp only
    by_cases hpb : p = b
    · rw [if_pos hpb]
      subst hpb
      have herase : (p :: rest).erase p = rest := by simp
      rw [herase]
      exact ⟨hrest, fun q _ => rfl, rfl, sameButNext_refl mm⟩
    · rw [if_neg hpb]
      have hb' : b ∈ rest := by
        rcases List.mem_cons.mp hb with h | h
        · exact absurd h.symm hpb
        · exact h
      have hlen' : rest.length ≤ NUM_PAGES := by simp at hlen; omega
      obtain ⟨ihc, ihf, ihb, ihs⟩ :=
        unlinkAux_chain rest NUM_PAGES p b mm hrest hb' hnd hlen'
      have herase : (p :: rest).erase b = p :: rest.erase b := by
        rw [List.erase_cons_tail]
        simp [hpb]
      rw [herase]
      refine ⟨ihc, ?_, ihb, ihs⟩
      intro q hq
      refine ihf q ?_
      simpa using hq

/-! #### The global invariant

`InvC s g hole` ties a machine state to its ghost bookkeeping. The
`hole` predicate carves out the pages of a floating block (a block the
current operation holds privately, absent from the region partition);
the top-level invariant `Inv` has an empty hole. -/

/-- Pages inside the half-open block `[pfn, pfn + 2^o)`. -/
def InHole (pfn o q : Nat) : Prop := pfn ≤ q ∧ q < pfn + 2 ^ o

/-- Interval disjointness of two regions. -/
def RDisj (R T : Region) : Prop :=
  R.pfn + 2 ^ R.ord ≤ T.pfn ∨ T.pfn + 2 ^ T.ord ≤ R.pfn

/-- The block `[pfn, pfn + 2^o)` is a well-formed floating block for
ghost `g`: aligned, in bounds, of legal order, and disjoint from every
listed region. -/
def Floating (g : Ghost) (pfn o : Nat) : Prop :=
  2 ^ o ∣ pfn ∧ pfn + 2 ^ o ≤ NUM_PAGES ∧ o < MAX_ORDER ∧
  ∀ R ∈ g.regions, R.pfn + 2 ^ R.ord ≤ pfn ∨ pfn + 2 ^ o ≤ R.pfn

/-- Well-formedness of the slab page at `p`: a legal owning cache, slab
flags, an in-band freelist of distinct in-page slots whose length
accounts for `active_objects`, and the ghost `live` set holding exactly
the slots that are not on the freelist. -/
def SlabPageOK (s : State) (live : List Nat) (p : Nat) : Prop :=
  ∃ ci fl, ci < SLAB_INDEX_COUNT ∧
    (s.mem_map p).flags = PG_slab ∧
    (s.mem_map p).slab_cache = some ci ∧
    IsFChain s.mem (s.mem_map p).freelist fl ∧
    fl.Nodup ∧
    (∀ a ∈ fl, ∃ j, j < PAGE_SIZE / slab_sizes ci ∧
      a = page_address p + j * slab_sizes ci) ∧
    (s.mem_map p).active_objects =
      ((PAGE_SIZE / slab_sizes ci - fl.length : Nat) : Int) ∧
    (∀ j, j < PAGE_SIZE / slab_sizes ci →
      (page_address p + j * slab_sizes ci ∈ live ↔
        page_address p + j * slab_sizes ci ∉ fl))

/-- The allocator invariant, relative to a hole (see above): the ghost
regions are aligned, bounded, disjoint and cover everything outside the
hole; each buddy free list is a duplicate-free chain whose members are
exactly the free-region heads of that order, carrying matching flags;
allocated-region and slab-region heads carry their flags; no two free
regions of the same order below `MAX_ORDER - 1` are buddies; and the
slab caches, partial lists and live-object ghost agree with the slab
pages. -/
structure InvC (s : State) (g : Ghost) (hole : Nat → Prop) : Prop where
  align : ∀ R ∈ g.regions, 2 ^ R.ord ∣ R.pfn
  bound : ∀ R ∈ g.regions, R.pfn + 2 ^ R.ord ≤ NUM_PAGES
  ordlt : ∀ R ∈ g.regions, R.ord < MAX_ORDER
  slabord : ∀ R ∈ g.regions, R.kind = RKind.slabR → R.ord = 0
  disj : g.regions.Pairwise RDisj
  cover : ∀ q, q < NUM_PAGES → ¬ hole q →
    ∃ R ∈ g.regions, R.pfn ≤ q ∧ q < R.pfn + 2 ^ R.ord
  hiArea : ∀ o, MAX_ORDER ≤ o → s.buddy_free_area o = none
  chains : ∀ o, o < MAX_ORDER → ∃ l, IsChain s.mem_map (s.buddy_free_area o) l ∧
    l.Nodup ∧ ∀ p, p ∈ l ↔ (⟨p, o, RKind.freeR⟩ : Region) ∈ g.regions
  freeflags : ∀ R ∈ g.regions, R.kind = RKind.freeR →
    (s.mem_map R.pfn).flags = PG_free ∧ (s.mem_map R.pfn).order = R.ord
  budflags : ∀ R ∈ g.regions, R.kind = RKind.buddyR →
    (s.mem_map R.pfn).flags = PG_buddy ∧ (s.mem_map R.pfn).order = R.ord
  nopair : ∀ p o, o < MAX_ORDER - 1 → (⟨p, o, RKind.freeR⟩ : Region) ∈ g.regions →
    (⟨p ^^^ 2 ^ o, o, RKind.freeR⟩ : Region) ∉ g.regions
  cachesz : ∀ i, (s.slab_caches i).obj_size = slab_sizes i
  slabpage : ∀ R ∈ g.regions, R.kind = RKind.slabR → SlabPageOK s g.live R.pfn
  partials : ∀ i, i < SLAB_INDEX_COUNT →
    ∃ pl, IsChain s.mem_map (s.slab_caches i).slabPartial pl ∧ pl.Nodup ∧
      ∀ p, p ∈ pl ↔ ((⟨p, 0, RKind.slabR⟩ : Region) ∈ g.regions ∧
        (s.mem_map p).slab_cache = some i ∧ (s.mem_map p).freelist ≠ 0)
  liveslab : ∀ x ∈ g.live, ∃ p j ci, (⟨p, 0, RKind.slabR⟩ : Region) ∈ g.regions ∧
    (s.mem_map p).slab_cache = some ci ∧ j < PAGE_SIZE / slab_sizes ci ∧
    x = page_address p + j * slab_sizes ci
  livend : g.live.Nodup

/-- The allocator invariant proper (no hole). -/
def Inv (s : State) (g : Ghost) : Prop := InvC s g (fun _ => False)

/-! #### Region and interval helpers -/

theorem rdisj_symm : ∀ {R T : Region}, RDisj R T → RDisj T R :=
  fun h => h.symm

theorem rdisj_irrefl {R : Region} : ¬ RDisj R R := by
  intro h
  have hpos : 0 < 2 ^ R.ord := Nat.pos_pow_of_pos _ (by omega)
  rcases h with h | h <;> omega

theorem pairwise_nodup {l : List Region} (h : l.Pairwise RDisj) : l.Nodup := by
  refine List.Pairwise.imp ?_ h
  intro R T hRT hEq
  subst hEq
  exact rdisj_irrefl hRT

/-- Two listed regions sharing a page are equal. -/
theorem region_eq_of_overlap {g : Ghost} (hd : g.regions.Pairwise RDisj)
    {R T : Region} (hR : R ∈ g.regions) (hT : T ∈ g.regions) {q : Nat}
    (hqR : R.pfn ≤ q ∧ q < R.pfn + 2 ^ R.ord)
    (hqT : T.pfn ≤ q ∧ q < T.pfn + 2 ^ T.ord) : R = T := by
  by_contra hne
  have hdisj : RDisj R T := hd.forall (fun _ _ => rdisj_symm) hR hT hne
  rcases hdisj with h | h <;> omega

/-- Two listed regions with the same head page are equal. -/
theorem region_eq_of_head {g : Ghost} (hd : g.regions.Pairwise RDisj)
    {R T : Region} (hR : R ∈ g.regions) (hT : T ∈ g.regions)
    (hpfn : R.pfn = T.pfn) : R = T := by
  have h1 : 0 < 2 ^ R.ord := Nat.pos_pow_of_pos _ (by omega)
  have h2 : 0 < 2 ^ T.ord := Nat.pos_pow_of_pos _ (by omega)
  exact region_eq_of_overlap hd hR hT (q := R.pfn) (by omega) (by omega)

/-- A duplicate-free list of page numbers below `n` has length at
most `n`. -/
theorem nodup_length_le {l : List Nat} {n : Nat} (hnd : l.Nodup)
    (hb : ∀ p ∈ l, p < n) : l.length ≤ n := by
  have hsub : l.toFinset ⊆ Finset.range n := by
    intro p hp
    rw [List.mem_toFinset] at hp
    exact Finset.mem_range.mpr (hb p hp)
  have hcard := Finset.card_le_card hsub
  rwa [List.toFinset_card_of_nodup hnd, Finset.card_range] at hcard

/-- A duplicate-free list of slots of a page has length at most the
slot count. -/
theorem slots_length_le {addr sz n : Nat} (hsz : 0 < sz) {l : List Nat}
    (hnd : l.Nodup)
    (hmem : ∀ a ∈ l, ∃ j, j < n ∧ a = addr + j * sz) : l.length ≤ n := by
  have hsub : l.toFinset ⊆ (Finset.range n).image (fun j => addr + j * sz) := by
    intro a ha
    rw [List.mem_toFinset] at ha
    obtain ⟨j, hj, rfl⟩ := hmem a ha
    exact Finset.mem_image.mpr ⟨j, Finset.mem_range.mpr hj, rfl⟩
  have hcard := Finset.card_le_card hsub
  have himg : ((Finset.range n).image (fun j => addr + j * sz)).card ≤ n := by
    calc ((Finset.range n).image (fun j => addr + j * sz)).card
        ≤ (Finset.range n).card := Finset.card_image_le
      _ = n := Finset.card_range n
  rw [List.toFinset_card_of_nodup hnd] at hcard
  omega

/-- Filtering commutes with erasing an element the filter drops. -/
theorem filter_erase_of_neg {p : Region → Bool} : ∀ (l : List Region) (a : Region),
    p a = false → (l.erase a).filter p = l.filter p := by
  intro l a hpa
  induction l with
  | nil => rfl
  | cons b t ih =>
    by_cases hba : b = a
    · subst hba
      rw [List.erase_cons_head, List.filter_cons_of_neg (by simp [hpa])]
    · rw [List.erase_cons_tail (by simp [hba])]
      cases hpb : p b
      · rw [List.filter_cons_of_neg (by simp [hpb]),
          List.filter_cons_of_neg (by simp [hpb]), ih]
      · rw [List.filter_cons_of_pos (by simp [hpb]),
          List.filter_cons_of_pos (by simp [hpb]), ih]

/-- Pushing a fresh head onto a chain. -/
theorem IsChain.push {mm : Nat → Page} {h : Option Nat} {l : List Nat}
    (hc : IsChain mm h l) (p : Nat) (pg : Page) (hpg : pg.next = h)
    (hp : p ∉ l) : IsChain (updMap mm p pg) (some p) (p :: l) := by
  refine IsChain.cons p l ?_
  rw [updMap_self, hpg]
  refine hc.stable ?_
  intro q hq
  have hqp : q ≠ p := fun he => hp (he ▸ hq)
  rw [updMap_other _ _ _ _ hqp]

/-- A chain over an untouched page table and head is unchanged. -/
theorem IsChain.of_frame {mm mm' : Nat → Page} {h : Option Nat} {l : List Nat}
    (hc : IsChain mm h l) (hf : ∀ q ∈ l, mm' q = mm q) : IsChain mm' h l :=
  hc.stable (fun q hq => by rw [hf q hq])

/-- Claim C8: freeing a slab object pushes it onto the owning page's
freelist (the object's word takes the old head, the head becomes the
object) and decrements `active_objects`. When the page was full
(count landing on `max_objs - 1`) it is pushed back onto the front of
the partial list. When the count lands on zero (and the page was not
full, i.e. the cache holds more than one object per page) the page is
unlinked from the partial list wherever it sits — the partial list of
the state handed on is exactly the old list with the page erased —
marked `PG_buddy` and handed to `__free_pages` at order 0
immediately. -/
theorem C8_kmem_cache_free_push : ∀ (s : State) (obj p ci : Nat),
    virt_to_page obj = some p →
    (s.mem_map p).flags &&& PG_slab ≠ 0 →
    (s.mem_map p).slab_cache = some ci →
    (((s.mem_map p).active_objects - 1 ≠
        ((PAGE_SIZE / (s.slab_caches ci).obj_size : Nat) : Int) - 1 →
      (s.mem_map p).active_objects - 1 ≠ 0 →
      kmem_cache_free s obj =
        { s with
          mem := updMem s.mem obj (s.mem_map p).freelist
          mem_map := updMap s.mem_map p
            { s.mem_map p with
              freelist := obj
              active_objects := (s.mem_map p).active_objects - 1 } }) ∧
    ((s.mem_map p).active_objects - 1 =
        ((PAGE_SIZE / (s.slab_caches ci).obj_size : Nat) : Int) - 1 →
      (s.mem_map p).active_objects - 1 ≠ 0 →
      ((kmem_cache_free s obj).mem obj = (s.mem_map p).freelist ∧
        ((kmem_cache_free s obj).mem_map p).freelist = obj ∧
        ((kmem_cache_free s obj).mem_map p).active_objects =
          (s.mem_map p).active_objects - 1 ∧
        ((kmem_cache_free s obj).mem_map p).flags = (s.mem_map p).flags ∧
        ((kmem_cache_free s obj).slab_caches ci).slabPartial = some p ∧
        ((kmem_cache_free s obj).mem_map p).next = (s.slab_caches ci).slabPartial ∧
        (∀ c, c ≠ ci → (kmem_cache_free s obj).slab_caches c = s.slab_caches c) ∧
        (kmem_cache_free s obj).buddy_free_area = s.buddy_free_area)) ∧
    ((s.mem_map p).active_objects - 1 = 0 →
      (s.mem_map p).active_objects - 1 ≠
        ((PAGE_SIZE / (s.slab_caches ci).obj_size : Nat) : Int) - 1 →
      ∃ spre : State, kmem_cache_free s obj = __free_pages spre p 0 ∧
        (spre.mem_map p).flags = PG_buddy ∧
        (spre.mem_map p).freelist = obj ∧
        (spre.mem_map p).active_objects = 0 ∧
        spre.mem obj = (s.mem_map p).freelist ∧
        spre.buddy_free_area = s.buddy_free_area ∧
        (∀ c, c ≠ ci → spre.slab_caches c = s.slab_caches c) ∧
        (∀ pl, IsChain s.mem_map (s.slab_caches ci).slabPartial pl →
          pl.Nodup → p ∈ pl → (∀ q ∈ pl, q < NUM_PAGES) →
          IsChain spre.mem_map (spre.slab_caches ci).slabPartial
            (pl.erase p)) ∧
        ((s.slab_caches ci).slabPartial = some p →
          (spre.slab_caches ci).slabPartial = (s.mem_map p).next))) := by
  intro s obj p ci hv hsl hci
  refine ⟨?_, ?_, ?_⟩
  · intro h1 h2
    unfold kmem_cache_free
    rw [hv]
    dsimp only
    rw [if_neg (by simpa using hsl), hci]
    dsimp only
    split
    next hcond => exact absurd hcond h1
    next hcond =>
      split
      next hzero =>
        exfalso
        simp [updMap] at hzero
        exact h2 hzero
      next hzero => rfl
  · intro h1 h2
    have hfree : kmem_cache_free s obj =
        { s with
          mem := updMem s.mem obj (s.mem_map p).freelist
          mem_map := updMap (updMap s.mem_map p
              { s.mem_map p with
                freelist := obj
                active_objects := (s.mem_map p).active_objects - 1 }) p
            { s.mem_map p with
              freelist := obj
              active_objects := (s.mem_map p).active_objects - 1
              next := (s.slab_caches ci).slabPartial }
          slab_caches := updCache s.slab_caches ci
            { s.slab_caches ci with slabPartial := some p } } := by
      unfold kmem_cache_free
      rw [hv]
      dsimp only
      rw [if_neg (by simpa using hsl), hci]
      dsimp only
      split
      next hcond =>
        split
        next hzero =>
          exfalso
          simp [updMap] at hzero
          exact h2 hzero
        next hzero => rfl
      next hcond => exact absurd h1 hcond
    rw [hfree]
    refine ⟨by simp [updMem], by simp [updMap], by simp [updMap], by simp [updMap],
      by simp [updCache], by simp [updMap], ?_, rfl⟩
    intro c hc
    simp [updCache, hc]
  · intro h1 h2
    have hfree : kmem_cache_free s obj =
        __free_pages
          { s with
            mem := updMem s.mem obj (s.mem_map p).freelist
            mem_map :=
              updMap
                (unlinkList (updMap s.mem_map p
                    { s.mem_map p with
                      freelist := obj
                      active_objects := (s.mem_map p).active_objects - 1 })
                  (s.slab_caches ci).slabPartial p).2 p
                { (unlinkList (updMap s.mem_map p
                      { s.mem_map p with
                        freelist := obj
                        active_objects := (s.mem_map p).active_objects - 1 })
                    (s.slab_caches ci).slabPartial p).2 p with
                  flags := PG_buddy }
            slab_caches :=
              updCache s.slab_caches ci
                { s.slab_caches ci with
                  slabPartial :=
                    (unlinkList (updMap s.mem_map p
                        { s.mem_map p with
                          freelist := obj
                          active_objects := (s.mem_map p).active_objects - 1 })
                      (s.slab_caches ci).slabPartial p).1 } }
          p 0 := by
      unfold kmem_cache_free
      rw [hv]
      dsimp only
      rw [if_neg (by simpa using hsl), hci]
      dsimp only
      split
      next hcond => exact absurd hcond h2
      next hcond =>
        split
        next hzero => rfl
        next hzero =>
          exfalso
          simp [updMap] at hzero
          exact hzero h1
    have hrp : (unlinkList (updMap s.mem_map p
          { s.mem_map p with
            freelist := obj
            active_objects := (s.mem_map p).active_objects - 1 })
        (s.slab_caches ci).slabPartial p).2 p =
        { s.mem_map p with
          freelist := obj
          active_objects := (s.mem_map p).active_objects - 1 } :=
      (unlinkList_target _ _ _).trans (updMap_self _ _ _)
    refine ⟨_, hfree, ?_, ?_, ?_, ?_, rfl, ?_, ?_, ?_⟩
    · dsimp only
      rw [updMap_self]
    · dsimp only
      rw [updMap_self, hrp]
    · dsimp only
      rw [updMap_self, hrp]
      exact h1
    · dsimp only
      exact updMem_self _ _ _
    · intro c hc
      dsimp only
      rw [updCache_other _ _ _ _ hc]
    · intro pl hpl hnd hppl hbnd
      have hlen : pl.length ≤ NUM_PAGES := nodup_length_le hnd hbnd
      have hpl1 : IsChain (updMap s.mem_map p
          { s.mem_map p with
            freelist := obj
            active_objects := (s.mem_map p).active_objects - 1 })
          (s.slab_caches ci).slabPartial pl := by
        refine hpl.stable ?_
        intro q hq
        by_cases hqp : q = p
        · subst hqp
          rw [updMap_self]
        · rw [updMap_other _ _ _ _ hqp]
      obtain ⟨hc2', _, _, _⟩ :=
        unlinkList_spec _ _ p pl hpl1 hnd hppl hlen
      dsimp only
      rw [updCache_self]
      refine hc2'.of_frame ?_
      intro q hq
      have hqp : q ≠ p := (hnd.mem_erase_iff.mp hq).1
      exact updMap_other _ _ _ _ hqp
    · intro hpart
      dsimp only
      rw [updCache_self]
      dsimp only
      rw [hpart]
      unfold unlinkList
      dsimp only
      rw [if_pos rfl]
      rw [updMap_self]

/-- Witness for C8: on a crafted one-page slab state (active count 3 of
128), freeing the second object pushes it onto the freelist and leaves
the count at 2. -/
theorem C8_kmem_cache_free_push_witness :
    ((kmem_cache_free
        { mem_map := fun pfn =>
            if pfn = 0 then
              { flags := PG_slab, next := none, order := 0, slab_cache := some 0,
                freelist := PHYS_MEM_START + 96, active_objects := 3 }
            else zeroPage,
          buddy_free_area := fun _ => none,
          slab_caches := fun i => { obj_size := slab_sizes i, slabPartial := some 0 },
          mem := fun _ => 0 }
        (PHYS_MEM_START + 32)).mem_map 0).active_objects = 2 := by
  have h := ((C8_kmem_cache_free_push
      { mem_map := fun pfn =>
          if pfn = 0 then
            { flags := PG_slab, next := none, order := 0, slab_cache := some 0,
              freelist := PHYS_MEM_START + 96, active_objects := 3 }
          else zeroPage,
        buddy_free_area := fun _ => none,
        slab_caches := fun i => { obj_size := slab_sizes i, slabPartial := some 0 },
        mem := fun _ => 0 }
      (PHYS_MEM_START + 32) 0 0 (by decide) (by decide) (by decide)).1
    (by decide) (by decide))
  rw [h]
  decide


/-! #### Buddy probe geometry -/

theorem NUM_PAGES_eq : NUM_PAGES = 2 ^ 15 := by decide

/-- Geometry of the probe `bpfn = pfn XOR 2^o` of an aligned in-bounds
block below the top order: the probe block is aligned and in bounds,
distinct from the block, their union is the aligned block of the next
order headed at `pfn AND bpfn = min pfn bpfn`, in bounds. -/
theorem probe_geom {pfn o : Nat} (hal : 2 ^ o ∣ pfn)
    (hb : pfn + 2 ^ o ≤ NUM_PAGES) (ho : o < MAX_ORDER - 1) :
    2 ^ o ∣ pfn ^^^ 2 ^ o ∧ (pfn ^^^ 2 ^ o) + 2 ^ o ≤ NUM_PAGES ∧
    pfn ^^^ 2 ^ o ≠ pfn ∧
    2 ^ (o + 1) ∣ (pfn &&& (pfn ^^^ 2 ^ o)) ∧
    (pfn &&& (pfn ^^^ 2 ^ o)) + 2 ^ (o + 1) ≤ NUM_PAGES ∧
    (pfn ^^^ 2 ^ o = pfn + 2 ^ o ∨
      (pfn ^^^ 2 ^ o = pfn - 2 ^ o ∧ 2 ^ o ≤ pfn)) ∧
    pfn &&& (pfn ^^^ 2 ^ o) = min pfn (pfn ^^^ 2 ^ o) := by
  have hmin := land_xor_two_pow_eq_min pfn o
  have hopos : (0:Nat) < 2 ^ o := Nat.pos_pow_of_pos _ (by omega)
  have ho15 : o + 1 ≤ 15 := by
    have : MAX_ORDER - 1 = 15 := by decide
    omega
  rcases buddy_cases hal with ⟨hbit, hxor, hdvd⟩ | ⟨hbit, hxor, hle, hdvd⟩
  · -- bit clear: buddy above
    have hbound : pfn + 2 ^ (o + 1) ≤ NUM_PAGES := by
      obtain ⟨t, rfl⟩ := hdvd
      rw [NUM_PAGES_eq] at hb ⊢
      have hsplit : (2:Nat) ^ 15 = 2 ^ (o + 1) * 2 ^ (15 - (o + 1)) := by
        rw [← pow_add]
        congr 1
        omega
      have hpos1 : (0:Nat) < 2 ^ (o + 1) := Nat.pos_pow_of_pos _ (by omega)
      have htlt : t < 2 ^ (15 - (o + 1)) := by
        by_contra hge
        push_neg at hge
        have : 2 ^ (o + 1) * 2 ^ (15 - (o + 1)) ≤ 2 ^ (o + 1) * t :=
          Nat.mul_le_mul_left _ hge
        rw [← hsplit] at this
        omega
      have : 2 ^ (o + 1) * (t + 1) ≤ 2 ^ (o + 1) * 2 ^ (15 - (o + 1)) :=
        Nat.mul_le_mul_left _ (by omega)
      rw [← hsplit] at this
      have he : 2 ^ (o + 1) * (t + 1) = 2 ^ (o + 1) * t + 2 ^ (o + 1) := by ring
      omega
    have hpow1 : (2:Nat) ^ (o + 1) = 2 ^ o + 2 ^ o := by
      rw [Nat.pow_succ]
      ring
    refine ⟨?_, ?_, ?_, ?_, ?_, Or.inl hxor, hmin⟩
    · rw [hxor]
      exact Nat.dvd_add hal (Nat.dvd_refl _)
    · rw [hxor]
      omega
    · rw [hxor]
      omega
    · rw [hmin, hxor]
      have : min pfn (pfn + 2 ^ o) = pfn := by omega
      rw [this]
      exact hdvd
    · rw [hmin, hxor]
      have : min pfn (pfn + 2 ^ o) = pfn := by omega
      rw [this]
      omega
  · -- bit set: buddy below
    refine ⟨?_, ?_, ?_, ?_, ?_, Or.inr ⟨hxor, hle⟩, hmin⟩
    · rw [hxor]
      exact Nat.dvd_sub' hal (Nat.dvd_refl _)
    · rw [hxor]
      omega
    · rw [hxor]
      omega
    · rw [hmin, hxor]
      have : min pfn (pfn - 2 ^ o) = pfn - 2 ^ o := by omega
      rw [this]
      exact hdvd
    · rw [hmin, hxor]
      have hm : min pfn (pfn - 2 ^ o) = pfn - 2 ^ o := by omega
      rw [hm]
      have hpow1 : (2:Nat) ^ (o + 1) = 2 ^ o + 2 ^ o := by
        rw [Nat.pow_succ]
        ring
      omega

/-- Resolution of the merge-loop probe: under the invariant with the
floating block carved out, the descriptor test
`buddy->flags & PG_free && buddy->order == order` succeeds exactly when
the buddy block is a listed free region of that order. -/
theorem probe_resolution {s : State} {g : Ghost} {pfn o : Nat}
    (hI : InvC s g (InHole pfn o)) (hF : Floating g pfn o)
    (ho : o < MAX_ORDER - 1) :
    ((s.mem_map (pfn ^^^ 2 ^ o)).flags &&& PG_free ≠ 0 ∧
      (s.mem_map (pfn ^^^ 2 ^ o)).order = o) ↔
    (⟨pfn ^^^ 2 ^ o, o, RKind.freeR⟩ : Region) ∈ g.regions := by
  obtain ⟨hal, hb, hoM, hdis⟩ := hF
  obtain ⟨hbal, hbb, hbne, hmal, hmb, hcase, hmin⟩ := probe_geom hal hb ho
  constructor
  · rintro ⟨hchk1, hchk2⟩
    -- the probe head is covered by some region
    have hnh : ¬ InHole pfn o (pfn ^^^ 2 ^ o) := by
      intro ⟨h1, h2⟩
      rcases hcase with hc | ⟨hc, hc2⟩ <;> omega
    have hlt : pfn ^^^ 2 ^ o < NUM_PAGES := by
      have : (0:Nat) < 2 ^ o := Nat.pos_pow_of_pos _ (by omega)
      omega
    obtain ⟨R, hR, hqR⟩ := hI.cover (pfn ^^^ 2 ^ o) hlt hnh
    have hRal := hI.align R hR
    -- compare the probe block with R
    rcases Nat.lt_or_ge R.ord o with hlt2 | hge
    · -- R smaller: R starts at the probe head
      have hsub := aligned_subset (hI.align R hR) hbal (Nat.le_of_lt hlt2)
        hqR.1 hqR.2 (le_refl _)
        (by have : (0:Nat) < 2 ^ o := Nat.pos_pow_of_pos _ (by omega); omega)
      have hpfn : R.pfn = pfn ^^^ 2 ^ o := by
        have h1 := hqR.1
        omega
      obtain ⟨rp, ro, rk⟩ := R
      simp only at hpfn hlt2
      subst hpfn
      cases rk
      · -- free region of smaller order: order test fails
        have := (hI.freeflags _ hR rfl).2
        simp only at this
        omega
      · have := (hI.budflags _ hR rfl).1
        simp only at this
        rw [this] at hchk1
        exact absurd (by decide : PG_buddy &&& PG_free = 0) hchk1
      · obtain ⟨ci, fl, _, hflags, _⟩ := hI.slabpage _ hR rfl
        simp only at hflags
        rw [hflags] at hchk1
        exact absurd (by decide : PG_slab &&& PG_free = 0) hchk1
    · rcases Nat.eq_or_lt_of_le hge with heq | hgt
      · -- same order: blocks coincide
        have hsub := aligned_subset hbal (hI.align R hR) (by omega)
          (le_refl _) (by omega) hqR.1 hqR.2
        have hpfn : R.pfn = pfn ^^^ 2 ^ o := by
          rw [← heq] at hsub
          omega
        obtain ⟨rp, ro, rk⟩ := R
        simp only at hpfn heq
        subst hpfn
        subst heq
        cases rk
        · exact hR
        · have := (hI.budflags _ hR rfl).1
          simp only at this
          rw [this] at hchk1
          exact absurd (by decide : PG_buddy &&& PG_free = 0) hchk1
        · obtain ⟨ci, fl, _, hflags, _⟩ := hI.slabpage _ hR rfl
          simp only at hflags
          rw [hflags] at hchk1
          exact absurd (by decide : PG_slab &&& PG_free = 0) hchk1
      · -- R strictly larger: the whole next-order block sits inside R,
        -- contradicting the floating block's disjointness
        have hmem : pfn &&& (pfn ^^^ 2 ^ o) ≤ pfn ^^^ 2 ^ o ∧
            pfn ^^^ 2 ^ o < (pfn &&& (pfn ^^^ 2 ^ o)) + 2 ^ (o + 1) := by
          rw [hmin]
          have hpow1 : (2:Nat) ^ (o + 1) = 2 ^ o + 2 ^ o := by
            rw [Nat.pow_succ]; ring
          rcases hcase with hc | ⟨hc, hc2⟩ <;> omega
        have hsub := aligned_subset hmal (hI.align R hR) (by omega)
          hmem.1 hmem.2 hqR.1 hqR.2
        have hpfnR : R.pfn ≤ pfn ∧ pfn < R.pfn + 2 ^ R.ord := by
          rw [hmin] at hsub
          have hpow1 : (2:Nat) ^ (o + 1) = 2 ^ o + 2 ^ o := by
            rw [Nat.pow_succ]; ring
          have : (0:Nat) < 2 ^ o := Nat.pos_pow_of_pos _ (by omega)
          rcases hcase with hc | ⟨hc, hc2⟩ <;> omega
        rcases hdis R hR with h | h <;> omega
  · intro hR
    obtain ⟨hf, hord⟩ := hI.freeflags _ hR rfl
    simp only at hf hord
    rw [hf]
    exact ⟨by decide, hord⟩

/-! #### Preservation: one merge-loop iteration -/

/-- One successful iteration of the merge loop: the buddy free region is
unlinked from its list and absorbed into the floating block, which moves
to the combined head one order up. The invariant survives with the buddy
region removed from the ghost. -/
theorem merge_step {s : State} {g : Ghost} {pfn o : Nat}
    (hI : InvC s g (InHole pfn o)) (hF : Floating g pfn o)
    (ho : o < MAX_ORDER - 1)
    (hchk : (s.mem_map (pfn ^^^ 2 ^ o)).flags &&& PG_free ≠ 0 ∧
      (s.mem_map (pfn ^^^ 2 ^ o)).order = o) :
    InvC { s with
        mem_map := (unlinkList s.mem_map (s.buddy_free_area o) (pfn ^^^ 2 ^ o)).2,
        buddy_free_area := updArea s.buddy_free_area o
          (unlinkList s.mem_map (s.buddy_free_area o) (pfn ^^^ 2 ^ o)).1 }
      ⟨g.regions.erase ⟨pfn ^^^ 2 ^ o, o, RKind.freeR⟩, g.live⟩
      (InHole (pfn &&& (pfn ^^^ 2 ^ o)) (o + 1)) ∧
    Floating ⟨g.regions.erase ⟨pfn ^^^ 2 ^ o, o, RKind.freeR⟩, g.live⟩
      (pfn &&& (pfn ^^^ 2 ^ o)) (o + 1) ∧
    pfn &&& (pfn ^^^ 2 ^ o) ≤ pfn ∧
    pfn + 2 ^ o ≤ (pfn &&& (pfn ^^^ 2 ^ o)) + 2 ^ (o + 1) := by
  obtain ⟨hal, hb, hoM, hdis⟩ := hF
  obtain ⟨hbal, hbb, hbne, hmal, hmb, hcase, hmin⟩ := probe_geom hal hb ho
  have hopos : (0:Nat) < 2 ^ o := Nat.pos_pow_of_pos _ (by omega)
  have hpow1 : (2:Nat) ^ (o + 1) = 2 ^ o + 2 ^ o := by
    rw [Nat.pow_succ]; ring
  have hFsub : pfn &&& (pfn ^^^ 2 ^ o) ≤ pfn ∧
      pfn + 2 ^ o ≤ (pfn &&& (pfn ^^^ 2 ^ o)) + 2 ^ (o + 1) := by
    rw [hmin]
    rcases hcase with hc | ⟨hc, hc2⟩ <;> omega
  have hBsub : pfn &&& (pfn ^^^ 2 ^ o) ≤ pfn ^^^ 2 ^ o ∧
      (pfn ^^^ 2 ^ o) + 2 ^ o ≤ (pfn &&& (pfn ^^^ 2 ^ o)) + 2 ^ (o + 1) := by
    rw [hmin]
    rcases hcase with hc | ⟨hc, hc2⟩ <;> omega
  have hBmem : (⟨pfn ^^^ 2 ^ o, o, RKind.freeR⟩ : Region) ∈ g.regions :=
    (probe_resolution ⟨hI.align, hI.bound, hI.ordlt, hI.slabord, hI.disj,
      hI.cover, hI.hiArea, hI.chains, hI.freeflags, hI.budflags, hI.nopair,
      hI.cachesz, hI.slabpage, hI.partials, hI.liveslab, hI.livend⟩
      ⟨hal, hb, hoM, hdis⟩ ho).mp hchk
  have hnodupR : g.regions.Nodup := pairwise_nodup hI.disj
  obtain ⟨l, hl, hlnd, hliff⟩ := hI.chains o (by omega)
  have hbl : pfn ^^^ 2 ^ o ∈ l := (hliff _).mpr hBmem
  have hlen : l.length ≤ NUM_PAGES := by
    refine nodup_length_le hlnd ?_
    intro p hp
    have hbd := hI.bound _ ((hliff p).mp hp)
    simp only at hbd
    omega
  obtain ⟨hc', hfr, hbsame, hsbn⟩ :=
    unlinkList_spec s.mem_map (s.buddy_free_area o) (pfn ^^^ 2 ^ o) l hl hlnd hbl hlen
  -- membership in `l` pins a page as a free head of order `o`
  have hl_only : ∀ (T : Region), T ∈ g.regions →
      T ≠ ⟨T.pfn, o, RKind.freeR⟩ → T.pfn ∉ l := by
    intro T hT hne hin
    have h2 := (hliff T.pfn).mp hin
    exact hne (region_eq_of_head hI.disj hT h2 rfl)
  refine ⟨?_, ?_, hFsub.1, hFsub.2⟩
  · refine ⟨?_, ?_, ?_, ?_, ?_, ?_, ?_, ?_, ?_, ?_, ?_, ?_, ?_, ?_, ?_, ?_⟩
    · intro R hR
      exact hI.align R (List.mem_of_mem_erase hR)
    · intro R hR
      exact hI.bound R (List.mem_of_mem_erase hR)
    · intro R hR
      exact hI.ordlt R (List.mem_of_mem_erase hR)
    · intro R hR
      exact hI.slabord R (List.mem_of_mem_erase hR)
    · exact hI.disj.sublist (List.erase_sublist _ _)
    · -- coverage outside the grown hole
      intro q hq hnh
      have hnF : ¬ InHole pfn o q := by
        intro ⟨h1, h2⟩
        exact hnh ⟨by omega, by omega⟩
      obtain ⟨R, hR, hqR⟩ := hI.cover q hq hnF
      have hne : R ≠ ⟨pfn ^^^ 2 ^ o, o, RKind.freeR⟩ := by
        intro he
        subst he
        simp only at hqR
        exact hnh ⟨by omega, by omega⟩
      exact ⟨R, hnodupR.mem_erase_iff.mpr ⟨hne, hR⟩, hqR⟩
    · intro o' ho'
      dsimp only
      rw [updArea_other _ _ _ _ (by omega : o' ≠ o)]
      exact hI.hiArea o' ho'
    · intro o' ho'
      dsimp only
      by_cases ho'' : o' = o
      · subst ho''
        refine ⟨l.erase (pfn ^^^ 2 ^ o'), ?_, hlnd.erase _, ?_⟩
        · rw [updArea_self]
          exact hc'
        · intro p
          rw [hlnd.mem_erase_iff, hnodupR.mem_erase_iff]
          constructor
          · rintro ⟨hne, hp⟩
            exact ⟨fun he => hne (congrArg Region.pfn he), (hliff p).mp hp⟩
          · rintro ⟨hne, hp⟩
            refine ⟨?_, (hliff p).mpr hp⟩
            intro he
            exact hne (by rw [he])
      · rw [updArea_other _ _ _ _ ho'']
        obtain ⟨l2, hl2, hl2nd, hl2iff⟩ := hI.chains o' ho'
        have hl2frame : ∀ q ∈ l2, q ∉ l := by
          intro q hq
          refine hl_only ⟨q, o', RKind.freeR⟩ ((hl2iff q).mp hq) ?_
          exact fun he => ho'' (congrArg Region.ord he)
        refine ⟨l2, hl2.of_frame (fun q hq => hfr q (hl2frame q hq)), hl2nd, ?_⟩
        intro p
        rw [hnodupR.mem_erase_iff]
        constructor
        · intro hp
          refine ⟨?_, (hl2iff p).mp hp⟩
          exact fun he => ho'' (congrArg Region.ord he)
        · rintro ⟨_, hp⟩
          exact (hl2iff p).mpr hp
    · intro R hR hk
      dsimp only
      rw [(hsbn R.pfn).1, (hsbn R.pfn).2.1]
      exact hI.freeflags R (List.mem_of_mem_erase hR) hk
    · intro R hR hk
      dsimp only
      rw [(hsbn R.pfn).1, (hsbn R.pfn).2.1]
      exact hI.budflags R (List.mem_of_mem_erase hR) hk
    · intro p o' ho'2 hp hmem
      exact hI.nopair p o' ho'2 (List.mem_of_mem_erase hp)
        (List.mem_of_mem_erase hmem)
    · exact hI.cachesz
    · intro R hR hk
      obtain ⟨ci, fl, h1, h2, h3, h4, h5, h6, h7, h8⟩ :=
        hI.slabpage R (List.mem_of_mem_erase hR) hk
      dsimp only [SlabPageOK]
      refine ⟨ci, fl, h1, ?_, ?_, ?_, h5, h6, ?_, h8⟩
      · dsimp only; rw [(hsbn R.pfn).1]; exact h2
      · dsimp only; rw [(hsbn R.pfn).2.2.2.2]; exact h3
      · dsimp only; rw [(hsbn R.pfn).2.2.1]; exact h4
      · dsimp only; rw [(hsbn R.pfn).2.2.2.1]; exact h7
    · intro i hi
      dsimp only
      obtain ⟨pl, hpl, hplnd, hpliff⟩ := hI.partials i hi
      have hplframe : ∀ q ∈ pl, q ∉ l := by
        intro q hq
        refine hl_only ⟨q, 0, RKind.slabR⟩ ((hpliff q).mp hq).1 ?_
        simp [Region.mk.injEq]
      refine ⟨pl, hpl.of_frame (fun q hq => hfr q (hplframe q hq)), hplnd, ?_⟩
      intro p
      rw [hpliff p, hnodupR.mem_erase_iff, (hsbn p).2.2.2.2, (hsbn p).2.2.1]
      constructor
      · rintro ⟨h1, h2, h3⟩
        refine ⟨⟨?_, h1⟩, h2, h3⟩
        simp [Region.mk.injEq]
      · rintro ⟨⟨_, h1⟩, h2, h3⟩
        exact ⟨h1, h2, h3⟩
    · intro x hx
      obtain ⟨p, j, ci, hreg, hcache, hj, hx'⟩ := hI.liveslab x hx
      refine ⟨p, j, ci, ?_, ?_, hj, hx'⟩
      · refine hnodupR.mem_erase_iff.mpr ⟨?_, hreg⟩
        simp [Region.mk.injEq]
      · dsimp only
        rw [(hsbn p).2.2.2.2]
        exact hcache
    · exact hI.livend
  · refine ⟨hmal, hmb, by omega, ?_⟩
    intro R hR
    rw [hnodupR.mem_erase_iff] at hR
    obtain ⟨hne, hRg⟩ := hR
    have hRF := hdis R hRg
    have hRB : RDisj R ⟨pfn ^^^ 2 ^ o, o, RKind.freeR⟩ :=
      hI.disj.forall (fun _ _ => rdisj_symm) hRg hBmem hne
    simp only [RDisj] at hRB
    have hRpos : (0:Nat) < 2 ^ R.ord := Nat.pos_pow_of_pos _ (by omega)
    rcases hcase with hc | ⟨hc, hc2⟩ <;> rcases hRF with h1 | h1 <;>
      rcases hRB with h2 | h2 <;> omega

/-! #### Ghost surgeries for the buddy operations -/

/-- Regions entirely outside the block `[p, p + 2^o)`. -/
def outsideB (p o : Nat) (R : Region) : Bool :=
  decide (R.pfn + 2 ^ R.ord ≤ p) || decide (p + 2 ^ o ≤ R.pfn)

/-- Ghost counterpart of `__free_pages s pfn o` applied after the freed
block's own region has been removed: the free regions absorbed by the
merge loop are dropped and the final block is listed free. -/
def ghostFreeB (s : State) (g : Ghost) (pfn o : Nat) : Ghost :=
  let r := mergeLoop s pfn o
  ⟨⟨r.1, r.2.1, RKind.freeR⟩ :: g.regions.filter (outsideB r.1 r.2.1), g.live⟩

theorem filter_outsideB_of_floating {g : Ghost} {p o : Nat}
    (h : ∀ R ∈ g.regions, R.pfn + 2 ^ R.ord ≤ p ∨ p + 2 ^ o ≤ R.pfn) :
    g.regions.filter (outsideB p o) = g.regions := by
  refine List.filter_eq_self.mpr ?_
  intro R hR
  rcases h R hR with h1 | h1 <;> simp [outsideB, h1]

/-- Master lemma for the merge loop: starting from the invariant with a
floating block carved out, the loop ends with the invariant holding for
the grown floating block, the ghost keeping exactly the regions outside
it, the block containing the original one, and — unless the loop hit
the top order — no listed free buddy left for the final block. -/
theorem mergeLoopAux_master : ∀ (fuel : Nat) (s : State) (g : Ghost) (pfn o : Nat),
    InvC s g (InHole pfn o) → Floating g pfn o → MAX_ORDER - 1 - o ≤ fuel →
    InvC (mergeLoopAux s pfn o fuel).2.2
      ⟨g.regions.filter
        (outsideB (mergeLoopAux s pfn o fuel).1 (mergeLoopAux s pfn o fuel).2.1),
        g.live⟩
      (InHole (mergeLoopAux s pfn o fuel).1 (mergeLoopAux s pfn o fuel).2.1) ∧
    Floating
      ⟨g.regions.filter
        (outsideB (mergeLoopAux s pfn o fuel).1 (mergeLoopAux s pfn o fuel).2.1),
        g.live⟩
      (mergeLoopAux s pfn o fuel).1 (mergeLoopAux s pfn o fuel).2.1 ∧
    (mergeLoopAux s pfn o fuel).1 ≤ pfn ∧
    pfn + 2 ^ o ≤ (mergeLoopAux s pfn o fuel).1 + 2 ^ (mergeLoopAux s pfn o fuel).2.1 ∧
    o ≤ (mergeLoopAux s pfn o fuel).2.1 ∧
    ((mergeLoopAux s pfn o fuel).2.1 < MAX_ORDER - 1 →
      (⟨(mergeLoopAux s pfn o fuel).1 ^^^ 2 ^ (mergeLoopAux s pfn o fuel).2.1,
        (mergeLoopAux s pfn o fuel).2.1, RKind.freeR⟩ : Region) ∉
        g.regions.filter
          (outsideB (mergeLoopAux s pfn o fuel).1 (mergeLoopAux s pfn o fuel).2.1)) := by
  intro fuel
  induction fuel with
  | zero =>
    intro s g pfn o hI hF hfuel
    have hstop : mergeLoopAux s pfn o 0 = (pfn, o, s) := rfl
    rw [hstop]
    dsimp only
    rw [filter_outsideB_of_floating hF.2.2.2]
    exact ⟨hI, hF, le_refl _, le_refl _, le_refl _, fun h => absurd h (by omega)⟩
  | succ f ih =>
    intro s g pfn o hI hF hfuel
    by_cases ho : o < MAX_ORDER - 1
    · rw [mergeLoopAux]
      dsimp only
      rw [if_pos ho]
      by_cases hchk : (s.mem_map (pfn ^^^ 2 ^ o)).flags &&& PG_free ≠ 0 ∧
          (s.mem_map (pfn ^^^ 2 ^ o)).order = o
      · rw [if_pos hchk]
        obtain ⟨hI1, hF1, hm1, hm2⟩ := merge_step hI hF ho hchk
        have hfuel1 : MAX_ORDER - 1 - (o + 1) ≤ f := by omega
        obtain ⟨ihI, ihF, ihb1, ihb2, ihb3, ihterm⟩ :=
          ih { s with
              mem_map := (unlinkList s.mem_map (s.buddy_free_area o) (pfn ^^^ 2 ^ o)).2,
              buddy_free_area := updArea s.buddy_free_area o
                (unlinkList s.mem_map (s.buddy_free_area o) (pfn ^^^ 2 ^ o)).1 }
            ⟨g.regions.erase ⟨pfn ^^^ 2 ^ o, o, RKind.freeR⟩, g.live⟩
            (pfn &&& (pfn ^^^ 2 ^ o)) (o + 1) hI1 hF1 hfuel1
        have hopos : (0:Nat) < 2 ^ o := Nat.pos_pow_of_pos _ (by omega)
        obtain ⟨hal, hb, hoM, _⟩ := hF
        obtain ⟨hbal, hbb, hbne, hmal, hmb, hcase, hmin⟩ := probe_geom hal hb ho
        have hpow1 : (2:Nat) ^ (o + 1) = 2 ^ o + 2 ^ o := by
          rw [Nat.pow_succ]; ring
        have hBin : outsideB
            (mergeLoopAux { s with
              mem_map := (unlinkList s.mem_map (s.buddy_free_area o) (pfn ^^^ 2 ^ o)).2,
              buddy_free_area := updArea s.buddy_free_area o
                (unlinkList s.mem_map (s.buddy_free_area o) (pfn ^^^ 2 ^ o)).1 }
              (pfn &&& (pfn ^^^ 2 ^ o)) (o + 1) f).1
            (mergeLoopAux { s with
              mem_map := (unlinkList s.mem_map (s.buddy_free_area o) (pfn ^^^ 2 ^ o)).2,
              buddy_free_area := updArea s.buddy_free_area o
                (unlinkList s.mem_map (s.buddy_free_area o) (pfn ^^^ 2 ^ o)).1 }
              (pfn &&& (pfn ^^^ 2 ^ o)) (o + 1) f).2.1
            ⟨pfn ^^^ 2 ^ o, o, RKind.freeR⟩ = false := by
          simp only [outsideB, Bool.or_eq_false_iff, decide_eq_false_iff_not]
          constructor
          · rcases hcase with hc | ⟨hc, hc2⟩ <;> omega
          · rcases hcase with hc | ⟨hc, hc2⟩ <;> omega
        rw [filter_erase_of_neg _ _ hBin] at ihI ihF ihterm
        refine ⟨ihI, ihF, ?_, ?_, by omega, ihterm⟩
        · omega
        · omega
      · rw [if_neg hchk]
        dsimp only
        rw [filter_outsideB_of_floating hF.2.2.2]
        refine ⟨hI, hF, le_refl _, le_refl _, le_refl _, ?_⟩
        intro _ hmem
        exact hchk ((probe_resolution hI hF ho).mpr hmem)
    · rw [mergeLoopAux]
      dsimp only
      rw [if_neg ho]
      dsimp only
      rw [filter_outsideB_of_floating hF.2.2.2]
      exact ⟨hI, hF, le_refl _, le_refl _, le_refl _, fun h => absurd h (by omega)⟩

/-- The tail of `__free_pages`: inserting the floating block at the head
of its order's free list restores the hole-free invariant, provided no
listed free buddy of the block remains (the merge loop's exit
condition). -/
theorem insert_free_preserves {S : State} {G : Ghost} {P O : Nat}
    (hI : InvC S G (InHole P O)) (hF : Floating G P O)
    (hterm : O < MAX_ORDER - 1 →
      (⟨P ^^^ 2 ^ O, O, RKind.freeR⟩ : Region) ∉ G.regions) :
    Inv { S with
        mem_map := updMap S.mem_map P
          { S.mem_map P with
            flags := PG_free
            order := O
            next := S.buddy_free_area O },
        buddy_free_area := updArea S.buddy_free_area O (some P) }
      ⟨⟨P, O, RKind.freeR⟩ :: G.regions, G.live⟩ := by
  obtain ⟨Pal, Pb, PoM, Pdis⟩ := hF
  have hopos : (0:Nat) < 2 ^ O := Nat.pos_pow_of_pos _ (by omega)
  have hheadne : ∀ R ∈ G.regions, R.pfn ≠ P := by
    intro R hR he
    have hRpos : (0:Nat) < 2 ^ R.ord := Nat.pos_pow_of_pos _ (by omega)
    rcases Pdis R hR with h | h <;> omega
  refine ⟨?_, ?_, ?_, ?_, ?_, ?_, ?_, ?_, ?_, ?_, ?_, ?_, ?_, ?_, ?_, ?_⟩
  · intro R hR
    rcases List.mem_cons.mp hR with rfl | hR
    · exact Pal
    · exact hI.align R hR
  · intro R hR
    rcases List.mem_cons.mp hR with rfl | hR
    · exact Pb
    · exact hI.bound R hR
  · intro R hR
    rcases List.mem_cons.mp hR with rfl | hR
    · exact PoM
    · exact hI.ordlt R hR
  · intro R hR
    rcases List.mem_cons.mp hR with rfl | hR
    · intro h
      exact absurd (show RKind.freeR = RKind.slabR from h) (by decide)
    · exact hI.slabord R hR
  · refine List.pairwise_cons.mpr ⟨?_, hI.disj⟩
    intro T hT
    exact (Pdis T hT).symm
  · intro q hq _
    by_cases hin : InHole P O q
    · exact ⟨⟨P, O, RKind.freeR⟩, List.mem_cons_self _ _, hin.1, hin.2⟩
    · obtain ⟨R, hR, hqR⟩ := hI.cover q hq hin
      exact ⟨R, List.mem_cons_of_mem _ hR, hqR⟩
  · intro o' ho'
    dsimp only
    rw [updArea_other _ _ _ _ (by omega : o' ≠ O)]
    exact hI.hiArea o' ho'
  · intro o' ho'
    dsimp only
    by_cases ho'' : o' = O
    · subst ho''
      obtain ⟨l, hl, hlnd, hliff⟩ := hI.chains o' ho'
      have hPl : P ∉ l := by
        intro hin
        exact hheadne _ ((hliff P).mp hin) rfl
      refine ⟨P :: l, ?_, ?_, ?_⟩
      · rw [updArea_self]
        exact hl.push P _ rfl hPl
      · exact List.nodup_cons.mpr ⟨hPl, hlnd⟩
      · intro p
        constructor
        · intro hp
          rcases List.mem_cons.mp hp with rfl | hp
          · exact List.mem_cons_self _ _
          · exact List.mem_cons_of_mem _ ((hliff p).mp hp)
        · intro hp
          rcases List.mem_cons.mp hp with he | hp
          · have : p = P := congrArg Region.pfn he
            exact this ▸ List.mem_cons_self _ _
          · exact List.mem_cons_of_mem _ ((hliff p).mpr hp)
    · rw [updArea_other _ _ _ _ ho'']
      obtain ⟨l, hl, hlnd, hliff⟩ := hI.chains o' ho'
      have hPl : ∀ q ∈ l, q ≠ P := by
        intro q hq
        exact hheadne _ ((hliff q).mp hq)
      refine ⟨l, hl.of_frame ?_, hlnd, ?_⟩
      · intro q hq
        exact updMap_other _ _ _ _ (hPl q hq)
      · intro p
        rw [hliff p]
        constructor
        · exact fun h => List.mem_cons_of_mem _ h
        · intro hp
          rcases List.mem_cons.mp hp with he | hp
          · exact absurd ((congrArg Region.ord he : o' = O)) ho''
          · exact hp
  · intro R hR hk
    dsimp only
    rcases List.mem_cons.mp hR with rfl | hR
    · rw [updMap_self]
      exact ⟨rfl, rfl⟩
    · rw [updMap_other _ _ _ _ (hheadne R hR)]
      exact hI.freeflags R hR hk
  · intro R hR hk
    dsimp only
    rcases List.mem_cons.mp hR with rfl | hR
    · exact absurd (show RKind.freeR = RKind.buddyR from hk) (by decide)
    · rw [updMap_other _ _ _ _ (hheadne R hR)]
      exact hI.budflags R hR hk
  · intro p o' ho' hp hmem
    rcases List.mem_cons.mp hp with hpnew | hpold <;>
      rcases List.mem_cons.mp hmem with hmnew | hmold
    · have hp1 : p = P := congrArg Region.pfn hpnew
      have ho1 : o' = O := congrArg Region.ord hpnew
      have hm1 : p ^^^ 2 ^ o' = P := congrArg Region.pfn hmnew
      obtain ⟨_, _, hbne, _⟩ := probe_geom Pal Pb (show O < MAX_ORDER - 1 by omega)
      refine hbne ?_
      rw [← hp1, ← ho1]
      exact hm1.trans hp1.symm
    · have hp1 : p = P := congrArg Region.pfn hpnew
      have ho1 : o' = O := congrArg Region.ord hpnew
      refine hterm (by omega) ?_
      rw [← ho1, ← hp1]
      exact hmold
    · have hm1 : p ^^^ 2 ^ o' = P := congrArg Region.pfn hmnew
      have ho1 : o' = O := congrArg Region.ord hmnew
      refine hterm (by omega) ?_
      have hp1 : P ^^^ 2 ^ O = p := by
        rw [← ho1, ← hm1, Nat.xor_assoc, Nat.xor_self, Nat.xor_zero]
      rw [hp1, ← ho1]
      exact hpold
    · exact hI.nopair p o' ho' hpold hmold
  · exact hI.cachesz
  · intro R hR hk
    rcases List.mem_cons.mp hR with rfl | hR
    · exact absurd (show RKind.freeR = RKind.slabR from hk) (by decide)
    · obtain ⟨ci, fl, h1, h2, h3, h4, h5, h6, h7, h8⟩ := hI.slabpage R hR hk
      refine ⟨ci, fl, h1, ?_, ?_, ?_, h5, h6, ?_, h8⟩
      · dsimp only
        rw [updMap_other _ _ _ _ (hheadne R hR)]
        exact h2
      · dsimp only
        rw [updMap_other _ _ _ _ (hheadne R hR)]
        exact h3
      · dsimp only
        rw [updMap_other _ _ _ _ (hheadne R hR)]
        exact h4
      · dsimp only
        rw [updMap_other _ _ _ _ (hheadne R hR)]
        exact h7
  · intro i hi
    dsimp only
    obtain ⟨pl, hpl, hplnd, hpliff⟩ := hI.partials i hi
    have hPpl : ∀ q ∈ pl, q ≠ P := by
      intro q hq
      exact hheadne _ ((hpliff q).mp hq).1
    refine ⟨pl, hpl.of_frame ?_, hplnd, ?_⟩
    · intro q hq
      exact updMap_other _ _ _ _ (hPpl q hq)
    · intro p
      rw [hpliff p]
      by_cases hp : p = P
      · subst hp
        rw [updMap_self]
        constructor
        · rintro ⟨h1, h2, h3⟩
          exact ⟨List.mem_cons_of_mem _ h1, h2, h3⟩
        · rintro ⟨h1, h2, h3⟩
          rcases List.mem_cons.mp h1 with he | h1
          · exact nomatch (congrArg Region.kind he : RKind.slabR = RKind.freeR)
          · exact ⟨h1, h2, h3⟩
      · rw [updMap_other _ _ _ _ hp]
        constructor
        · rintro ⟨h1, h2, h3⟩
          exact ⟨List.mem_cons_of_mem _ h1, h2, h3⟩
        · rintro ⟨h1, h2, h3⟩
          rcases List.mem_cons.mp h1 with he | h1
          · exact nomatch (congrArg Region.kind he : RKind.slabR = RKind.freeR)
          · exact ⟨h1, h2, h3⟩
  · intro x hx
    obtain ⟨p, j, ci, hreg, hcache, hj, hx'⟩ := hI.liveslab x hx
    refine ⟨p, j, ci, List.mem_cons_of_mem _ hreg, ?_, hj, hx'⟩
    dsimp only
    by_cases hp : p = P
    · subst hp
      rw [updMap_self]
      exact hcache
    · rw [updMap_other _ _ _ _ hp]
      exact hcache
  · exact hI.livend

/-- `__free_pages` preserves the invariant: freeing a floating block
(one whose region was just withdrawn from the ghost partition) restores
the hole-free invariant with the ghost surgery `ghostFreeB`. -/
theorem free_pages_preserves {s : State} {g : Ghost} {pfn o : Nat}
    (hI : InvC s g (InHole pfn o)) (hF : Floating g pfn o) :
    Inv (__free_pages s pfn o) (ghostFreeB s g pfn o) := by
  obtain ⟨mI, mF, _, _, _, mterm⟩ :=
    mergeLoopAux_master (MAX_ORDER + 1) s g pfn o hI hF (by omega)
  exact insert_free_preserves mI mF mterm

/-! #### Allocation-side preservation -/

/-- The ghost regions created by the halving loop of `alloc_pages`:
one free region per split level, mirroring `splitDown`. -/
def halvesList (pfn target : Nat) : Nat → List Region
  | 0 => []
  | c + 1 =>
    if target < c + 1 then
      (⟨pfn + 2 ^ c, c, RKind.freeR⟩ : Region) :: halvesList pfn target c
    else []

/-- Ghost counterpart of `alloc_pages s order`: on a successful
first-fit hit at `(k, p0)`, the popped free region is replaced by the
allocated region at the requested order together with the split halves. -/
def ghostAlloc (s : State) (g : Ghost) (order : Nat) : Ghost :=
  match findFreeFrom s order with
  | none => g
  | some (k, p0) =>
    ⟨(⟨p0, order, RKind.buddyR⟩ : Region) :: halvesList p0 order k ++
      g.regions.erase ⟨p0, k, RKind.freeR⟩, g.live⟩

/-- The invariant only depends on the ghost regions up to permutation. -/
theorem InvC.perm {s : State} {g g' : Ghost} {hole : Nat → Prop}
    (h : InvC s g hole) (hp : g.regions.Perm g'.regions)
    (hl : g.live = g'.live) : InvC s g' hole := by
  have hmem : ∀ R, R ∈ g'.regions ↔ R ∈ g.regions := fun R => (hp.mem_iff).symm
  refine ⟨?_, ?_, ?_, ?_, ?_, ?_, h.hiArea, ?_, ?_, ?_, ?_, h.cachesz, ?_, ?_, ?_, ?_⟩
  · intro R hR
    exact h.align R ((hmem R).mp hR)
  · intro R hR
    exact h.bound R ((hmem R).mp hR)
  · intro R hR
    exact h.ordlt R ((hmem R).mp hR)
  · intro R hR
    exact h.slabord R ((hmem R).mp hR)
  · exact (hp.pairwise_iff (fun h => rdisj_symm h)).mp h.disj
  · intro q hq hnh
    obtain ⟨R, hR, hqR⟩ := h.cover q hq hnh
    exact ⟨R, (hmem R).mpr hR, hqR⟩
  · intro o ho
    obtain ⟨l, hl', hlnd, hliff⟩ := h.chains o ho
    exact ⟨l, hl', hlnd, fun p => (hliff p).trans (hmem _).symm⟩
  · intro R hR
    exact h.freeflags R ((hmem R).mp hR)
  · intro R hR
    exact h.budflags R ((hmem R).mp hR)
  · intro p o ho hpmem hmem2
    exact h.nopair p o ho ((hmem _).mp hpmem) ((hmem _).mp hmem2)
  · intro R hR hk
    rw [← hl]
    exact h.slabpage R ((hmem R).mp hR) hk
  · intro i hi
    obtain ⟨pl, hpl, hplnd, hpliff⟩ := h.partials i hi
    exact ⟨pl, hpl, hplnd, fun p => (hpliff p).trans
      (by rw [hmem ⟨p, 0, RKind.slabR⟩])⟩
  · intro x hx
    rw [← hl] at hx
    obtain ⟨p, j, ci, hreg, hc, hj, hx'⟩ := h.liveslab x hx
    exact ⟨p, j, ci, (hmem _).mpr hreg, hc, hj, hx'⟩
  · rw [← hl]
    exact h.livend

theorem Floating.permF {g g' : Ghost} {pfn o : Nat} (h : Floating g pfn o)
    (hp : g.regions.Perm g'.regions) : Floating g' pfn o :=
  ⟨h.1, h.2.1, h.2.2.1, fun R hR => h.2.2.2 R (hp.mem_iff.mpr hR)⟩

/-- Popping the head of a non-empty free list opens the invariant's
hole at the popped block and withdraws its region from the ghost. -/
theorem pop_head_preserves {s : State} {g : Ghost} {k p0 : Nat}
    (hI : Inv s g) (hk : k < MAX_ORDER) (hhead : s.buddy_free_area k = some p0) :
    InvC { s with buddy_free_area := updArea s.buddy_free_area k (s.mem_map p0).next }
      ⟨g.regions.erase ⟨p0, k, RKind.freeR⟩, g.live⟩ (InHole p0 k) ∧
    Floating ⟨g.regions.erase ⟨p0, k, RKind.freeR⟩, g.live⟩ p0 k := by
  obtain ⟨l, hl, hlnd, hliff⟩ := hI.chains k hk
  rw [hhead] at hl
  cases hl with
  | cons p0 t htail =>
  have hB0 : (⟨p0, k, RKind.freeR⟩ : Region) ∈ g.regions :=
    (hliff p0).mp (List.mem_cons_self _ _)
  have hnodupR : g.regions.Nodup := pairwise_nodup hI.disj
  have hp0t : p0 ∉ t := (List.nodup_cons.mp hlnd).1
  have htnd : t.Nodup := (List.nodup_cons.mp hlnd).2
  have hkpos : (0:Nat) < 2 ^ k := Nat.pos_pow_of_pos _ (by omega)
  have hout : ∀ R ∈ g.regions.erase ⟨p0, k, RKind.freeR⟩,
      R.pfn + 2 ^ R.ord ≤ p0 ∨ p0 + 2 ^ k ≤ R.pfn := by
    intro R hR
    rw [hnodupR.mem_erase_iff] at hR
    exact hI.disj.forall (fun _ _ => rdisj_symm) hR.2 hB0 hR.1
  constructor
  · refine ⟨?_, ?_, ?_, ?_, ?_, ?_, ?_, ?_, ?_, ?_, ?_, hI.cachesz, ?_, ?_, ?_, hI.livend⟩
    · intro R hR
      exact hI.align R (List.mem_of_mem_erase hR)
    · intro R hR
      exact hI.bound R (List.mem_of_mem_erase hR)
    · intro R hR
      exact hI.ordlt R (List.mem_of_mem_erase hR)
    · intro R hR
      exact hI.slabord R (List.mem_of_mem_erase hR)
    · exact hI.disj.sublist (List.erase_sublist _ _)
    · intro q hq hnh
      obtain ⟨R, hR, hqR⟩ := hI.cover q hq (fun h => h)
      have hne : R ≠ ⟨p0, k, RKind.freeR⟩ := by
        intro he
        subst he
        exact hnh ⟨hqR.1, hqR.2⟩
      exact ⟨R, hnodupR.mem_erase_iff.mpr ⟨hne, hR⟩, hqR⟩
    · intro o ho
      dsimp only
      rw [updArea_other _ _ _ _ (by omega : o ≠ k)]
      exact hI.hiArea o ho
    · intro o ho
      dsimp only
      by_cases ho' : o = k
      · subst ho'
        refine ⟨t, ?_, htnd, ?_⟩
        · rw [updArea_self]
          exact htail
        · intro p
          rw [hnodupR.mem_erase_iff]
          constructor
          · intro hp
            refine ⟨?_, (hliff p).mp (List.mem_cons_of_mem _ hp)⟩
            intro he
            have : p = p0 := congrArg Region.pfn he
            subst this
            exact hp0t hp
          · rintro ⟨hne, hp⟩
            rcases List.mem_cons.mp ((hliff p).mpr hp) with rfl | hp'
            · exact absurd rfl hne
            · exact hp'
      · rw [updArea_other _ _ _ _ ho']
        obtain ⟨l2, hl2, hl2nd, hl2iff⟩ := hI.chains o ho
        refine ⟨l2, hl2, hl2nd, ?_⟩
        intro p
        rw [hl2iff p, hnodupR.mem_erase_iff]
        constructor
        · intro hp
          refine ⟨?_, hp⟩
          intro he
          exact ho' (congrArg Region.ord he)
        · exact fun h => h.2
    · intro R hR hk'
      exact hI.freeflags R (List.mem_of_mem_erase hR) hk'
    · intro R hR hk'
      exact hI.budflags R (List.mem_of_mem_erase hR) hk'
    · intro p o ho hp hmem
      exact hI.nopair p o ho (List.mem_of_mem_erase hp) (List.mem_of_mem_erase hmem)
    · intro R hR hk'
      exact hI.slabpage R (List.mem_of_mem_erase hR) hk'
    · intro i hi
      obtain ⟨pl, hpl, hplnd, hpliff⟩ := hI.partials i hi
      refine ⟨pl, hpl, hplnd, ?_⟩
      intro p
      rw [hpliff p, hnodupR.mem_erase_iff]
      constructor
      · rintro ⟨h1, h2, h3⟩
        refine ⟨⟨?_, h1⟩, h2, h3⟩
        exact fun he => nomatch (congrArg Region.kind he : RKind.slabR = RKind.freeR)
      · rintro ⟨⟨_, h1⟩, h2, h3⟩
        exact ⟨h1, h2, h3⟩
    · intro x hx
      obtain ⟨p, j, ci, hreg, hc, hj, hx'⟩ := hI.liveslab x hx
      refine ⟨p, j, ci, hnodupR.mem_erase_iff.mpr ⟨?_, hreg⟩, hc, hj, hx'⟩
      exact fun he => nomatch (congrArg Region.kind he : RKind.slabR = RKind.freeR)
  · exact ⟨hI.align _ hB0, hI.bound _ hB0, hk, hout⟩

/-- One iteration of the halving loop: the upper half of the floating
block is pushed onto the lower order's free list and listed as a free
region; the floating block shrinks to the lower half. -/
theorem split_step_preserves {s : State} {g : Ghost} {pfn c : Nat}
    (hI : InvC s g (InHole pfn (c + 1))) (hF : Floating g pfn (c + 1)) :
    InvC { s with
        mem_map := updMap s.mem_map (pfn + 2 ^ c)
          { s.mem_map (pfn + 2 ^ c) with
            flags := PG_free
            order := c
            next := s.buddy_free_area c },
        buddy_free_area := updArea s.buddy_free_area c (some (pfn + 2 ^ c)) }
      ⟨(⟨pfn + 2 ^ c, c, RKind.freeR⟩ : Region) :: g.regions, g.live⟩
      (InHole pfn c) ∧
    Floating ⟨(⟨pfn + 2 ^ c, c, RKind.freeR⟩ : Region) :: g.regions, g.live⟩
      pfn c := by
  obtain ⟨hal1, hb1, hoM1, hdis1⟩ := hF
  have hcd : 2 ^ c ∣ pfn := Nat.dvd_trans (Nat.pow_dvd_pow 2 (Nat.le_succ c)) hal1
  have hcpos : (0:Nat) < 2 ^ c := Nat.pos_pow_of_pos _ (by omega)
  have hpow : (2:Nat) ^ (c + 1) = 2 ^ c + 2 ^ c := by
    rw [Nat.pow_succ]; ring
  have hbit : pfn.testBit c = false := (testBit_false_iff_dvd hcd).mpr hal1
  have hxp : pfn ^^^ 2 ^ c = pfn + 2 ^ c := xor_two_pow_of_testBit_false hbit
  have hbx : (pfn + 2 ^ c) ^^^ 2 ^ c = pfn := by
    rw [← hxp, Nat.xor_assoc, Nat.xor_self, Nat.xor_zero]
  have hheadout : ∀ R ∈ g.regions, R.pfn + 2 ^ R.ord ≤ pfn ∨
      pfn + 2 ^ (c + 1) ≤ R.pfn := hdis1
  have hheadne : ∀ R ∈ g.regions, R.pfn ≠ pfn + 2 ^ c := by
    intro R hR he
    have hRpos : (0:Nat) < 2 ^ R.ord := Nat.pos_pow_of_pos _ (by omega)
    rcases hdis1 R hR with h | h <;> omega
  have hnopfn : (⟨pfn, c, RKind.freeR⟩ : Region) ∉ g.regions := by
    intro hmem
    have h' : pfn + 2 ^ c ≤ pfn ∨ pfn + 2 ^ (c + 1) ≤ pfn := hdis1 _ hmem
    omega
  constructor
  · refine ⟨?_, ?_, ?_, ?_, ?_, ?_, ?_, ?_, ?_, ?_, ?_, hI.cachesz, ?_, ?_, ?_, hI.livend⟩
    · intro R hR
      rcases List.mem_cons.mp hR with rfl | hR
      · exact Nat.dvd_add hcd (Nat.dvd_refl _)
      · exact hI.align R hR
    · intro R hR
      rcases List.mem_cons.mp hR with rfl | hR
      · show pfn + 2 ^ c + 2 ^ c ≤ NUM_PAGES
        omega
      · exact hI.bound R hR
    · intro R hR
      rcases List.mem_cons.mp hR with rfl | hR
      · show c < MAX_ORDER
        omega
      · exact hI.ordlt R hR
    · intro R hR
      rcases List.mem_cons.mp hR with rfl | hR
      · intro h
        exact absurd (show RKind.freeR = RKind.slabR from h) (by decide)
      · exact hI.slabord R hR
    · refine List.pairwise_cons.mpr ⟨?_, hI.disj⟩
      intro T hT
      show pfn + 2 ^ c + 2 ^ c ≤ T.pfn ∨ T.pfn + 2 ^ T.ord ≤ pfn + 2 ^ c
      rcases hdis1 T hT with h | h
      · exact Or.inr (by omega)
      · exact Or.inl (by omega)
    · intro q hq hnh
      by_cases hin : pfn + 2 ^ c ≤ q ∧ q < pfn + 2 ^ c + 2 ^ c
      · exact ⟨⟨pfn + 2 ^ c, c, RKind.freeR⟩, List.mem_cons_self _ _,
          hin.1, hin.2⟩
      · have hnh2 : ¬ InHole pfn (c + 1) q := by
          intro ⟨h1, h2⟩
          rcases Nat.lt_or_ge q (pfn + 2 ^ c) with h3 | h3
          · exact hnh ⟨h1, h3⟩
          · exact hin ⟨h3, by omega⟩
        obtain ⟨R, hR, hqR⟩ := hI.cover q hq hnh2
        exact ⟨R, List.mem_cons_of_mem _ hR, hqR⟩
    · intro o ho
      dsimp only
      rw [updArea_other _ _ _ _ (by omega : o ≠ c)]
      exact hI.hiArea o ho
    · intro o ho
      dsimp only
      by_cases ho' : o = c
      · subst ho'
        obtain ⟨l, hl, hlnd, hliff⟩ := hI.chains o ho
        have hbl : pfn + 2 ^ o ∉ l := by
          intro hin
          exact hheadne _ ((hliff _).mp hin) rfl
        refine ⟨(pfn + 2 ^ o) :: l, ?_, List.nodup_cons.mpr ⟨hbl, hlnd⟩, ?_⟩
        · rw [updArea_self]
          exact hl.push _ _ rfl hbl
        · intro p
          constructor
          · intro hp
            rcases List.mem_cons.mp hp with rfl | hp
            · exact List.mem_cons_self _ _
            · exact List.mem_cons_of_mem _ ((hliff p).mp hp)
          · intro hp
            rcases List.mem_cons.mp hp with he | hp
            · have : p = pfn + 2 ^ o := congrArg Region.pfn he
              exact this ▸ List.mem_cons_self _ _
            · exact List.mem_cons_of_mem _ ((hliff p).mpr hp)
      · rw [updArea_other _ _ _ _ ho']
        obtain ⟨l, hl, hlnd, hliff⟩ := hI.chains o ho
        have hfr : ∀ q ∈ l, q ≠ pfn + 2 ^ c := by
          intro q hq
          exact hheadne _ ((hliff q).mp hq)
        refine ⟨l, hl.of_frame ?_, hlnd, ?_⟩
        · intro q hq
          exact updMap_other _ _ _ _ (hfr q hq)
        · intro p
          rw [hliff p]
          constructor
          · exact fun h => List.mem_cons_of_mem _ h
          · intro hp
            rcases List.mem_cons.mp hp with he | hp
            · exact absurd ((congrArg Region.ord he : o = c)) ho'
            · exact hp
    · intro R hR hk
      dsimp only
      rcases List.mem_cons.mp hR with rfl | hR
      · rw [updMap_self]
        exact ⟨rfl, rfl⟩
      · rw [updMap_other _ _ _ _ (hheadne R hR)]
        exact hI.freeflags R hR hk
    · intro R hR hk
      dsimp only
      rcases List.mem_cons.mp hR with rfl | hR
      · exact absurd (show RKind.freeR = RKind.buddyR from hk) (by decide)
      · rw [updMap_other _ _ _ _ (hheadne R hR)]
        exact hI.budflags R hR hk
    · intro p o' ho' hp hmem
      rcases List.mem_cons.mp hp with hpnew | hpold <;>
        rcases List.mem_cons.mp hmem with hmnew | hmold
      · have hp1 : p = pfn + 2 ^ c := congrArg Region.pfn hpnew
        have ho1 : o' = c := congrArg Region.ord hpnew
        have hm1 : p ^^^ 2 ^ o' = pfn + 2 ^ c := congrArg Region.pfn hmnew
        rw [hp1, ho1, hbx] at hm1
        omega
      · have hp1 : p = pfn + 2 ^ c := congrArg Region.pfn hpnew
        have ho1 : o' = c := congrArg Region.ord hpnew
        rw [ho1, hp1, hbx] at hmold
        exact hnopfn hmold
      · have hm1 : p ^^^ 2 ^ o' = pfn + 2 ^ c := congrArg Region.pfn hmnew
        have ho1 : o' = c := congrArg Region.ord hmnew
        have hp1 : p = pfn := by
          rw [ho1] at hm1
          have : p ^^^ 2 ^ c ^^^ 2 ^ c = (pfn + 2 ^ c) ^^^ 2 ^ c :=
            congrArg (· ^^^ 2 ^ c) hm1
          rwa [Nat.xor_assoc, Nat.xor_self, Nat.xor_zero, hbx] at this
        rw [hp1, ho1] at hpold
        exact hnopfn hpold
      · exact hI.nopair p o' ho' hpold hmold
    · intro R hR hk
      rcases List.mem_cons.mp hR with rfl | hR
      · exact absurd (show RKind.freeR = RKind.slabR from hk) (by decide)
      · obtain ⟨ci, fl, h1, h2, h3, h4, h5, h6, h7, h8⟩ := hI.slabpage R hR hk
        refine ⟨ci, fl, h1, ?_, ?_, ?_, h5, h6, ?_, h8⟩
        · dsimp only
          rw [updMap_other _ _ _ _ (hheadne R hR)]
          exact h2
        · dsimp only
          rw [updMap_other _ _ _ _ (hheadne R hR)]
          exact h3
        · dsimp only
          rw [updMap_other _ _ _ _ (hheadne R hR)]
          exact h4
        · dsimp only
          rw [updMap_other _ _ _ _ (hheadne R hR)]
          exact h7
    · intro i hi
      dsimp only
      obtain ⟨pl, hpl, hplnd, hpliff⟩ := hI.partials i hi
      have hfr : ∀ q ∈ pl, q ≠ pfn + 2 ^ c := by
        intro q hq
        exact hheadne _ ((hpliff q).mp hq).1
      refine ⟨pl, hpl.of_frame ?_, hplnd, ?_⟩
      · intro q hq
        exact updMap_other _ _ _ _ (hfr q hq)
      · intro p
        rw [hpliff p]
        by_cases hp : p = pfn + 2 ^ c
        · subst hp
          rw [updMap_self]
          constructor
          · rintro ⟨h1, h2, h3⟩
            exact ⟨List.mem_cons_of_mem _ h1, h2, h3⟩
          · rintro ⟨h1, h2, h3⟩
            rcases List.mem_cons.mp h1 with he | h1
            · exact nomatch (congrArg Region.kind he : RKind.slabR = RKind.freeR)
            · exact ⟨h1, h2, h3⟩
        · rw [updMap_other _ _ _ _ hp]
          constructor
          · rintro ⟨h1, h2, h3⟩
            exact ⟨List.mem_cons_of_mem _ h1, h2, h3⟩
          · rintro ⟨h1, h2, h3⟩
            rcases List.mem_cons.mp h1 with he | h1
            · exact nomatch (congrArg Region.kind he : RKind.slabR = RKind.freeR)
            · exact ⟨h1, h2, h3⟩
    · intro x hx
      obtain ⟨p, j, ci, hreg, hcache, hj, hx'⟩ := hI.liveslab x hx
      refine ⟨p, j, ci, List.mem_cons_of_mem _ hreg, ?_, hj, hx'⟩
      dsimp only
      by_cases hp : p = pfn + 2 ^ c
      · subst hp
        rw [updMap_self]
        exact hcache
      · rw [updMap_other _ _ _ _ hp]
        exact hcache
  · refine ⟨hcd, by omega, by omega, ?_⟩
    intro R hR
    rcases List.mem_cons.mp hR with rfl | hR
    · exact Or.inr (Nat.le_refl _)
    · rcases hdis1 R hR with h | h
      · exact Or.inl h
      · exact Or.inr (by omega)

/-- Master lemma for the halving loop: running it from order `c` down to
`target` pushes one free half per level, listed in `halvesList`. -/
theorem splitDown_master : ∀ (c : Nat) (s : State) (g : Ghost) (pfn target : Nat),
    InvC s g (InHole pfn c) → Floating g pfn c → target ≤ c →
    InvC (splitDown s pfn c target)
      ⟨halvesList pfn target c ++ g.regions, g.live⟩ (InHole pfn target) ∧
    Floating ⟨halvesList pfn target c ++ g.regions, g.live⟩ pfn target := by
  intro c
  induction c with
  | zero =>
    intro s g pfn target hI hF ht
    have h0 : target = 0 := by omega
    subst h0
    exact ⟨hI, hF⟩
  | succ c ih =>
    intro s g pfn target hI hF ht
    rcases Nat.eq_or_lt_of_le ht with heq | hlt
    · rw [splitDown, if_neg (by omega), halvesList, if_neg (by omega)]
      rw [heq]
      exact ⟨hI, hF⟩
    · have hlt' : target < c + 1 := hlt
      rw [splitDown, if_pos hlt', halvesList, if_pos hlt']
      dsimp only
      obtain ⟨hI1, hF1⟩ := split_step_preserves hI hF
      obtain ⟨ihI, ihF⟩ := ih _ _ pfn target hI1 hF1 (by omega)
      have hperm : (halvesList pfn target c ++
          ((⟨pfn + 2 ^ c, c, RKind.freeR⟩ : Region) :: g.regions)).Perm
          ((⟨pfn + 2 ^ c, c, RKind.freeR⟩ : Region) ::
            (halvesList pfn target c ++ g.regions)) :=
        List.perm_middle
      exact ⟨ihI.perm hperm rfl, ihF.permF hperm⟩

/-- The tail of `alloc_pages`: marking the floating block allocated at
the requested order closes the hole with a `buddyR` region. -/
theorem retain_preserves {s : State} {g : Ghost} {pfn target : Nat}
    (hI : InvC s g (InHole pfn target)) (hF : Floating g pfn target) :
    Inv { s with
        mem_map := updMap s.mem_map pfn
          { s.mem_map pfn with
            flags := PG_buddy
            order := target
            next := none } }
      ⟨(⟨pfn, target, RKind.buddyR⟩ : Region) :: g.regions, g.live⟩ := by
  obtain ⟨hal, hb, hoM, hdis⟩ := hF
  have hpos : (0:Nat) < 2 ^ target := Nat.pos_pow_of_pos _ (by omega)
  have hheadne : ∀ R ∈ g.regions, R.pfn ≠ pfn := by
    intro R hR he
    have hRpos : (0:Nat) < 2 ^ R.ord := Nat.pos_pow_of_pos _ (by omega)
    rcases hdis R hR with h | h <;> omega
  refine ⟨?_, ?_, ?_, ?_, ?_, ?_, hI.hiArea, ?_, ?_, ?_, ?_, hI.cachesz, ?_, ?_, ?_, hI.livend⟩
  · intro R hR
    rcases List.mem_cons.mp hR with rfl | hR
    · exact hal
    · exact hI.align R hR
  · intro R hR
    rcases List.mem_cons.mp hR with rfl | hR
    · exact hb
    · exact hI.bound R hR
  · intro R hR
    rcases List.mem_cons.mp hR with rfl | hR
    · exact hoM
    · exact hI.ordlt R hR
  · intro R hR
    rcases List.mem_cons.mp hR with rfl | hR
    · intro h
      exact absurd (show RKind.buddyR = RKind.slabR from h) (by decide)
    · exact hI.slabord R hR
  · refine List.pairwise_cons.mpr ⟨?_, hI.disj⟩
    intro T hT
    exact (hdis T hT).symm
  · intro q hq _
    by_cases hin : InHole pfn target q
    · exact ⟨⟨pfn, target, RKind.buddyR⟩, List.mem_cons_self _ _, hin.1, hin.2⟩
    · obtain ⟨R, hR, hqR⟩ := hI.cover q hq hin
      exact ⟨R, List.mem_cons_of_mem _ hR, hqR⟩
  · intro o ho
    obtain ⟨l, hl, hlnd, hliff⟩ := hI.chains o ho
    have hfr : ∀ q ∈ l, q ≠ pfn := by
      intro q hq
      exact hheadne _ ((hliff q).mp hq)
    refine ⟨l, hl.of_frame ?_, hlnd, ?_⟩
    · intro q hq
      exact updMap_other _ _ _ _ (hfr q hq)
    · intro p
      rw [hliff p]
      constructor
      · exact fun h => List.mem_cons_of_mem _ h
      · intro hp
        rcases List.mem_cons.mp hp with he | hp
        · exact nomatch (congrArg Region.kind he : RKind.freeR = RKind.buddyR)
        · exact hp
  · intro R hR hk
    dsimp only
    rcases List.mem_cons.mp hR with rfl | hR
    · exact absurd (show RKind.buddyR = RKind.freeR from hk) (by decide)
    · rw [updMap_other _ _ _ _ (hheadne R hR)]
      exact hI.freeflags R hR hk
  · intro R hR hk
    dsimp only
    rcases List.mem_cons.mp hR with rfl | hR
    · rw [updMap_self]
      exact ⟨rfl, rfl⟩
    · rw [updMap_other _ _ _ _ (hheadne R hR)]
      exact hI.budflags R hR hk
  · intro p o' ho' hp hmem
    have hp' : (⟨p, o', RKind.freeR⟩ : Region) ∈ g.regions := by
      rcases List.mem_cons.mp hp with he | h
      · exact nomatch (congrArg Region.kind he : RKind.freeR = RKind.buddyR)
      · exact h
    have hm' : (⟨p ^^^ 2 ^ o', o', RKind.freeR⟩ : Region) ∈ g.regions := by
      rcases List.mem_cons.mp hmem with he | h
      · exact nomatch (congrArg Region.kind he : RKind.freeR = RKind.buddyR)
      · exact h
    exact hI.nopair p o' ho' hp' hm'
  · intro R hR hk
    rcases List.mem_cons.mp hR with rfl | hR
    · exact absurd (show RKind.buddyR = RKind.slabR from hk) (by decide)
    · obtain ⟨ci, fl, h1, h2, h3, h4, h5, h6, h7, h8⟩ := hI.slabpage R hR hk
      refine ⟨ci, fl, h1, ?_, ?_, ?_, h5, h6, ?_, h8⟩
      · dsimp only
        rw [updMap_other _ _ _ _ (hheadne R hR)]
        exact h2
      · dsimp only
        rw [updMap_other _ _ _ _ (hheadne R hR)]
        exact h3
      · dsimp only
        rw [updMap_other _ _ _ _ (hheadne R hR)]
        exact h4
      · dsimp only
        rw [updMap_other _ _ _ _ (hheadne R hR)]
        exact h7
  · intro i hi
    dsimp only
    obtain ⟨pl, hpl, hplnd, hpliff⟩ := hI.partials i hi
    have hfr : ∀ q ∈ pl, q ≠ pfn := by
      intro q hq
      exact hheadne _ ((hpliff q).mp hq).1
    refine ⟨pl, hpl.of_frame ?_, hplnd, ?_⟩
    · intro q hq
      exact updMap_other _ _ _ _ (hfr q hq)
    · intro p
      rw [hpliff p]
      by_cases hp : p = pfn
      · subst hp
        rw [updMap_self]
        constructor
        · rintro ⟨h1, h2, h3⟩
          exact ⟨List.mem_cons_of_mem _ h1, h2, h3⟩
        · rintro ⟨h1, h2, h3⟩
          rcases List.mem_cons.mp h1 with he | h1
          · exact nomatch (congrArg Region.kind he : RKind.slabR = RKind.buddyR)
          · exact ⟨h1, h2, h3⟩
      · rw [updMap_other _ _ _ _ hp]
        constructor
        · rintro ⟨h1, h2, h3⟩
          exact ⟨List.mem_cons_of_mem _ h1, h2, h3⟩
        · rintro ⟨h1, h2, h3⟩
          rcases List.mem_cons.mp h1 with he | h1
          · exact nomatch (congrArg Region.kind he : RKind.slabR = RKind.buddyR)
          · exact ⟨h1, h2, h3⟩
  · intro x hx
    obtain ⟨p, j, ci, hreg, hcache, hj, hx'⟩ := hI.liveslab x hx
    refine ⟨p, j, ci, List.mem_cons_of_mem _ hreg, ?_, hj, hx'⟩
    dsimp only
    by_cases hp : p = pfn
    · subst hp
      rw [updMap_self]
      exact hcache
    · rw [updMap_other _ _ _ _ hp]
      exact hcache

/-- A successful `alloc_pages` preserves the invariant with the ghost
surgery `ghostAlloc`, and the returned block is listed allocated. -/
theorem alloc_pages_some_preserves {s : State} {g : Ghost} {order pfn : Nat}
    (hI : Inv s g) (h : (alloc_pages s order).1 = some pfn) :
    Inv (alloc_pages s order).2 (ghostAlloc s g order) ∧
    (⟨pfn, order, RKind.buddyR⟩ : Region) ∈ (ghostAlloc s g order).regions ∧
    (ghostAlloc s g order).live = g.live := by
  cases hf : findFreeFrom s order with
  | none =>
    rw [alloc_pages, hf] at h
    exact absurd h (by simp)
  | some kp =>
    obtain ⟨k, p0⟩ := kp
    obtain ⟨hok, hkM, hhead, _⟩ := findFreeAux_some (MAX_ORDER + 1) order s k p0 hf
    have hpfn : pfn = p0 := by
      rw [alloc_pages, hf] at h
      dsimp only at h
      exact (Option.some.inj h).symm
    subst hpfn
    rw [alloc_pages, hf]
    rw [ghostAlloc, hf]
    dsimp only
    obtain ⟨hI1, hF1⟩ := pop_head_preserves hI hkM hhead
    obtain ⟨hI2, hF2⟩ := splitDown_master k _ _ pfn order hI1 hF1 hok
    refine ⟨retain_preserves hI2 hF2, List.mem_cons_self _ _, rfl⟩

/-! #### Slab-side preservation: slot arithmetic and the freelist builder -/

theorem slab_sizes_pos {ci : Nat} (h : ci < SLAB_INDEX_COUNT) :
    0 < slab_sizes ci := by
  have h7 : ci < 7 := by
    have he : SLAB_INDEX_COUNT = 7 := by decide
    omega
  interval_cases ci <;> decide

theorem slab_count_ge_two {ci : Nat} (h : ci < SLAB_INDEX_COUNT) :
    2 ≤ PAGE_SIZE / slab_sizes ci := by
  have h7 : ci < 7 := by
    have he : SLAB_INDEX_COUNT = 7 := by decide
    omega
  interval_cases ci <;> decide

theorem slot_off_lt {sz j : Nat} (hsz : 0 < sz) (hj : j < PAGE_SIZE / sz) :
    j * sz < PAGE_SIZE := by
  have h1 : (j + 1) * sz ≤ (PAGE_SIZE / sz) * sz := Nat.mul_le_mul_right _ hj
  have h2 : (PAGE_SIZE / sz) * sz ≤ PAGE_SIZE := Nat.div_mul_le_self _ _
  have h3 : (j + 1) * sz = j * sz + sz := by ring
  omega

theorem page_address_pos (p off : Nat) : 0 < page_address p + off := by
  unfold page_address PHYS_MEM_START
  positivity

/-- Address arithmetic of in-page offsets: two in-arena slot addresses
agree exactly when page and offset agree. -/
theorem slot_eq_iff {p p' o1 o2 : Nat} (h1 : o1 < PAGE_SIZE) (h2 : o2 < PAGE_SIZE) :
    page_address p + o1 = page_address p' + o2 ↔ p = p' ∧ o1 = o2 := by
  unfold page_address
  rw [Nat.shiftLeft_eq, Nat.shiftLeft_eq]
  have hp12 : (2:Nat) ^ PAGE_SHIFT = 4096 := by decide
  have hps : PAGE_SIZE = 4096 := by decide
  rw [hp12] at *
  rw [hps] at h1 h2
  constructor
  · intro h
    omega
  · rintro ⟨rfl, rfl⟩
    rfl

/-- `virt_to_page` resolves any in-page address to its page. -/
theorem virt_to_page_slot {p off : Nat} (hp : p < NUM_PAGES) (hoff : off < PAGE_SIZE) :
    virt_to_page (page_address p + off) = some p := by
  unfold virt_to_page page_address
  rw [Nat.shiftLeft_eq]
  have hp12 : (2:Nat) ^ PAGE_SHIFT = 4096 := by decide
  have hps : PAGE_SIZE = 4096 := by decide
  have hnp : NUM_PAGES = 32768 := by decide
  have hms : MEM_SIZE = 134217728 := by decide
  have hphys : PHYS_MEM_START = 4294967296 := by decide
  rw [hp12]
  rw [hps] at hoff
  rw [hnp] at hp
  rw [if_neg ?_]
  · congr 1
    rw [Nat.shiftRight_eq_div_pow, hp12]
    have he : PHYS_MEM_START + p * 4096 + off - PHYS_MEM_START = p * 4096 + off := by
      omega
    rw [he]
    rw [Nat.add_comm (p * 4096) off, Nat.add_mul_div_right _ _ (by omega : (0:Nat) < 4096)]
    rw [Nat.div_eq_of_lt hoff]
    omega
  · rw [hphys, hms]
    push_neg
    constructor
    · omega
    · omega

/-- Characterization of the freelist-building loop of `cache_grow`: it
writes exactly the slot words, producing the in-band chain of the `i`
slots continued by the original chain from `prev`. -/
theorem buildFL_spec (addr sz : Nat) (hsz : 0 < sz) (haddr : 0 < addr) :
    ∀ (i : Nat) (m : Nat → Nat) (prev : Nat) (l : List Nat),
    IsFChain m prev l →
    (∀ a ∈ l, ∀ j, j < i → a ≠ addr + j * sz) →
    IsFChain (buildFL addr sz m i prev).1 (buildFL addr sz m i prev).2
      (((List.range i).map (fun j => addr + j * sz)) ++ l) ∧
    (∀ b, (∀ j, j < i → b ≠ addr + j * sz) → (buildFL addr sz m i prev).1 b = m b) := by
  intro i
  induction i with
  | zero =>
    intro m prev l hc _
    exact ⟨hc, fun b _ => rfl⟩
  | succ i ih =>
    intro m prev l hc hfresh
    rw [buildFL]
    have hstep : IsFChain (updMem m (addr + i * sz) prev) (addr + i * sz)
        ((addr + i * sz) :: l) := by
      refine IsFChain.cons _ _ (by positivity) ?_
      rw [updMem_self]
      refine hc.stableF ?_
      intro a ha
      exact updMem_other _ _ _ _ (hfresh a ha i (by omega))
    have hfresh1 : ∀ a ∈ (addr + i * sz) :: l, ∀ j, j < i → a ≠ addr + j * sz := by
      intro a ha j hj
      rcases List.mem_cons.mp ha with rfl | ha
      · intro he
        have : i * sz = j * sz := by omega
        have : i = j := Nat.eq_of_mul_eq_mul_right hsz this
        omega
      · exact hfresh a ha j (by omega)
    obtain ⟨ihc, ihf⟩ := ih (updMem m (addr + i * sz) prev) (addr + i * sz)
      ((addr + i * sz) :: l) hstep hfresh1
    constructor
    · have he : (List.range (i + 1)).map (fun j => addr + j * sz) ++ l =
          (List.range i).map (fun j => addr + j * sz) ++ ((addr + i * sz) :: l) := by
        rw [List.range_succ, List.map_append]
        simp
      rw [he]
      exact ihc
    · intro b hb
      rw [ihf b (fun j hj => hb j (by omega))]
      exact updMem_other _ _ _ _ (hb i (by omega))

theorem IsFChain.cons_head {m : Nat → Nat} {h x : Nat} {l : List Nat}
    (hc : IsFChain m h (x :: l)) : h = x ∧ x ≠ 0 := by
  cases hc with
  | cons _ _ hne _ => exact ⟨rfl, hne⟩

/-- The page-conversion tail of `cache_grow`: a freshly allocated
order-0 page is carved into an in-band freelist, marked slab-owned and
pushed onto the cache's partial list; its ghost region turns from
allocated to slab. -/
theorem slabify_preserves {S : State} {G : Ghost} {pfn ci : Nat}
    (hI : Inv S G) (hci : ci < SLAB_INDEX_COUNT)
    (hmem : (⟨pfn, 0, RKind.buddyR⟩ : Region) ∈ G.regions) :
    Inv { S with
        mem := (buildFL (page_address pfn) (S.slab_caches ci).obj_size S.mem
          (PAGE_SIZE / (S.slab_caches ci).obj_size) 0).1,
        mem_map := updMap S.mem_map pfn
          { S.mem_map pfn with
            flags := PG_slab
            slab_cache := some ci
            active_objects := 0
            freelist := (buildFL (page_address pfn) (S.slab_caches ci).obj_size S.mem
              (PAGE_SIZE / (S.slab_caches ci).obj_size) 0).2
            next := (S.slab_caches ci).slabPartial },
        slab_caches := updCache S.slab_caches ci
          { S.slab_caches ci with slabPartial := some pfn } }
      ⟨(⟨pfn, 0, RKind.slabR⟩ : Region) :: G.regions.erase ⟨pfn, 0, RKind.buddyR⟩,
        G.live⟩ := by
  have haddr : 0 < page_address pfn := by
    have := page_address_pos pfn 0
    omega
  have hsz : (S.slab_caches ci).obj_size = slab_sizes ci := hI.cachesz ci
  have hszpos : 0 < (S.slab_caches ci).obj_size := by
    rw [hsz]
    exact slab_sizes_pos hci
  have hcnt2 : 2 ≤ PAGE_SIZE / (S.slab_caches ci).obj_size := by
    rw [hsz]
    exact slab_count_ge_two hci
  obtain ⟨hchain, hframe⟩ := buildFL_spec (page_address pfn)
    (S.slab_caches ci).obj_size hszpos haddr
    (PAGE_SIZE / (S.slab_caches ci).obj_size) S.mem 0 [] IsFChain.nil
    (by intro a ha; exact absurd ha (by simp))
  rw [List.append_nil] at hchain
  have hnodupR : G.regions.Nodup := pairwise_nodup hI.disj
  have hpow0 : (2:Nat) ^ 0 = 1 := rfl
  have hpfnNP : pfn < NUM_PAGES := by
    have := hI.bound _ hmem
    simp only at this
    omega
  have hheadne : ∀ R ∈ G.regions, R ≠ ⟨pfn, 0, RKind.buddyR⟩ → R.pfn ≠ pfn := by
    intro R hR hne he
    exact hne (region_eq_of_head hI.disj hR hmem he)
  have hslabne : ∀ p, (⟨p, 0, RKind.slabR⟩ : Region) ∈ G.regions → p ≠ pfn := by
    intro p hp he
    subst he
    have := region_eq_of_head hI.disj hp hmem rfl
    exact nomatch (congrArg Region.kind this : RKind.slabR = RKind.buddyR)
  have hfreene : ∀ p o, (⟨p, o, RKind.freeR⟩ : Region) ∈ G.regions → p ≠ pfn := by
    intro p o hp he
    subst he
    have := region_eq_of_head hI.disj hp hmem rfl
    exact nomatch (congrArg Region.kind this : RKind.freeR = RKind.buddyR)
  have hslotne : ∀ (p' j' sz' j : Nat), p' ≠ pfn → j' * sz' < PAGE_SIZE →
      j < PAGE_SIZE / (S.slab_caches ci).obj_size →
      page_address p' + j' * sz' ≠ page_address pfn + j * (S.slab_caches ci).obj_size := by
    intro p' j' sz' j hne hb hj he
    have hoff : j * (S.slab_caches ci).obj_size < PAGE_SIZE := slot_off_lt hszpos hj
    exact hne ((slot_eq_iff hb hoff).mp he).1
  have hslots_nd : ((List.range (PAGE_SIZE / (S.slab_caches ci).obj_size)).map
      (fun j => page_address pfn + j * (S.slab_caches ci).obj_size)).Nodup := by
    refine List.Nodup.map ?_ (List.nodup_range _)
    intro a b he
    have h2 : a * (S.slab_caches ci).obj_size = b * (S.slab_caches ci).obj_size :=
      Nat.add_left_cancel he
    exact Nat.eq_of_mul_eq_mul_right hszpos h2
  refine ⟨?_, ?_, ?_, ?_, ?_, ?_, hI.hiArea, ?_, ?_, ?_, ?_, ?_, ?_, ?_, ?_, hI.livend⟩
  · intro R hR
    rcases List.mem_cons.mp hR with rfl | hR
    · exact Nat.one_dvd _
    · exact hI.align R (List.mem_of_mem_erase hR)
  · intro R hR
    rcases List.mem_cons.mp hR with rfl | hR
    · show pfn + 2 ^ 0 ≤ NUM_PAGES
      omega
    · exact hI.bound R (List.mem_of_mem_erase hR)
  · intro R hR
    rcases List.mem_cons.mp hR with rfl | hR
    · show (0:Nat) < MAX_ORDER
      decide
    · exact hI.ordlt R (List.mem_of_mem_erase hR)
  · intro R hR
    rcases List.mem_cons.mp hR with rfl | hR
    · intro _
      rfl
    · exact hI.slabord R (List.mem_of_mem_erase hR)
  · refine List.pairwise_cons.mpr ⟨?_, hI.disj.sublist (List.erase_sublist _ _)⟩
    intro T hT
    rw [hnodupR.mem_erase_iff] at hT
    have h := hI.disj.forall (fun _ _ => rdisj_symm) hT.2 hmem hT.1
    exact rdisj_symm h
  · intro q hq _
    by_cases hqp : q = pfn
    · refine ⟨⟨pfn, 0, RKind.slabR⟩, List.mem_cons_self _ _, ?_, ?_⟩ <;>
        simp only <;> omega
    · obtain ⟨R, hR, hqR⟩ := hI.cover q hq (fun h => h)
      have hne : R ≠ ⟨pfn, 0, RKind.buddyR⟩ := by
        intro he
        subst he
        simp only at hqR
        omega
      exact ⟨R, List.mem_cons_of_mem _ (hnodupR.mem_erase_iff.mpr ⟨hne, hR⟩), hqR⟩
  · intro o ho
    dsimp only
    obtain ⟨l, hl, hlnd, hliff⟩ := hI.chains o ho
    have hfr : ∀ q ∈ l, q ≠ pfn := by
      intro q hq
      exact hfreene q o ((hliff q).mp hq)
    refine ⟨l, hl.of_frame ?_, hlnd, ?_⟩
    · intro q hq
      exact updMap_other _ _ _ _ (hfr q hq)
    · intro p
      rw [hliff p]
      constructor
      · intro hp
        refine List.mem_cons_of_mem _ (hnodupR.mem_erase_iff.mpr ⟨?_, hp⟩)
        exact fun he => nomatch (congrArg Region.kind he : RKind.freeR = RKind.buddyR)
      · intro hp
        rcases List.mem_cons.mp hp with he | hp
        · exact nomatch (congrArg Region.kind he : RKind.freeR = RKind.slabR)
        · exact List.mem_of_mem_erase hp
  · intro R hR hk
    dsimp only
    rcases List.mem_cons.mp hR with rfl | hR
    · exact absurd (show RKind.slabR = RKind.freeR from hk) (by decide)
    · rw [hnodupR.mem_erase_iff] at hR
      rw [updMap_other _ _ _ _ (hheadne R hR.2 hR.1)]
      exact hI.freeflags R hR.2 hk
  · intro R hR hk
    dsimp only
    rcases List.mem_cons.mp hR with rfl | hR
    · exact absurd (show RKind.slabR = RKind.buddyR from hk) (by decide)
    · rw [hnodupR.mem_erase_iff] at hR
      rw [updMap_other _ _ _ _ (hheadne R hR.2 hR.1)]
      exact hI.budflags R hR.2 hk
  · intro p o' ho' hp hmem2
    have hp' : (⟨p, o', RKind.freeR⟩ : Region) ∈ G.regions := by
      rcases List.mem_cons.mp hp with he | h
      · exact nomatch (congrArg Region.kind he : RKind.freeR = RKind.slabR)
      · exact List.mem_of_mem_erase h
    have hm' : (⟨p ^^^ 2 ^ o', o', RKind.freeR⟩ : Region) ∈ G.regions := by
      rcases List.mem_cons.mp hmem2 with he | h
      · exact nomatch (congrArg Region.kind he : RKind.freeR = RKind.slabR)
      · exact List.mem_of_mem_erase h
    exact hI.nopair p o' ho' hp' hm'
  · intro i
    dsimp only
    by_cases hi : i = ci
    · subst hi
      rw [updCache_self]
      exact hI.cachesz i
    · rw [updCache_other _ _ _ _ hi]
      exact hI.cachesz i
  · intro R hR hk
    rcases List.mem_cons.mp hR with rfl | hR
    · -- the fresh slab page
      refine ⟨ci, (List.range (PAGE_SIZE / (S.slab_caches ci).obj_size)).map
          (fun j => page_address pfn + j * (S.slab_caches ci).obj_size),
        hci, ?_, ?_, ?_, hslots_nd, ?_, ?_, ?_⟩
      · dsimp only
        rw [updMap_self]
      · dsimp only
        rw [updMap_self]
      · dsimp only
        rw [updMap_self]
        exact hchain
      · intro a ha
        obtain ⟨j, hj, rfl⟩ := List.mem_map.mp ha
        rw [List.mem_range] at hj
        rw [hsz] at hj ⊢
        exact ⟨j, hj, rfl⟩
      · dsimp only
        rw [updMap_self]
        rw [List.length_map, List.length_range, hsz]
        simp
      · intro j hj
        rw [hsz] at *
        constructor
        · intro hlive
          obtain ⟨p', j', ci', hreg', hcache', hj', hx'⟩ := hI.liveslab _ hlive
          have hoffs : j' * slab_sizes ci' < PAGE_SIZE := by
            refine slot_off_lt (slab_sizes_pos ?_) hj'
            obtain ⟨ci2, _, hci2, _, hc2, _⟩ := hI.slabpage _ hreg' rfl
            rw [hcache'] at hc2
            rw [Option.some.inj hc2]
            exact hci2
          have hoffj : j * slab_sizes ci < PAGE_SIZE :=
            slot_off_lt (slab_sizes_pos hci) hj
          have heq := (slot_eq_iff hoffj hoffs).mp hx'
          have heq1 : pfn = p' := heq.1
          exact (hslabne p' hreg' heq1.symm).elim
        · intro hnot
          exfalso
          refine hnot ?_
          refine List.mem_map.mpr ⟨j, List.mem_range.mpr ?_, ?_⟩
          · rw [hsz]
            exact hj
          · rw [hsz]
    · -- previously existing slab pages
      rw [hnodupR.mem_erase_iff] at hR
      obtain ⟨ci', fl', h1, h2, h3, h4, h5, h6, h7, h8⟩ := hI.slabpage R hR.2 hk
      have hRne : R.pfn ≠ pfn := hheadne R hR.2 hR.1
      refine ⟨ci', fl', h1, ?_, ?_, ?_, h5, h6, ?_, h8⟩
      · dsimp only
        rw [updMap_other _ _ _ _ hRne]
        exact h2
      · dsimp only
        rw [updMap_other _ _ _ _ hRne]
        exact h3
      · dsimp only
        rw [updMap_other _ _ _ _ hRne]
        refine h4.stableF ?_
        intro a ha
        obtain ⟨j', hj', hx'⟩ := h6 a ha
        refine hframe a ?_
        intro j hj he
        rw [hx'] at he
        exact hslotne R.pfn j' (slab_sizes ci') j hRne
          (slot_off_lt (slab_sizes_pos h1) hj') hj he
      · dsimp only
        rw [updMap_other _ _ _ _ hRne]
        exact h7
  · intro i hi
    dsimp only
    obtain ⟨pl, hpl, hplnd, hpliff⟩ := hI.partials i hi
    have hplne : ∀ q ∈ pl, q ≠ pfn := by
      intro q hq
      exact hslabne q ((hpliff q).mp hq).1
    by_cases hieq : i = ci
    · subst hieq
      rw [updCache_self]
      have hnotin : pfn ∉ pl := fun h => hplne pfn h rfl
      refine ⟨pfn :: pl, ?_, List.nodup_cons.mpr ⟨hnotin, hplnd⟩, ?_⟩
      · exact hpl.push pfn _ rfl hnotin
      · intro p
        by_cases hp : p = pfn
        · subst hp
          constructor
          · intro _
            refine ⟨List.mem_cons_self _ _, ?_, ?_⟩
            · rw [updMap_self]
            · rw [updMap_self]
              dsimp only
              rcases hcnt : (List.range (PAGE_SIZE / (S.slab_caches i).obj_size)).map
                  (fun j => page_address p + j * (S.slab_caches i).obj_size) with
                _ | ⟨x, rest⟩
              · exfalso
                have := congrArg List.length hcnt
                rw [List.length_map, List.length_range] at this
                simp at this
                omega
              · rw [hcnt] at hchain
                obtain ⟨hhd, hne0⟩ := hchain.cons_head
                rw [hhd]
                exact hne0
          · intro _
            exact List.mem_cons_self _ _
        · constructor
          · intro hpmem
            rcases List.mem_cons.mp hpmem with rfl | hpmem
            · exact absurd rfl hp
            · obtain ⟨hr1, hr2, hr3⟩ := (hpliff p).mp hpmem
              refine ⟨List.mem_cons_of_mem _ (hnodupR.mem_erase_iff.mpr ⟨?_, hr1⟩), ?_, ?_⟩
              · exact fun he => nomatch (congrArg Region.kind he : RKind.slabR = RKind.buddyR)
              · rw [updMap_other _ _ _ _ hp]
                exact hr2
              · rw [updMap_other _ _ _ _ hp]
                exact hr3
          · rintro ⟨hr1, hr2, hr3⟩
            rw [updMap_other _ _ _ _ hp] at hr2 hr3
            have hr1' : (⟨p, 0, RKind.slabR⟩ : Region) ∈ G.regions := by
              rcases List.mem_cons.mp hr1 with he | h
              · exact absurd (congrArg Region.pfn he) hp
              · exact List.mem_of_mem_erase h
            exact List.mem_cons_of_mem _ ((hpliff p).mpr ⟨hr1', hr2, hr3⟩)
    · rw [updCache_other _ _ _ _ hieq]
      refine ⟨pl, hpl.of_frame ?_, hplnd, ?_⟩
      · intro q hq
        exact updMap_other _ _ _ _ (hplne q hq)
      · intro p
        by_cases hp : p = pfn
        · subst hp
          constructor
          · intro hpmem
            exact absurd rfl (hplne p hpmem)
          · rintro ⟨_, hr2, hr3⟩
            rw [updMap_self] at hr2
            exact absurd (Option.some.inj hr2) (fun h => hieq h.symm)
          -- note: goal direction gives cache mismatch
        · constructor
          · intro hpmem
            obtain ⟨hr1, hr2, hr3⟩ := (hpliff p).mp hpmem
            refine ⟨List.mem_cons_of_mem _ (hnodupR.mem_erase_iff.mpr ⟨?_, hr1⟩), ?_, ?_⟩
            · exact fun he => nomatch (congrArg Region.kind he : RKind.slabR = RKind.buddyR)
            · rw [updMap_other _ _ _ _ hp]
              exact hr2
            · rw [updMap_other _ _ _ _ hp]
              exact hr3
          · rintro ⟨hr1, hr2, hr3⟩
            rw [updMap_other _ _ _ _ hp] at hr2 hr3
            have hr1' : (⟨p, 0, RKind.slabR⟩ : Region) ∈ G.regions := by
              rcases List.mem_cons.mp hr1 with he | h
              · exact absurd (congrArg Region.pfn he) hp
              · exact List.mem_of_mem_erase h
            exact (hpliff p).mpr ⟨hr1', hr2, hr3⟩
  · intro x hx
    obtain ⟨p, j, ci', hreg, hcache, hj, hx'⟩ := hI.liveslab x hx
    have hpne : p ≠ pfn := hslabne p hreg
    refine ⟨p, j, ci', ?_, ?_, hj, hx'⟩
    · refine List.mem_cons_of_mem _ (hnodupR.mem_erase_iff.mpr ⟨?_, hreg⟩)
      exact fun he => nomatch (congrArg Region.kind he : RKind.slabR = RKind.buddyR)
    · dsimp only
      rw [updMap_other _ _ _ _ hpne]
      exact hcache

/-- Ghost counterpart of `cache_grow`: on success the allocated order-0
region becomes a slab region. -/
def ghostGrow (s : State) (g : Ghost) : Ghost :=
  match alloc_pages s 0 with
  | (none, _) => g
  | (some pfn, _) =>
    ⟨(⟨pfn, 0, RKind.slabR⟩ : Region) ::
      (ghostAlloc s g 0).regions.erase ⟨pfn, 0, RKind.buddyR⟩, g.live⟩

theorem cache_grow_preserves {s : State} {g : Ghost} {ci : Nat}
    (hI : Inv s g) (hci : ci < SLAB_INDEX_COUNT) :
    Inv (cache_grow s ci).2 (ghostGrow s g) ∧
    ((cache_grow s ci).1 = false → (cache_grow s ci).2 = s ∧ ghostGrow s g = g) ∧
    ((cache_grow s ci).1 = true →
      ∃ pfn, ((cache_grow s ci).2.slab_caches ci).slabPartial = some pfn) := by
  rcases halloc : alloc_pages s 0 with ⟨ob, s1⟩
  cases ob with
  | none =>
    have hids : alloc_pages s 0 = (none, s) :=
      alloc_pages_none_eq s 0 (by rw [halloc])
    rw [hids] at halloc
    have hs1 : s1 = s := (Prod.mk.injEq _ _ _ _).mp halloc.symm |>.2
    rw [cache_grow, hids, ghostGrow, hids]
    subst hs1
    exact ⟨hI, fun _ => ⟨rfl, rfl⟩, fun h => absurd h (by simp)⟩
  | some pfn =>
    obtain ⟨hIA, hmemA, hliveA⟩ :=
      alloc_pages_some_preserves (g := g) hI (by rw [halloc])
    rw [halloc] at hIA
    rw [cache_grow, halloc, ghostGrow, halloc]
    dsimp only
    have hres := slabify_preserves (S := s1) hIA hci hmemA
    have hlive2 : (ghostAlloc s g 0).live = g.live := hliveA
    rw [hlive2] at hres
    refine ⟨hres, fun h => absurd h (by simp), ?_⟩
    intro _
    refine ⟨pfn, ?_⟩
    dsimp only
    rw [updCache_self]

theorem IsFChain.nil_inv {m : Nat → Nat} {h : Nat} (hc : IsFChain m h []) :
    h = 0 := by
  cases hc
  rfl

theorem IsFChain.cons_invF {m : Nat → Nat} {h x : Nat} {l : List Nat}
    (hc : IsFChain m h (x :: l)) : h = x ∧ x ≠ 0 ∧ IsFChain m (m x) l := by
  cases hc with
  | cons _ _ hne hr => exact ⟨rfl, hne, hr⟩

/-- The pop path of `kmem_cache_alloc` on a non-empty partial list:
the front page's freelist head is returned and becomes live; the
invariant survives with the object added to the ghost live set. -/
theorem cacheAllocPop_preserves {s : State} {g : Ghost} {ci p : Nat}
    (hI : Inv s g) (hci : ci < SLAB_INDEX_COUNT)
    (hpart : (s.slab_caches ci).slabPartial = some p) :
    (cacheAllocPop s ci).1 = some (s.mem_map p).freelist ∧
    Inv (cacheAllocPop s ci).2 ⟨g.regions, (s.mem_map p).freelist :: g.live⟩ := by
  obtain ⟨pl, hplc, hplnd, hpliff⟩ := hI.partials ci hci
  rw [hpart] at hplc
  cases hplc with
  | cons _ tl htl =>
  obtain ⟨hreg, hcache, hfl0⟩ := (hpliff p).mp (List.mem_cons_self _ _)
  have hptl : p ∉ tl := (List.nodup_cons.mp hplnd).1
  have htlnd : tl.Nodup := (List.nodup_cons.mp hplnd).2
  obtain ⟨ci2, fl, hci2, hflags, hcache2, hchain, hnd, hmemchar, hact, hliveiff⟩ :=
    hI.slabpage _ hreg rfl
  have hcieq : ci2 = ci := by
    rw [hcache] at hcache2
    exact (Option.some.inj hcache2).symm
  subst hcieq
  have hszpos : 0 < slab_sizes ci2 := slab_sizes_pos hci2
  have hpNP : p < NUM_PAGES := by
    have := hI.bound _ hreg
    simp only at this
    omega
  have hlen : fl.length ≤ PAGE_SIZE / slab_sizes ci2 :=
    slots_length_le hszpos hnd hmemchar
  rcases fl with _ | ⟨a, fl'⟩
  · exact absurd hchain.nil_inv hfl0
  obtain ⟨hha, hane, hrest⟩ := hchain.cons_invF
  subst hha
  -- names for the popped object
  have hobjfl : (s.mem_map p).freelist ∈
      ((s.mem_map p).freelist :: fl') := List.mem_cons_self _ _
  obtain ⟨jo, hjo, hobj_eq⟩ := hmemchar _ hobjfl
  have hobj_notfl' : (s.mem_map p).freelist ∉ fl' := (List.nodup_cons.mp hnd).1
  have hfl'nd : fl'.Nodup := (List.nodup_cons.mp hnd).2
  have hobj_nlive : (s.mem_map p).freelist ∉ g.live := by
    intro hmem
    have h2 := (hliveiff jo hjo).mp (by rw [← hobj_eq]; exact hmem)
    rw [← hobj_eq] at h2
    exact h2 hobjfl
  have hfree_ne : ∀ q o, (⟨q, o, RKind.freeR⟩ : Region) ∈ g.regions → q ≠ p := by
    intro q o hq he
    subst he
    have := region_eq_of_head hI.disj hq hreg rfl
    exact nomatch (congrArg Region.kind this : RKind.freeR = RKind.slabR)
  have hbud_ne : ∀ q o, (⟨q, o, RKind.buddyR⟩ : Region) ∈ g.regions → q ≠ p := by
    intro q o hq he
    subst he
    have := region_eq_of_head hI.disj hq hreg rfl
    exact nomatch (congrArg Region.kind this : RKind.buddyR = RKind.slabR)
  have hoff_lt : ∀ {j : Nat}, j < PAGE_SIZE / slab_sizes ci2 →
      j * slab_sizes ci2 < PAGE_SIZE := fun hj => slot_off_lt hszpos hj
  -- slots of other slab pages never alias the popped object's word
  have hother_slot : ∀ (p' j' ci' : Nat), p' ≠ p → ci' < SLAB_INDEX_COUNT →
      j' < PAGE_SIZE / slab_sizes ci' →
      page_address p' + j' * slab_sizes ci' ≠ (s.mem_map p).freelist := by
    intro p' j' ci' hne hci' hj' he
    rw [hobj_eq] at he
    exact hne ((slot_eq_iff (slot_off_lt (slab_sizes_pos hci') hj')
      (hoff_lt hjo)).mp he).1
  rw [cacheAllocPop, hpart]
  dsimp only
  rw [if_neg hfl0]
  rcases fl' with _ | ⟨b, fl''⟩
  · -- the page becomes full: drop it from the partial list
    have hlink : s.mem (s.mem_map p).freelist = 0 := hrest.nil_inv
    rw [if_pos hlink]
    dsimp only
    refine ⟨rfl, ?_, ?_, ?_, ?_, hI.disj, ?_, hI.hiArea, ?_, ?_, ?_, hI.nopair,
      ?_, ?_, ?_, ?_, ?_⟩
    · exact hI.align
    · exact hI.bound
    · exact hI.ordlt
    · exact hI.slabord
    · intro q hq hnh
      exact hI.cover q hq hnh
    · intro o ho
      obtain ⟨l, hl, hlnd, hliff⟩ := hI.chains o ho
      refine ⟨l, hl.of_frame ?_, hlnd, hliff⟩
      intro q hq
      have hqp : q ≠ p := hfree_ne q o ((hliff q).mp hq)
      dsimp only
      rw [updMap_other _ _ _ _ hqp, updMap_other _ _ _ _ hqp]
    · intro R hR hk
      have hne : R.pfn ≠ p := hfree_ne R.pfn R.ord (by
        obtain ⟨rp, ro, rk⟩ := R
        cases hk
        exact hR)
      dsimp only
      rw [updMap_other _ _ _ _ hne, updMap_other _ _ _ _ hne]
      exact hI.freeflags R hR hk
    · intro R hR hk
      have hne : R.pfn ≠ p := hbud_ne R.pfn R.ord (by
        obtain ⟨rp, ro, rk⟩ := R
        cases hk
        exact hR)
      dsimp only
      rw [updMap_other _ _ _ _ hne, updMap_other _ _ _ _ hne]
      exact hI.budflags R hR hk
    · intro i
      dsimp only
      by_cases hi : i = ci2
      · subst hi
        rw [updCache_self]
        exact hI.cachesz i
      · rw [updCache_other _ _ _ _ hi]
        exact hI.cachesz i
    · intro R hR hk
      by_cases hRp : R.pfn = p
      · -- the page itself: freelist empty, all slots live
        refine ⟨ci2, [], hci2, ?_, ?_, ?_, List.nodup_nil, ?_, ?_, ?_⟩
        · dsimp only
          rw [hRp, updMap_self]
          exact hflags
        · dsimp only
          rw [hRp, updMap_self]
          exact hcache2
        · dsimp only
          rw [hRp, updMap_self]
          show IsFChain _ (s.mem (s.mem_map p).freelist) []
          rw [hlink]
          exact IsFChain.nil
        · intro a ha
          exact absurd ha (by simp)
        · dsimp only
          rw [hRp, updMap_self]
          show (s.mem_map p).active_objects + 1 = _
          rw [hact]
          simp only [List.length_cons, List.length_nil] at hlen ⊢
          omega
        · intro j hj
          rw [hRp]
          constructor
          · intro _
            simp
          · intro _
            by_cases hjo' : page_address p + j * slab_sizes ci2 =
                (s.mem_map p).freelist
            · rw [hjo']
              exact List.mem_cons_self _ _
            · refine List.mem_cons_of_mem _ ?_
              refine (hliveiff j hj).mpr ?_
              intro hmem
              rcases List.mem_cons.mp hmem with he | he
              · exact hjo' he
              · exact absurd he (by simp)
      · obtain ⟨ci', fl2, h1, h2, h3, h4, h5, h6, h7, h8⟩ := hI.slabpage R hR hk
        refine ⟨ci', fl2, h1, ?_, ?_, ?_, h5, h6, ?_, ?_⟩
        · dsimp only
          rw [updMap_other _ _ _ _ hRp, updMap_other _ _ _ _ hRp]
          exact h2
        · dsimp only
          rw [updMap_other _ _ _ _ hRp, updMap_other _ _ _ _ hRp]
          exact h3
        · dsimp only
          rw [updMap_other _ _ _ _ hRp, updMap_other _ _ _ _ hRp]
          refine h4.stableF ?_
          intro a ha
          obtain ⟨j', hj', hx'⟩ := h6 a ha
          refine updMem_other _ _ _ _ ?_
          rw [hx']
          exact hother_slot R.pfn j' ci' hRp h1 hj'
        · dsimp only
          rw [updMap_other _ _ _ _ hRp, updMap_other _ _ _ _ hRp]
          exact h7
        · intro j hj
          constructor
          · intro hmem hin
            rcases List.mem_cons.mp hmem with he | he
            · exact (hother_slot R.pfn j ci' hRp h1 hj) he
            · exact ((h8 j hj).mp he) hin
          · intro hni
            exact List.mem_cons_of_mem _ ((h8 j hj).mpr hni)
    · intro i hi
      dsimp only
      by_cases hieq : i = ci2
      · subst hieq
        rw [updCache_self]
        refine ⟨tl, ?_, htlnd, ?_⟩
        · show IsChain _ (s.mem_map p).next tl
          refine htl.of_frame ?_
          intro q hq
          have hqp : q ≠ p := fun he => hptl (he ▸ hq)
          rw [updMap_other _ _ _ _ hqp, updMap_other _ _ _ _ hqp]
        · intro q
          by_cases hqp : q = p
          · subst hqp
            constructor
            · intro hq
              exact absurd hq hptl
            · rintro ⟨_, _, hq3⟩
              rw [updMap_self] at hq3
              exact absurd hlink hq3
          · constructor
            · intro hq
              obtain ⟨h1', h2', h3'⟩ := (hpliff q).mp (List.mem_cons_of_mem _ hq)
              rw [updMap_other _ _ _ _ hqp, updMap_other _ _ _ _ hqp]
              exact ⟨h1', h2', h3'⟩
            · rintro ⟨h1', h2', h3'⟩
              rw [updMap_other _ _ _ _ hqp, updMap_other _ _ _ _ hqp] at h2' h3'
              rcases List.mem_cons.mp ((hpliff q).mpr ⟨h1', h2', h3'⟩) with he | hq
              · exact absurd he hqp
              · exact hq
      · rw [updCache_other _ _ _ _ hieq]
        obtain ⟨pl2, hpl2, hpl2nd, hpl2iff⟩ := hI.partials i hi
        have hne : ∀ q ∈ pl2, q ≠ p := by
          intro q hq he
          subst he
          have := ((hpl2iff q).mp hq).2.1
          rw [hcache] at this
          exact hieq (Option.some.inj this).symm
        refine ⟨pl2, hpl2.of_frame ?_, hpl2nd, ?_⟩
        · intro q hq
          dsimp only
          rw [updMap_other _ _ _ _ (hne q hq), updMap_other _ _ _ _ (hne q hq)]
        · intro q
          by_cases hqp : q = p
          · subst hqp
            constructor
            · intro hq
              exact absurd rfl (hne q hq)
            · rintro ⟨_, h2', _⟩
              simp only [updMap_self] at h2'
              have h2'' : (s.mem_map q).slab_cache = some i := h2'
              rw [hcache] at h2''
              have : ci2 = i := Option.some.inj h2''
              exact absurd this.symm hieq
          · rw [hpl2iff q, updMap_other _ _ _ _ hqp, updMap_other _ _ _ _ hqp]
    · intro x hx
      rcases List.mem_cons.mp hx with rfl | hx
      · refine ⟨p, jo, ci2, hreg, ?_, hjo, hobj_eq⟩
        dsimp only
        rw [updMap_self]
        exact hcache2
      · obtain ⟨p', j', ci', hreg', hcache', hj', hx'⟩ := hI.liveslab x hx
        refine ⟨p', j', ci', hreg', ?_, hj', hx'⟩
        dsimp only
        by_cases hp' : p' = p
        · subst hp'
          rw [updMap_self]
          rw [hcache2] at hcache' ⊢
          exact hcache'
        · rw [updMap_other _ _ _ _ hp', updMap_other _ _ _ _ hp']
          exact hcache'
    · exact List.nodup_cons.mpr ⟨hobj_nlive, hI.livend⟩
  · -- the freelist stays non-empty: the page remains at the front
    obtain ⟨hlinkb, hbne, _⟩ := hrest.cons_invF
    rw [if_neg (by rw [hlinkb]; exact hbne)]
    dsimp only
    refine ⟨rfl, ?_, ?_, ?_, ?_, hI.disj, ?_, hI.hiArea, ?_, ?_, ?_, hI.nopair,
      hI.cachesz, ?_, ?_, ?_, ?_⟩
    · exact hI.align
    · exact hI.bound
    · exact hI.ordlt
    · exact hI.slabord
    · intro q hq hnh
      exact hI.cover q hq hnh
    · intro o ho
      obtain ⟨l, hl, hlnd, hliff⟩ := hI.chains o ho
      refine ⟨l, hl.of_frame ?_, hlnd, hliff⟩
      intro q hq
      have hqp : q ≠ p := hfree_ne q o ((hliff q).mp hq)
      dsimp only
      rw [updMap_other _ _ _ _ hqp]
    · intro R hR hk
      have hne : R.pfn ≠ p := hfree_ne R.pfn R.ord (by
        obtain ⟨rp, ro, rk⟩ := R
        cases hk
        exact hR)
      dsimp only
      rw [updMap_other _ _ _ _ hne]
      exact hI.freeflags R hR hk
    · intro R hR hk
      have hne : R.pfn ≠ p := hbud_ne R.pfn R.ord (by
        obtain ⟨rp, ro, rk⟩ := R
        cases hk
        exact hR)
      dsimp only
      rw [updMap_other _ _ _ _ hne]
      exact hI.budflags R hR hk
    · intro R hR hk
      by_cases hRp : R.pfn = p
      · refine ⟨ci2, b :: fl'', hci2, ?_, ?_, ?_, hfl'nd, ?_, ?_, ?_⟩
        · dsimp only
          rw [hRp, updMap_self]
          exact hflags
        · dsimp only
          rw [hRp, updMap_self]
          exact hcache2
        · dsimp only
          rw [hRp, updMap_self]
          show IsFChain _ (s.mem (s.mem_map p).freelist) _
          refine hrest.stableF ?_
          intro a' ha'
          refine updMem_other _ _ _ _ ?_
          intro he
          exact hobj_notfl' (he ▸ ha')
        · intro a' ha'
          rw [hRp]
          exact hmemchar a' (List.mem_cons_of_mem _ ha')
        · dsimp only
          rw [hRp, updMap_self]
          show (s.mem_map p).active_objects + 1 = _
          rw [hact]
          simp only [List.length_cons, List.length_nil] at hlen ⊢
          omega
        · intro j hj
          rw [hRp]
          by_cases hjeq : page_address p + j * slab_sizes ci2 =
              (s.mem_map p).freelist
          · rw [hjeq]
            constructor
            · intro _
              exact hobj_notfl'
            · intro _
              exact List.mem_cons_self _ _
          · constructor
            · intro hmem
              rcases List.mem_cons.mp hmem with he | hmem2
              · exact absurd he hjeq
              · have := (hliveiff j hj).mp hmem2
                intro hin
                exact this (List.mem_cons_of_mem _ hin)
            · intro hnotin
              refine List.mem_cons_of_mem _ ?_
              refine (hliveiff j hj).mpr ?_
              intro hmem
              rcases List.mem_cons.mp hmem with he | he
              · exact hjeq he
              · exact hnotin he
      · obtain ⟨ci', fl2, h1, h2, h3, h4, h5, h6, h7, h8⟩ := hI.slabpage R hR hk
        refine ⟨ci', fl2, h1, ?_, ?_, ?_, h5, h6, ?_, ?_⟩
        · dsimp only
          rw [updMap_other _ _ _ _ hRp]
          exact h2
        · dsimp only
          rw [updMap_other _ _ _ _ hRp]
          exact h3
        · dsimp only
          rw [updMap_other _ _ _ _ hRp]
          refine h4.stableF ?_
          intro a' ha'
          obtain ⟨j', hj', hx'⟩ := h6 a' ha'
          refine updMem_other _ _ _ _ ?_
          rw [hx']
          exact hother_slot R.pfn j' ci' hRp h1 hj'
        · dsimp only
          rw [updMap_other _ _ _ _ hRp]
          exact h7
        · intro j hj
          constructor
          · intro hmem hin
            rcases List.mem_cons.mp hmem with he | he
            · exact (hother_slot R.pfn j ci' hRp h1 hj) he
            · exact ((h8 j hj).mp he) hin
          · intro hni
            exact List.mem_cons_of_mem _ ((h8 j hj).mpr hni)
    · intro i hi
      by_cases hieq : i = ci2
      · subst hieq
        refine ⟨p :: tl, ?_, hplnd, ?_⟩
        · dsimp only
          rw [hpart]
          refine IsChain.cons p tl ?_
          rw [updMap_self]
          show IsChain _ (s.mem_map p).next tl
          refine htl.of_frame ?_
          intro q hq
          have hqp : q ≠ p := fun he => hptl (he ▸ hq)
          rw [updMap_other _ _ _ _ hqp]
        · intro q
          by_cases hqp : q = p
          · subst hqp
            constructor
            · intro _
              refine ⟨hreg, ?_, ?_⟩
              · dsimp only
                rw [updMap_self]
                exact hcache2
              · dsimp only
                rw [updMap_self]
                show s.mem (s.mem_map q).freelist ≠ 0
                rw [hlinkb]
                exact hbne
            · intro _
              exact List.mem_cons_self _ _
          · rw [show ((⟨q, 0, RKind.slabR⟩ : Region) ∈ g.regions ∧ _ ∧ _) ↔ _
              from Iff.rfl]
            constructor
            · intro hq
              obtain ⟨h1', h2', h3'⟩ := (hpliff q).mp hq
              refine ⟨h1', ?_, ?_⟩
              · dsimp only
                rw [updMap_other _ _ _ _ hqp]
                exact h2'
              · dsimp only
                rw [updMap_other _ _ _ _ hqp]
                exact h3'
            · rintro ⟨h1', h2', h3'⟩
              dsimp only at h2' h3'
              rw [updMap_other _ _ _ _ hqp] at h2' h3'
              exact (hpliff q).mpr ⟨h1', h2', h3'⟩
      · obtain ⟨pl2, hpl2, hpl2nd, hpl2iff⟩ := hI.partials i hi
        have hne : ∀ q ∈ pl2, q ≠ p := by
          intro q hq he
          subst he
          have := ((hpl2iff q).mp hq).2.1
          rw [hcache] at this
          exact hieq (Option.some.inj this).symm
        refine ⟨pl2, hpl2.of_frame ?_, hpl2nd, ?_⟩
        · intro q hq
          dsimp only
          rw [updMap_other _ _ _ _ (hne q hq)]
        · intro q
          by_cases hqp : q = p
          · subst hqp
            constructor
            · intro hq
              exact absurd rfl (hne q hq)
            · rintro ⟨_, h2', _⟩
              simp only [updMap_self] at h2'
              have h2'' : (s.mem_map q).slab_cache = some i := h2'
              rw [hcache] at h2''
              have : ci2 = i := Option.some.inj h2''
              exact absurd this.symm hieq
          · rw [hpl2iff q]
            constructor
            · rintro ⟨h1', h2', h3'⟩
              refine ⟨h1', ?_, ?_⟩
              · dsimp only
                rw [updMap_other _ _ _ _ hqp]
                exact h2'
              · dsimp only
                rw [updMap_other _ _ _ _ hqp]
                exact h3'
            · rintro ⟨h1', h2', h3'⟩
              dsimp only at h2' h3'
              rw [updMap_other _ _ _ _ hqp] at h2' h3'
              exact ⟨h1', h2', h3'⟩
    · intro x hx
      rcases List.mem_cons.mp hx with rfl | hx
      · refine ⟨p, jo, ci2, hreg, ?_, hjo, hobj_eq⟩
        dsimp only
        rw [updMap_self]
        exact hcache2
      · obtain ⟨p', j', ci', hreg', hcache', hj', hx'⟩ := hI.liveslab x hx
        refine ⟨p', j', ci', hreg', ?_, hj', hx'⟩
        dsimp only
        by_cases hp' : p' = p
        · subst hp'
          rw [updMap_self]
          rw [hcache2] at hcache' ⊢
          exact hcache'
        · rw [updMap_other _ _ _ _ hp']
          exact hcache'
    · exact List.nodup_cons.mpr ⟨hobj_nlive, hI.livend⟩

/-- Ghost counterpart of `kmem_cache_alloc`. -/
def ghostCacheAlloc (s : State) (g : Ghost) (ci : Nat) : Ghost :=
  match (s.slab_caches ci).slabPartial with
  | none =>
    match cache_grow s ci with
    | (false, _) => ghostGrow s g
    | (true, s1) =>
      match (cacheAllocPop s1 ci).1 with
      | none => ghostGrow s g
      | some obj => ⟨(ghostGrow s g).regions, obj :: (ghostGrow s g).live⟩
  | some _ =>
    match (cacheAllocPop s ci).1 with
    | none => g
    | some obj => ⟨g.regions, obj :: g.live⟩

theorem kmem_cache_alloc_preserves {s : State} {g : Ghost} {ci : Nat}
    (hI : Inv s g) (hci : ci < SLAB_INDEX_COUNT) :
    Inv (kmem_cache_alloc s ci).2 (ghostCacheAlloc s g ci) := by
  rw [kmem_cache_alloc, ghostCacheAlloc]
  cases hpart : (s.slab_caches ci).slabPartial with
  | some p =>
    dsimp only
    obtain ⟨h1, hInv⟩ := cacheAllocPop_preserves hI hci hpart
    rw [h1]
    exact hInv
  | none =>
    dsimp only
    obtain ⟨hgI, hgF, hgT⟩ := cache_grow_preserves hI hci
    rcases hg : cache_grow s ci with ⟨flag, s1⟩
    cases flag with
    | false =>
      dsimp only
      have := hgI
      rw [hg] at this
      exact this
    | true =>
      dsimp only
      obtain ⟨pfn, hpfn⟩ := hgT (by rw [hg])
      rw [hg] at hgI hpfn
      obtain ⟨h1, hInv⟩ := cacheAllocPop_preserves hgI hci hpfn
      rw [h1]
      exact hInv

/-- Under distinctness, a freelist of `n - 1` of the `n` slots missing a
given slot contains every other slot (pigeonhole). -/
theorem full_freelist_covers {addr sz n jo : Nat} (hsz : 0 < sz) {fl : List Nat}
    (hnd : fl.Nodup) (hmem : ∀ a ∈ fl, ∃ j, j < n ∧ a = addr + j * sz)
    (hlen : fl.length = n - 1) (hn : 0 < n) (hjo : jo < n)
    (hobj : addr + jo * sz ∉ fl)
    {j : Nat} (hj : j < n) (hne : j ≠ jo) : addr + j * sz ∈ fl := by
  have hinj : Function.Injective (fun j => addr + j * sz) := by
    intro a b he
    have h2 : a * sz = b * sz := Nat.add_left_cancel he
    exact Nat.eq_of_mul_eq_mul_right hsz h2
  set A : Finset Nat := (Finset.range n).image (fun j => addr + j * sz) with hA
  have hcardA : A.card = n := by
    rw [hA, Finset.card_image_of_injective _ hinj, Finset.card_range]
  have hjoA : addr + jo * sz ∈ A := by
    rw [hA]
    exact Finset.mem_image.mpr ⟨jo, Finset.mem_range.mpr hjo, rfl⟩
  have hsub : fl.toFinset ⊆ A.erase (addr + jo * sz) := by
    intro x hx
    rw [List.mem_toFinset] at hx
    obtain ⟨j', hj', rfl⟩ := hmem x hx
    refine Finset.mem_erase.mpr ⟨?_, ?_⟩
    · intro he
      exact hobj (he ▸ hx)
    · rw [hA]
      exact Finset.mem_image.mpr ⟨j', Finset.mem_range.mpr hj', rfl⟩
  have hcard2 : (A.erase (addr + jo * sz)).card = n - 1 := by
    rw [Finset.card_erase_of_mem hjoA, hcardA]
  have hcardF : fl.toFinset.card = n - 1 := by
    rw [List.toFinset_card_of_nodup hnd, hlen]
  have heq : fl.toFinset = A.erase (addr + jo * sz) := by
    refine Finset.eq_of_subset_of_card_le hsub ?_
    rw [hcard2, hcardF]
  have hjA : addr + j * sz ∈ A.erase (addr + jo * sz) := by
    refine Finset.mem_erase.mpr ⟨?_, ?_⟩
    · intro he
      exact hne (hinj he)
    · rw [hA]
      exact Finset.mem_image.mpr ⟨j, Finset.mem_range.mpr hj, rfl⟩
  rw [← heq, List.mem_toFinset] at hjA
  exact hjA

/-- Ghost counterpart of `kmem_cache_free`, mirroring its branch
structure: a freed object leaves the live set; a page whose count hits
zero loses its slab region and goes through the buddy-free surgery. -/
def ghostCacheFree (s : State) (g : Ghost) (obj : Nat) : Ghost :=
  match virt_to_page obj with
  | none => g
  | some p =>
    let pg := s.mem_map p
    if pg.flags &&& PG_slab = 0 then g
    else
      match pg.slab_cache with
      | none => g
      | some ci =>
        let sz := (s.slab_caches ci).obj_size
        let maxObjs : Int := (PAGE_SIZE / sz : Nat)
        let pg1 := { pg with freelist := obj, active_objects := pg.active_objects - 1 }
        let s1 : State := { s with mem := updMem s.mem obj pg.freelist,
                                   mem_map := updMap s.mem_map p pg1 }
        let s2 : State :=
          if pg1.active_objects = maxObjs - 1 then
            { s1 with
              mem_map := updMap s1.mem_map p
                { pg1 with next := (s1.slab_caches ci).slabPartial },
              slab_caches := updCache s1.slab_caches ci
                { s1.slab_caches ci with slabPartial := some p } }
          else s1
        if (s2.mem_map p).active_objects = 0 then
          let r := unlinkList s2.mem_map (s2.slab_caches ci).slabPartial p
          let s3 : State :=
            { s2 with mem_map := r.2,
                      slab_caches := updCache s2.slab_caches ci
                        { s2.slab_caches ci with slabPartial := r.1 } }
          let s4 : State :=
            { s3 with mem_map := updMap s3.mem_map p
                        { s3.mem_map p with flags := PG_buddy } }
          ghostFreeB s4 ⟨g.regions.erase ⟨p, 0, RKind.slabR⟩, g.live.erase obj⟩ p 0
        else ⟨g.regions, g.live.erase obj⟩

/-- Freeing a live slab object preserves the invariant: the object
rejoins its page's freelist and leaves the ghost live set; a page whose
active count reaches zero additionally loses its slab region and goes
back to the buddy allocator. -/
theorem kmem_cache_free_preserves {s : State} {g : Ghost} {obj : Nat}
    (hI : Inv s g) (hobj : obj ∈ g.live) :
    Inv (kmem_cache_free s obj) (ghostCacheFree s g obj) := by
  obtain ⟨p, jo, ci0, hreg, hcache0, hjo0, hobj_eq⟩ := hI.liveslab obj hobj
  obtain ⟨ci, fl, hci, hflagsL, hcacheL, hchainL, hnd, hmemcharL, hactL, hliveiffL⟩ :=
    hI.slabpage _ hreg rfl
  have hflags : (s.mem_map p).flags = PG_slab := hflagsL
  have hcache : (s.mem_map p).slab_cache = some ci := hcacheL
  have hchain : IsFChain s.mem (s.mem_map p).freelist fl := hchainL
  have hmemchar : ∀ a ∈ fl, ∃ j, j < PAGE_SIZE / slab_sizes ci ∧
      a = page_address p + j * slab_sizes ci := hmemcharL
  have hact : (s.mem_map p).active_objects =
      ((PAGE_SIZE / slab_sizes ci - fl.length : Nat) : Int) := hactL
  have hliveiff : ∀ j, j < PAGE_SIZE / slab_sizes ci →
      (page_address p + j * slab_sizes ci ∈ g.live ↔
        page_address p + j * slab_sizes ci ∉ fl) := hliveiffL
  have hcieq : ci0 = ci := by
    rw [hcache0] at hcache
    exact Option.some.inj hcache
  subst hcieq
  have hcache : (s.mem_map p).slab_cache = some ci0 := hcacheL
  have hszpos : 0 < slab_sizes ci0 := slab_sizes_pos hci
  have hcnt2 : 2 ≤ PAGE_SIZE / slab_sizes ci0 := slab_count_ge_two hci
  have hpNP : p < NUM_PAGES := by
    have := hI.bound _ hreg
    simp only at this
    omega
  have hjo : jo < PAGE_SIZE / slab_sizes ci0 := hjo0
  have hoffo : jo * slab_sizes ci0 < PAGE_SIZE := slot_off_lt hszpos hjo
  have hv2p : virt_to_page obj = some p := by
    rw [hobj_eq]
    exact virt_to_page_slot hpNP hoffo
  have hobj_ne0 : obj ≠ 0 := by
    rw [hobj_eq]
    have := page_address_pos p (jo * slab_sizes ci0)
    omega
  have hobj_nfl : obj ∉ fl := by
    have h1 := (hliveiff jo hjo).mp (by rw [← hobj_eq]; exact hobj)
    rw [← hobj_eq] at h1
    exact h1
  have hlen_lt : fl.length < PAGE_SIZE / slab_sizes ci0 := by
    have h1 : (obj :: fl).Nodup := List.nodup_cons.mpr ⟨hobj_nfl, hnd⟩
    have h2 : ∀ a ∈ obj :: fl, ∃ j, j < PAGE_SIZE / slab_sizes ci0 ∧
        a = page_address p + j * slab_sizes ci0 := by
      intro a ha
      rcases List.mem_cons.mp ha with rfl | ha
      · exact ⟨jo, hjo, hobj_eq⟩
      · exact hmemchar a ha
    have h3 := slots_length_le hszpos h1 h2
    simp only [List.length_cons] at h3
    omega
  have hsz_eq : (s.slab_caches ci0).obj_size = slab_sizes ci0 := hI.cachesz ci0
  have hns : ¬((s.mem_map p).flags &&& PG_slab = 0) := by
    rw [hflags]
    decide
  have hother_slot : ∀ (p' j' ci' : Nat), p' ≠ p → ci' < SLAB_INDEX_COUNT →
      j' < PAGE_SIZE / slab_sizes ci' →
      page_address p' + j' * slab_sizes ci' ≠ obj := by
    intro p' j' ci' hne hci' hj' he
    rw [hobj_eq] at he
    exact hne ((slot_eq_iff (slot_off_lt (slab_sizes_pos hci') hj') hoffo).mp he).1
  have hfree_ne : ∀ q o, (⟨q, o, RKind.freeR⟩ : Region) ∈ g.regions → q ≠ p := by
    intro q o hq he
    subst he
    have := region_eq_of_head hI.disj hq hreg rfl
    exact nomatch (congrArg Region.kind this : RKind.freeR = RKind.slabR)
  have hbud_ne : ∀ q o, (⟨q, o, RKind.buddyR⟩ : Region) ∈ g.regions → q ≠ p := by
    intro q o hq he
    subst he
    have := region_eq_of_head hI.disj hq hreg rfl
    exact nomatch (congrArg Region.kind this : RKind.buddyR = RKind.slabR)
  have hlive_nd : g.live.Nodup := hI.livend
  rcases hflshape : fl with _ | ⟨a0, fl'⟩
  · -- the page was full: the object becomes the freelist, the page is
    -- reinserted into the partial list, and the count stays positive
    subst hflshape
    have hfl0 : (s.mem_map p).freelist = 0 := hchain.nil_inv
    have hc1 : (s.mem_map p).active_objects - 1 =
        ((PAGE_SIZE / (s.slab_caches ci0).obj_size : Nat) : Int) - 1 := by
      rw [hact, hsz_eq]
      simp
    have hc2n : ¬((s.mem_map p).active_objects - 1 = 0) := by
      rw [hact]
      simp only [List.length_nil]
      omega
    rw [kmem_cache_free, ghostCacheFree, hv2p]
    dsimp only
    rw [if_neg hns, hcache]
    dsimp only
    split_ifs with h1
    case pos =>
      exfalso
      simp only [updMap_self] at h1
      exact hc2n h1
    -- the final state and ghost
    have hnotpl : ∀ i, i < SLAB_INDEX_COUNT →
        ∀ pl : List Nat, (∀ q, q ∈ pl ↔ ((⟨q, 0, RKind.slabR⟩ : Region) ∈ g.regions ∧
          (s.mem_map q).slab_cache = some i ∧ (s.mem_map q).freelist ≠ 0)) →
        p ∉ pl := by
      intro i hi pl hiff hmem
      exact ((hiff p).mp hmem).2.2 hfl0
    refine ⟨?_, ?_, ?_, ?_, hI.disj, ?_, hI.hiArea, ?_, ?_, ?_, hI.nopair,
      ?_, ?_, ?_, ?_, ?_⟩
    · exact hI.align
    · exact hI.bound
    · exact hI.ordlt
    · exact hI.slabord
    · intro q hq hnh
      exact hI.cover q hq hnh
    · intro o ho
      obtain ⟨l, hl, hlnd, hliff⟩ := hI.chains o ho
      refine ⟨l, hl.of_frame ?_, hlnd, hliff⟩
      intro q hq
      have hqp : q ≠ p := hfree_ne q o ((hliff q).mp hq)
      dsimp only
      rw [updMap_other _ _ _ _ hqp, updMap_other _ _ _ _ hqp]
    · intro R hR hk
      have hne : R.pfn ≠ p := hfree_ne R.pfn R.ord (by
        obtain ⟨rp, ro, rk⟩ := R
        cases hk
        exact hR)
      dsimp only
      rw [updMap_other _ _ _ _ hne, updMap_other _ _ _ _ hne]
      exact hI.freeflags R hR hk
    · intro R hR hk
      have hne : R.pfn ≠ p := hbud_ne R.pfn R.ord (by
        obtain ⟨rp, ro, rk⟩ := R
        cases hk
        exact hR)
      dsimp only
      rw [updMap_other _ _ _ _ hne, updMap_other _ _ _ _ hne]
      exact hI.budflags R hR hk
    · intro i
      dsimp only
      by_cases hi : i = ci0
      · subst hi
        rw [updCache_self]
        exact hI.cachesz i
      · rw [updCache_other _ _ _ _ hi]
        exact hI.cachesz i
    · intro R hR hk
      by_cases hRp : R.pfn = p
      · refine ⟨ci0, [obj], hci, ?_, ?_, ?_, by simp, ?_, ?_, ?_⟩
        · dsimp only
          rw [hRp, updMap_self]
          exact hflags
        · dsimp only
          rw [hRp, updMap_self]
        · dsimp only
          rw [hRp, updMap_self]
          show IsFChain _ obj [obj]
          refine IsFChain.cons _ _ hobj_ne0 ?_
          rw [updMem_self, hfl0]
          exact IsFChain.nil
        · intro a ha
          rcases List.mem_cons.mp ha with rfl | ha
          · rw [hRp]
            exact ⟨jo, hjo, hobj_eq⟩
          · exact absurd ha (by simp)
        · dsimp only
          rw [hRp, updMap_self]
          show (s.mem_map p).active_objects - 1 = _
          rw [hact]
          simp only [List.length_nil, List.length_cons]
          omega
        · intro j hj
          rw [hRp]
          by_cases hje : page_address p + j * slab_sizes ci0 = obj
          · rw [hje]
            constructor
            · intro hmem
              exact absurd hmem (hlive_nd.not_mem_erase)
            · intro hni
              exact absurd (List.mem_cons_self _ _) hni
          · constructor
            · intro _ hmem
              rcases List.mem_cons.mp hmem with he | he
              · exact hje he
              · exact absurd he (by simp)
            · intro _
              rw [List.mem_erase_of_ne hje]
              refine (hliveiff j hj).mpr ?_
              simp
      · obtain ⟨ci', fl2, h1, h2, h3, h4, h5, h6, h7, h8⟩ := hI.slabpage R hR hk
        refine ⟨ci', fl2, h1, ?_, ?_, ?_, h5, h6, ?_, ?_⟩
        · dsimp only
          rw [updMap_other _ _ _ _ hRp, updMap_other _ _ _ _ hRp]
          exact h2
        · dsimp only
          rw [updMap_other _ _ _ _ hRp, updMap_other _ _ _ _ hRp]
          exact h3
        · dsimp only
          rw [updMap_other _ _ _ _ hRp, updMap_other _ _ _ _ hRp]
          refine h4.stableF ?_
          intro a ha
          obtain ⟨j', hj', hx'⟩ := h6 a ha
          refine updMem_other _ _ _ _ ?_
          rw [hx']
          exact hother_slot R.pfn j' ci' hRp h1 hj'
        · dsimp only
          rw [updMap_other _ _ _ _ hRp, updMap_other _ _ _ _ hRp]
          exact h7
        · intro j hj
          have hne : page_address R.pfn + j * slab_sizes ci' ≠ obj :=
            hother_slot R.pfn j ci' hRp h1 hj
          rw [List.mem_erase_of_ne hne]
          exact h8 j hj
    · intro i hi
      dsimp only
      obtain ⟨pl, hpl, hplnd, hpliff⟩ := hI.partials i hi
      have hppl : p ∉ pl := hnotpl i hi pl hpliff
      by_cases hieq : i = ci0
      · subst hieq
        rw [updCache_self]
        refine ⟨p :: pl, ?_, List.nodup_cons.mpr ⟨hppl, hplnd⟩, ?_⟩
        · have hbase : IsChain (updMap s.mem_map p
              { flags := (s.mem_map p).flags
                next := (s.mem_map p).next
                order := (s.mem_map p).order
                slab_cache := some i
                freelist := obj
                active_objects := (s.mem_map p).active_objects - 1 })
              (s.slab_caches i).slabPartial pl := by
            refine hpl.of_frame ?_
            intro q hq
            have hqp : q ≠ p := fun he => hppl (he ▸ hq)
            rw [updMap_other _ _ _ _ hqp]
          refine hbase.push p _ ?_ hppl
          rfl
        · intro q
          by_cases hqp : q = p
          · subst hqp
            constructor
            · intro _
              refine ⟨hreg, ?_, ?_⟩
              · dsimp only
                rw [updMap_self]
              · dsimp only
                rw [updMap_self]
                exact hobj_ne0
            · intro _
              exact List.mem_cons_self _ _
          · constructor
            · intro hq
              rcases List.mem_cons.mp hq with he | hq
              · exact absurd he hqp
              · obtain ⟨h1', h2', h3'⟩ := (hpliff q).mp hq
                refine ⟨h1', ?_, ?_⟩
                · dsimp only
                  rw [updMap_other _ _ _ _ hqp, updMap_other _ _ _ _ hqp]
                  exact h2'
                · dsimp only
                  rw [updMap_other _ _ _ _ hqp, updMap_other _ _ _ _ hqp]
                  exact h3'
            · rintro ⟨h1', h2', h3'⟩
              rw [updMap_other _ _ _ _ hqp, updMap_other _ _ _ _ hqp] at h2' h3'
              exact List.mem_cons_of_mem _ ((hpliff q).mpr ⟨h1', h2', h3'⟩)
      · rw [updCache_other _ _ _ _ hieq]
        have hplne : ∀ q ∈ pl, q ≠ p := by
          intro q hq he
          subst he
          have := ((hpliff q).mp hq).2.1
          rw [hcache] at this
          exact hieq (Option.some.inj this).symm
        refine ⟨pl, hpl.of_frame ?_, hplnd, ?_⟩
        · intro q hq
          dsimp only
          rw [updMap_other _ _ _ _ (hplne q hq), updMap_other _ _ _ _ (hplne q hq)]
        · intro q
          by_cases hqp : q = p
          · subst hqp
            constructor
            · intro hq
              exact absurd rfl (hplne q hq)
            · rintro ⟨_, h2', _⟩
              simp only [updMap_self] at h2'
              exact absurd (Option.some.inj h2').symm hieq
          · rw [hpliff q]
            constructor
            · rintro ⟨h1', h2', h3'⟩
              refine ⟨h1', ?_, ?_⟩
              · dsimp only
                rw [updMap_other _ _ _ _ hqp, updMap_other _ _ _ _ hqp]
                exact h2'
              · dsimp only
                rw [updMap_other _ _ _ _ hqp, updMap_other _ _ _ _ hqp]
                exact h3'
            · rintro ⟨h1', h2', h3'⟩
              rw [updMap_other _ _ _ _ hqp, updMap_other _ _ _ _ hqp] at h2' h3'
              exact ⟨h1', h2', h3'⟩
    · intro x hx
      have hx' : x ∈ g.live := List.mem_of_mem_erase hx
      obtain ⟨p', j', ci', hreg', hcache', hj', hxeq⟩ := hI.liveslab x hx'
      refine ⟨p', j', ci', hreg', ?_, hj', hxeq⟩
      dsimp only
      by_cases hp' : p' = p
      · subst hp'
        rw [updMap_self]
        rw [hcache] at hcache'
        exact hcache'
      · rw [updMap_other _ _ _ _ hp', updMap_other _ _ _ _ hp']
        exact hcache'
    · exact hlive_nd.erase _
  · -- the page had free slots: push the object; if the count reaches
    -- zero the page goes back to the buddy system
    have hflpos : 0 < fl.length := by rw [hflshape]; simp
    have hfl0 : (s.mem_map p).freelist ≠ 0 := by
      intro h0
      rw [hflshape, h0] at hchain
      obtain ⟨hh, hne, _⟩ := hchain.cons_invF
      exact hne hh.symm
    have hc1n : ¬((s.mem_map p).active_objects - 1 =
        ((PAGE_SIZE / (s.slab_caches ci0).obj_size : Nat) : Int) - 1) := by
      rw [hact, hsz_eq]
      omega
    rw [kmem_cache_free, ghostCacheFree, hv2p]
    dsimp only
    rw [if_neg hns, hcache]
    dsimp only
    split_ifs with h1
    · -- the page empties: unlink it from the partial list and free it
      simp only [updMap_self] at h1
      have hc2 : (s.mem_map p).active_objects - 1 = 0 := h1
      have hlen_eq : fl.length = PAGE_SIZE / slab_sizes ci0 - 1 := by
        rw [hact] at hc2
        omega
      -- the partial list contains the page
      obtain ⟨pl, hpl, hplnd, hpliff⟩ := hI.partials ci0 hci
      have hppl : p ∈ pl := (hpliff p).mpr ⟨hreg, hcache, hfl0⟩
      have hplbound : pl.length ≤ NUM_PAGES := by
        refine nodup_length_le hplnd ?_
        intro q hq
        have := hI.bound _ ((hpliff q).mp hq).1
        simp only at this
        omega
      have hpl1 : IsChain (updMap s.mem_map p
          { flags := (s.mem_map p).flags
            next := (s.mem_map p).next
            order := (s.mem_map p).order
            slab_cache := some ci0
            freelist := obj
            active_objects := (s.mem_map p).active_objects - 1 })
          (s.slab_caches ci0).slabPartial pl := by
        refine hpl.stable ?_
        intro q hq
        by_cases hqp : q = p
        · subst hqp
          rw [updMap_self]
        · rw [updMap_other _ _ _ _ hqp]
      obtain ⟨hc2', hfr2, hpkeep, hsbn2⟩ :=
        unlinkList_spec _ _ p pl hpl1 hplnd hppl hplbound
      refine free_pages_preserves ?_ ?_
      · -- the invariant with the hole at the freed page
        refine ⟨?_, ?_, ?_, ?_, ?_, ?_, hI.hiArea, ?_, ?_, ?_, ?_, ?_, ?_, ?_, ?_, ?_⟩
        · intro R hR
          exact hI.align R (List.mem_of_mem_erase hR)
        · intro R hR
          exact hI.bound R (List.mem_of_mem_erase hR)
        · intro R hR
          exact hI.ordlt R (List.mem_of_mem_erase hR)
        · intro R hR
          exact hI.slabord R (List.mem_of_mem_erase hR)
        · exact hI.disj.sublist (List.erase_sublist _ _)
        · intro q hq hnh
          obtain ⟨R, hR, hqR⟩ := hI.cover q hq (fun h => h)
          have hne : R ≠ ⟨p, 0, RKind.slabR⟩ := by
            intro he
            subst he
            simp only at hqR
            exact hnh ⟨by omega, by omega⟩
          exact ⟨R, (pairwise_nodup hI.disj).mem_erase_iff.mpr ⟨hne, hR⟩, hqR⟩
        · intro o ho
          obtain ⟨l, hl, hlnd, hliff⟩ := hI.chains o ho
          have hlfr : ∀ q ∈ l, q ≠ p ∧ q ∉ pl := by
            intro q hq
            have hqreg := (hliff q).mp hq
            refine ⟨hfree_ne q o hqreg, ?_⟩
            intro hql
            have := ((hpliff q).mp hql).1
            have heq := region_eq_of_head hI.disj hqreg this rfl
            exact nomatch (congrArg Region.kind heq : RKind.freeR = RKind.slabR)
          refine ⟨l, hl.of_frame ?_, hlnd, ?_⟩
          · intro q hq
            dsimp only
            rw [updMap_other _ _ _ _ (hlfr q hq).1]
            rw [hfr2 q (hlfr q hq).2]
            rw [updMap_other _ _ _ _ (hlfr q hq).1]
          · intro q
            rw [hliff q, (pairwise_nodup hI.disj).mem_erase_iff]
            constructor
            · intro hq
              refine ⟨?_, hq⟩
              exact fun he => nomatch (congrArg Region.kind he :
                RKind.freeR = RKind.slabR)
            · exact fun h => h.2
        · intro R hR hk
          have hRg := List.mem_of_mem_erase hR
          have hne : R.pfn ≠ p := hfree_ne R.pfn R.ord (by
            obtain ⟨rp, ro, rk⟩ := R
            cases hk
            exact hRg)
          dsimp only
          rw [updMap_other _ _ _ _ hne, (hsbn2 R.pfn).1, (hsbn2 R.pfn).2.1]
          rw [updMap_other _ _ _ _ hne]
          exact hI.freeflags R hRg hk
        · intro R hR hk
          have hRg := List.mem_of_mem_erase hR
          have hne : R.pfn ≠ p := hbud_ne R.pfn R.ord (by
            obtain ⟨rp, ro, rk⟩ := R
            cases hk
            exact hRg)
          dsimp only
          rw [updMap_other _ _ _ _ hne, (hsbn2 R.pfn).1, (hsbn2 R.pfn).2.1]
          rw [updMap_other _ _ _ _ hne]
          exact hI.budflags R hRg hk
        · intro q o ho hq hmem
          exact hI.nopair q o ho (List.mem_of_mem_erase hq)
            (List.mem_of_mem_erase hmem)
        · intro i
          dsimp only
          by_cases hi : i = ci0
          · subst hi
            rw [updCache_self]
            exact hI.cachesz i
          · rw [updCache_other _ _ _ _ hi]
            exact hI.cachesz i
        · intro R hR hk
          have hRg := List.mem_of_mem_erase hR
          have hRne : R ≠ ⟨p, 0, RKind.slabR⟩ :=
            ((pairwise_nodup hI.disj).mem_erase_iff.mp hR).1
          have hne : R.pfn ≠ p := by
            intro he
            exact hRne (region_eq_of_head hI.disj hRg hreg he)
          obtain ⟨ci', fl2, h1, h2, h3, h4, h5, h6, h7, h8⟩ :=
            hI.slabpage R hRg hk
          refine ⟨ci', fl2, h1, ?_, ?_, ?_, h5, h6, ?_, ?_⟩
          · dsimp only
            rw [updMap_other _ _ _ _ hne, (hsbn2 R.pfn).1]
            rw [updMap_other _ _ _ _ hne]
            exact h2
          · dsimp only
            rw [updMap_other _ _ _ _ hne, (hsbn2 R.pfn).2.2.2.2]
            rw [updMap_other _ _ _ _ hne]
            exact h3
          · dsimp only
            rw [updMap_other _ _ _ _ hne, (hsbn2 R.pfn).2.2.1]
            rw [updMap_other _ _ _ _ hne]
            refine h4.stableF ?_
            intro a ha
            obtain ⟨j', hj', hx'⟩ := h6 a ha
            refine updMem_other _ _ _ _ ?_
            rw [hx']
            exact hother_slot R.pfn j' ci' hne h1 hj'
          · dsimp only
            rw [updMap_other _ _ _ _ hne, (hsbn2 R.pfn).2.2.2.1]
            rw [updMap_other _ _ _ _ hne]
            exact h7
          · intro j hj
            have hnel : page_address R.pfn + j * slab_sizes ci' ≠ obj :=
              hother_slot R.pfn j ci' hne h1 hj
            rw [List.mem_erase_of_ne hnel]
            exact h8 j hj
        · intro i hi
          dsimp only
          by_cases hieq : i = ci0
          · subst hieq
            rw [updCache_self]
            refine ⟨pl.erase p, ?_, hplnd.erase _, ?_⟩
            · refine hc2'.of_frame ?_
              intro q hq
              have hqp : q ≠ p := (hplnd.mem_erase_iff.mp hq).1
              rw [updMap_other _ _ _ _ hqp]
            · intro q
              rw [hplnd.mem_erase_iff]
              by_cases hqp : q = p
              · subst hqp
                constructor
                · rintro ⟨he, _⟩
                  exact absurd rfl he
                · rintro ⟨h1', _, _⟩
                  exact absurd rfl
                    ((pairwise_nodup hI.disj).mem_erase_iff.mp h1').1
              · constructor
                · rintro ⟨_, hq⟩
                  obtain ⟨h1', h2', h3'⟩ := (hpliff q).mp hq
                  refine ⟨(pairwise_nodup hI.disj).mem_erase_iff.mpr
                    ⟨?_, h1'⟩, ?_, ?_⟩
                  · exact fun he => hqp (congrArg Region.pfn he)
                  · dsimp only
                    rw [updMap_other _ _ _ _ hqp, (hsbn2 q).2.2.2.2]
                    rw [updMap_other _ _ _ _ hqp]
                    exact h2'
                  · dsimp only
                    rw [updMap_other _ _ _ _ hqp, (hsbn2 q).2.2.1]
                    rw [updMap_other _ _ _ _ hqp]
                    exact h3'
                · rintro ⟨h1', h2', h3'⟩
                  rw [updMap_other _ _ _ _ hqp, (hsbn2 q).2.2.2.2] at h2'
                  rw [updMap_other _ _ _ _ hqp] at h2'
                  rw [updMap_other _ _ _ _ hqp, (hsbn2 q).2.2.1] at h3'
                  rw [updMap_other _ _ _ _ hqp] at h3'
                  exact ⟨hqp, (hpliff q).mpr
                    ⟨List.mem_of_mem_erase h1', h2', h3'⟩⟩
          · rw [updCache_other _ _ _ _ hieq]
            obtain ⟨pl2, hpl2, hpl2nd, hpl2iff⟩ := hI.partials i hi
            have hplne2 : ∀ q ∈ pl2, q ≠ p ∧ q ∉ pl := by
              intro q hq
              have hcq := ((hpl2iff q).mp hq).2.1
              constructor
              · intro he
                subst he
                rw [hcache] at hcq
                exact hieq (Option.some.inj hcq).symm
              · intro hql
                have := ((hpliff q).mp hql).2.1
                rw [this] at hcq
                exact hieq (Option.some.inj hcq).symm
            refine ⟨pl2, hpl2.of_frame ?_, hpl2nd, ?_⟩
            · intro q hq
              dsimp only
              rw [updMap_other _ _ _ _ (hplne2 q hq).1,
                hfr2 q (hplne2 q hq).2,
                updMap_other _ _ _ _ (hplne2 q hq).1]
            · intro q
              by_cases hqp : q = p
              · subst hqp
                constructor
                · intro hq
                  exact absurd rfl (hplne2 q hq).1
                · rintro ⟨h1', _, _⟩
                  exact absurd rfl
                    ((pairwise_nodup hI.disj).mem_erase_iff.mp h1').1
              · rw [hpl2iff q]
                constructor
                · rintro ⟨h1', h2', h3'⟩
                  refine ⟨(pairwise_nodup hI.disj).mem_erase_iff.mpr
                    ⟨?_, h1'⟩, ?_, ?_⟩
                  · exact fun he => hqp (congrArg Region.pfn he)
                  · dsimp only
                    rw [updMap_other _ _ _ _ hqp, (hsbn2 q).2.2.2.2]
                    rw [updMap_other _ _ _ _ hqp]
                    exact h2'
                  · dsimp only
                    rw [updMap_other _ _ _ _ hqp, (hsbn2 q).2.2.1]
                    rw [updMap_other _ _ _ _ hqp]
                    exact h3'
                · rintro ⟨h1', h2', h3'⟩
                  rw [updMap_other _ _ _ _ hqp, (hsbn2 q).2.2.2.2] at h2'
                  rw [updMap_other _ _ _ _ hqp] at h2'
                  rw [updMap_other _ _ _ _ hqp, (hsbn2 q).2.2.1] at h3'
                  rw [updMap_other _ _ _ _ hqp] at h3'
                  exact ⟨List.mem_of_mem_erase h1', h2', h3'⟩
        · intro x hx
          have hxne : x ≠ obj := (hlive_nd.mem_erase_iff.mp hx).1
          have hx' : x ∈ g.live := List.mem_of_mem_erase hx
          obtain ⟨p', j', ci', hreg', hcache', hj', hxeq⟩ := hI.liveslab x hx'
          have hp'ne : p' ≠ p := by
            intro he
            subst he
            -- every slot of the page except the object is on the freelist
            have hcip : ci' = ci0 := by
              rw [hcache] at hcache'
              exact Option.some.inj hcache'.symm
            subst hcip
            have hjne : j' ≠ jo := by
              intro he2
              subst he2
              exact hxne (by rw [hxeq, hobj_eq])
            have hinfl : page_address p' + j' * slab_sizes ci' ∈ fl := by
              refine full_freelist_covers hszpos hnd hmemchar hlen_eq
                (by omega) hjo ?_ hj' hjne
              rw [← hobj_eq]
              exact hobj_nfl
            have := (hliveiff j' hj').mp (by rw [← hxeq]; exact hx')
            exact this hinfl
          refine ⟨p', j', ci', ?_, ?_, hj', hxeq⟩
          · refine (pairwise_nodup hI.disj).mem_erase_iff.mpr ⟨?_, hreg'⟩
            exact fun he => hp'ne (congrArg Region.pfn he)
          · dsimp only
            rw [updMap_other _ _ _ _ hp'ne, (hsbn2 p').2.2.2.2]
            rw [updMap_other _ _ _ _ hp'ne]
            exact hcache'
        · exact hlive_nd.erase _
      · -- the freed page is a floating block
        refine ⟨Nat.one_dvd _, ?_, by decide, ?_⟩
        · show p + 2 ^ 0 ≤ NUM_PAGES
          omega
        · intro R hR
          rw [(pairwise_nodup hI.disj).mem_erase_iff] at hR
          exact hI.disj.forall (fun _ _ => rdisj_symm) hR.2 hreg hR.1
    · -- the page keeps live objects: only the freelist and count change
      refine ⟨?_, ?_, ?_, ?_, hI.disj, ?_, hI.hiArea, ?_, ?_, ?_, hI.nopair,
        hI.cachesz, ?_, ?_, ?_, ?_⟩
      · exact hI.align
      · exact hI.bound
      · exact hI.ordlt
      · exact hI.slabord
      · intro q hq hnh
        exact hI.cover q hq hnh
      · intro o ho
        obtain ⟨l, hl, hlnd, hliff⟩ := hI.chains o ho
        refine ⟨l, hl.of_frame ?_, hlnd, hliff⟩
        intro q hq
        have hqp : q ≠ p := hfree_ne q o ((hliff q).mp hq)
        dsimp only
        rw [updMap_other _ _ _ _ hqp]
      · intro R hR hk
        have hne : R.pfn ≠ p := hfree_ne R.pfn R.ord (by
          obtain ⟨rp, ro, rk⟩ := R
          cases hk
          exact hR)
        dsimp only
        rw [updMap_other _ _ _ _ hne]
        exact hI.freeflags R hR hk
      · intro R hR hk
        have hne : R.pfn ≠ p := hbud_ne R.pfn R.ord (by
          obtain ⟨rp, ro, rk⟩ := R
          cases hk
          exact hR)
        dsimp only
        rw [updMap_other _ _ _ _ hne]
        exact hI.budflags R hR hk
      · intro R hR hk
        by_cases hRp : R.pfn = p
        · refine ⟨ci0, obj :: fl, hci, ?_, ?_, ?_,
            List.nodup_cons.mpr ⟨hobj_nfl, hnd⟩, ?_, ?_, ?_⟩
          · dsimp only
            rw [hRp, updMap_self]
            exact hflags
          · dsimp only
            rw [hRp, updMap_self]
          · dsimp only
            rw [hRp, updMap_self]
            show IsFChain _ obj (obj :: fl)
            refine IsFChain.cons _ _ hobj_ne0 ?_
            rw [updMem_self]
            refine hchain.stableF ?_
            intro a ha
            refine updMem_other _ _ _ _ ?_
            intro he
            exact hobj_nfl (he ▸ ha)
          · intro a ha
            rw [hRp]
            rcases List.mem_cons.mp ha with rfl | ha
            · exact ⟨jo, hjo, hobj_eq⟩
            · exact hmemchar a ha
          · dsimp only
            rw [hRp, updMap_self]
            show (s.mem_map p).active_objects - 1 = _
            rw [hact]
            simp only [List.length_cons]
            omega
          · intro j hj
            rw [hRp]
            by_cases hje : page_address p + j * slab_sizes ci0 = obj
            · rw [hje]
              constructor
              · intro hmem
                exact absurd hmem (hlive_nd.not_mem_erase)
              · intro hni
                exact absurd (List.mem_cons_self _ _) hni
            · rw [List.mem_erase_of_ne hje]
              rw [hliveiff j hj]
              constructor
              · intro hni hmem
                rcases List.mem_cons.mp hmem with he | he
                · exact hje he
                · exact hni he
              · intro hni hmem
                exact hni (List.mem_cons_of_mem _ hmem)
        · obtain ⟨ci', fl2, h1, h2, h3, h4, h5, h6, h7, h8⟩ := hI.slabpage R hR hk
          refine ⟨ci', fl2, h1, ?_, ?_, ?_, h5, h6, ?_, ?_⟩
          · dsimp only
            rw [updMap_other _ _ _ _ hRp]
            exact h2
          · dsimp only
            rw [updMap_other _ _ _ _ hRp]
            exact h3
          · dsimp only
            rw [updMap_other _ _ _ _ hRp]
            refine h4.stableF ?_
            intro a ha
            obtain ⟨j', hj', hx'⟩ := h6 a ha
            refine updMem_other _ _ _ _ ?_
            rw [hx']
            exact hother_slot R.pfn j' ci' hRp h1 hj'
          · dsimp only
            rw [updMap_other _ _ _ _ hRp]
            exact h7
          · intro j hj
            have hnel : page_address R.pfn + j * slab_sizes ci' ≠ obj :=
              hother_slot R.pfn j ci' hRp h1 hj
            rw [List.mem_erase_of_ne hnel]
            exact h8 j hj
      · intro i hi
        obtain ⟨pl, hpl, hplnd, hpliff⟩ := hI.partials i hi
        refine ⟨pl, hpl.stable ?_, hplnd, ?_⟩
        · intro q hq
          by_cases hqp : q = p
          · subst hqp
            dsimp only
            rw [updMap_self]
          · dsimp only
            rw [updMap_other _ _ _ _ hqp]
        · intro q
          rw [hpliff q]
          by_cases hqp : q = p
          · subst hqp
            constructor
            · rintro ⟨h1', h2', _⟩
              refine ⟨h1', ?_, ?_⟩
              · dsimp only
                rw [updMap_self]
                rw [hcache] at h2'
                exact h2'
              · dsimp only
                rw [updMap_self]
                exact hobj_ne0
            · rintro ⟨h1', h2', _⟩
              dsimp only at h2'
              rw [updMap_self] at h2'
              refine ⟨h1', ?_, hfl0⟩
              rw [hcache]
              exact h2'
          · constructor
            · rintro ⟨h1', h2', h3'⟩
              refine ⟨h1', ?_, ?_⟩
              · dsimp only
                rw [updMap_other _ _ _ _ hqp]
                exact h2'
              · dsimp only
                rw [updMap_other _ _ _ _ hqp]
                exact h3'
            · rintro ⟨h1', h2', h3'⟩
              dsimp only at h2' h3'
              rw [updMap_other _ _ _ _ hqp] at h2' h3'
              exact ⟨h1', h2', h3'⟩
      · intro x hx
        have hx' : x ∈ g.live := List.mem_of_mem_erase hx
        obtain ⟨p', j', ci', hreg', hcache', hj', hxeq⟩ := hI.liveslab x hx'
        refine ⟨p', j', ci', hreg', ?_, hj', hxeq⟩
        dsimp only
        by_cases hp' : p' = p
        · subst hp'
          rw [updMap_self]
          rw [hcache] at hcache'
          exact hcache'
        · rw [updMap_other _ _ _ _ hp']
          exact hcache'
      · exact hlive_nd.erase _

/-! ### Reachable states and the global invariant -/

/-- A protocol-correct argument to `kfree` in state `s` with ghost `g`:
NULL, an address outside the arena, a live slab object, the base
address of a buddy-allocated block, or an address whose page is in
neither allocator's hands (the reported double-free/invalid-state
path, which leaves the state untouched). -/
def LegalFree (s : State) (g : Ghost) (ptr : Nat) : Prop :=
  ptr = 0 ∨ virt_to_page ptr = none ∨ ptr ∈ g.live ∨
  (∃ pfn o, virt_to_page ptr = some pfn ∧ ptr = page_address pfn ∧
    (⟨pfn, o, RKind.buddyR⟩ : Region) ∈ g.regions) ∨
  (∃ pfn, virt_to_page ptr = some pfn ∧
    (s.mem_map pfn).flags &&& PG_slab = 0 ∧
    (s.mem_map pfn).flags &&& PG_buddy = 0)

/-- Ghost counterpart of `kfree`, branch by branch. -/
def ghostKfree (s : State) (g : Ghost) (ptr : Nat) : Ghost :=
  if ptr = 0 then g
  else
    match virt_to_page ptr with
    | none => g
    | some pfn =>
      let pg := s.mem_map pfn
      if pg.flags &&& PG_slab ≠ 0 then ghostCacheFree s g ptr
      else if pg.flags &&& PG_buddy ≠ 0 then
        ghostFreeB s ⟨g.regions.erase ⟨pfn, pg.order, RKind.buddyR⟩, g.live⟩
          pfn pg.order
      else g

/-- Ghost counterpart of `kmalloc`: route with the same size-class scan. -/
def ghostKmalloc (s : State) (g : Ghost) (size : Nat) : Ghost :=
  match sizeLoop size 0 with
  | some i => ghostCacheAlloc s g i
  | none => ghostAlloc s g (kmallocOrder size)

/-- Taking a buddy-allocated region out of the ghost opens a hole of its
extent and leaves that block floating. -/
theorem remove_buddy_region {s : State} {g : Ghost} {pfn o : Nat}
    (hI : Inv s g) (hreg : (⟨pfn, o, RKind.buddyR⟩ : Region) ∈ g.regions) :
    InvC s ⟨g.regions.erase ⟨pfn, o, RKind.buddyR⟩, g.live⟩ (InHole pfn o) ∧
    Floating ⟨g.regions.erase ⟨pfn, o, RKind.buddyR⟩, g.live⟩ pfn o := by
  have hnd := pairwise_nodup hI.disj
  constructor
  · refine ⟨?_, ?_, ?_, ?_, hI.disj.sublist (List.erase_sublist _ _), ?_,
      hI.hiArea, ?_, ?_, ?_, ?_, hI.cachesz, ?_, ?_, ?_, hI.livend⟩
    · intro R hR
      exact hI.align R (List.mem_of_mem_erase hR)
    · intro R hR
      exact hI.bound R (List.mem_of_mem_erase hR)
    · intro R hR
      exact hI.ordlt R (List.mem_of_mem_erase hR)
    · intro R hR
      exact hI.slabord R (List.mem_of_mem_erase hR)
    · intro q hq hnh
      obtain ⟨R, hR, hqR⟩ := hI.cover q hq (fun h => h)
      have hne : R ≠ ⟨pfn, o, RKind.buddyR⟩ := by
        intro he
        subst he
        exact hnh ⟨hqR.1, hqR.2⟩
      exact ⟨R, hnd.mem_erase_iff.mpr ⟨hne, hR⟩, hqR⟩
    · intro o' ho'
      obtain ⟨l, hl, hlnd, hiff⟩ := hI.chains o' ho'
      refine ⟨l, hl, hlnd, ?_⟩
      intro p
      rw [hiff p, hnd.mem_erase_iff]
      constructor
      · intro h
        exact ⟨(fun he =>
          nomatch (congrArg Region.kind he : RKind.freeR = RKind.buddyR)), h⟩
      · exact fun h => h.2
    · intro R hR hk
      exact hI.freeflags R (List.mem_of_mem_erase hR) hk
    · intro R hR hk
      exact hI.budflags R (List.mem_of_mem_erase hR) hk
    · intro p o' ho' hp hmem
      exact hI.nopair p o' ho' (List.mem_of_mem_erase hp)
        (List.mem_of_mem_erase hmem)
    · intro R hR hk
      exact hI.slabpage R (List.mem_of_mem_erase hR) hk
    · intro i hi
      obtain ⟨pl, hpl, hplnd, hpliff⟩ := hI.partials i hi
      refine ⟨pl, hpl, hplnd, ?_⟩
      intro p
      rw [hpliff p]
      constructor
      · rintro ⟨h1, h2, h3⟩
        exact ⟨hnd.mem_erase_iff.mpr
          ⟨(fun he =>
            nomatch (congrArg Region.kind he : RKind.slabR = RKind.buddyR)), h1⟩,
          h2, h3⟩
      · rintro ⟨h1, h2, h3⟩
        exact ⟨List.mem_of_mem_erase h1, h2, h3⟩
    · intro x hx
      obtain ⟨p, j, ci, h1, h2, h3, h4⟩ := hI.liveslab x hx
      exact ⟨p, j, ci, hnd.mem_erase_iff.mpr
        ⟨(fun he =>
          nomatch (congrArg Region.kind he : RKind.slabR = RKind.buddyR)), h1⟩,
        h2, h3, h4⟩
  · refine ⟨hI.align _ hreg, hI.bound _ hreg, hI.ordlt _ hreg, ?_⟩
    intro R hR
    rw [hnd.mem_erase_iff] at hR
    exact hI.disj.forall (fun _ _ => rdisj_symm) hR.2 hreg hR.1

/-- A protocol-correct `kfree` preserves the invariant. -/
theorem kfree_preserves {s : State} {g : Ghost} {ptr : Nat}
    (hI : Inv s g) (hL : LegalFree s g ptr) :
    Inv (kfree s ptr).1 (ghostKfree s g ptr) := by
  by_cases hp0 : ptr = 0
  · rw [kfree, ghostKfree, if_pos hp0, if_pos hp0]
    exact hI
  · cases hv : virt_to_page ptr with
    | none =>
      rw [kfree, ghostKfree, if_neg hp0, if_neg hp0, hv]
      exact hI
    | some pfn =>
      rw [kfree, ghostKfree, if_neg hp0, if_neg hp0, hv]
      dsimp only
      rcases hL with hL | hL | hL | ⟨pfn', o, hv', hpa, hreg⟩ | ⟨pfn', hv', hs0, hb0⟩
      · exact absurd hL hp0
      · rw [hL] at hv
        cases hv
      · -- a live slab object: the slab branch is taken
        obtain ⟨p', j, ci, hreg, hcache, hj, hxeq⟩ := hI.liveslab ptr hL
        obtain ⟨ci2, fl, hci2, hflags, hcache2, _⟩ := hI.slabpage _ hreg rfl
        have hcieq : ci = ci2 := Option.some.inj (hcache.symm.trans hcache2)
        have hciC : ci < SLAB_INDEX_COUNT := by
          rw [hcieq]
          exact hci2
        have hp'NP : p' < NUM_PAGES := by
          have := hI.bound _ hreg
          simp only at this
          omega
        have hoff : j * slab_sizes ci < PAGE_SIZE :=
          slot_off_lt (slab_sizes_pos hciC) hj
        have hv2p : virt_to_page ptr = some p' := by
          rw [hxeq]
          exact virt_to_page_slot hp'NP hoff
        have hpe : pfn = p' := Option.some.inj (hv.symm.trans hv2p)
        subst hpe
        have hns : (s.mem_map pfn).flags &&& PG_slab ≠ 0 := by
          rw [hflags]
          decide
        rw [if_pos hns, if_pos hns]
        exact kmem_cache_free_preserves hI hL
      · -- the base address of a buddy-allocated block: the buddy branch
        have hpe : pfn = pfn' := Option.some.inj (hv.symm.trans hv')
        subst hpe
        have hflags : (s.mem_map pfn).flags = PG_buddy := (hI.budflags _ hreg rfl).1
        have hord : (s.mem_map pfn).order = o := (hI.budflags _ hreg rfl).2
        have hns : ¬((s.mem_map pfn).flags &&& PG_slab ≠ 0) := by
          rw [hflags]
          decide
        have hbb : (s.mem_map pfn).flags &&& PG_buddy ≠ 0 := by
          rw [hflags]
          decide
        rw [if_neg hns, if_neg hns, if_pos hbb, if_pos hbb, hord]
        obtain ⟨hIC, hF⟩ := remove_buddy_region hI hreg
        exact free_pages_preserves hIC hF
      · -- a page in neither allocator's hands: the error path, no change
        have hpe : pfn = pfn' := Option.some.inj (hv.symm.trans hv')
        subst hpe
        have hns : ¬((s.mem_map pfn).flags &&& PG_slab ≠ 0) := fun h => h hs0
        have hnb : ¬((s.mem_map pfn).flags &&& PG_buddy ≠ 0) := fun h => h hb0
        rw [if_neg hns, if_neg hns, if_neg hnb, if_neg hnb]
        exact hI

/-- `kmalloc` preserves the invariant. -/
theorem kmalloc_preserves {s : State} {g : Ghost} {size : Nat}
    (hI : Inv s g) : Inv (kmalloc s size).2 (ghostKmalloc s g size) := by
  rw [kmalloc, ghostKmalloc]
  cases hsl : sizeLoop size 0 with
  | some i =>
    dsimp only
    exact kmem_cache_alloc_preserves hI (sizeLoop_first_fit size i hsl).1
  | none =>
    dsimp only
    cases hf : findFreeFrom s (kmallocOrder size) with
    | none =>
      have ha : alloc_pages s (kmallocOrder size) = (none, s) := by
        rw [alloc_pages, hf]
      rw [ha, ghostAlloc, hf]
      exact hI
    | some kp =>
      obtain ⟨k, p0⟩ := kp
      have ha1 : (alloc_pages s (kmallocOrder size)).1 = some p0 := by
        rw [alloc_pages, hf]
      have hInv := (alloc_pages_some_preserves hI ha1).1
      rcases hap : alloc_pages s (kmallocOrder size) with ⟨ob, s1⟩
      rw [hap] at ha1 hInv
      cases ob with
      | none => exact absurd ha1 (by simp)
      | some pfn =>
        dsimp only
        exact hInv

/-- The ghost of the freshly initialised allocator: one free region
covering the whole arena, no live objects. -/
def initGhost : Ghost := ⟨[⟨0, MAX_ORDER - 1, RKind.freeR⟩], []⟩

/-- States reachable from initialisation by `kmalloc` and
protocol-correct `kfree` calls, with their ghosts. -/
inductive ReachG : State → Ghost → Prop where
  | init (m0 : Nat → Nat) : ReachG (initState m0) initGhost
  | mallocStep {s : State} {g : Ghost} (size : Nat) : ReachG s g →
      ReachG (kmalloc s size).2 (ghostKmalloc s g size)
  | freeStep {s : State} {g : Ghost} {ptr : Nat} : ReachG s g →
      LegalFree s g ptr → ReachG (kfree s ptr).1 (ghostKfree s g ptr)

theorem initGhost_regions :
    initGhost.regions = [⟨0, MAX_ORDER - 1, RKind.freeR⟩] := rfl

theorem initGhost_live : initGhost.live = [] := rfl

/-- The freshly initialised allocator satisfies the invariant. -/
theorem init_inv (m0 : Nat → Nat) : Inv (initState m0) initGhost := by
  have hM : MAX_ORDER = 16 := rfl
  refine ⟨?_, ?_, ?_, ?_, ?_, ?_, ?_, ?_, ?_, ?_, ?_, ?_, ?_, ?_, ?_, ?_⟩
  · intro R hR
    rw [initGhost_regions, List.mem_singleton] at hR
    subst hR
    decide
  · intro R hR
    rw [initGhost_regions, List.mem_singleton] at hR
    subst hR
    decide
  · intro R hR
    rw [initGhost_regions, List.mem_singleton] at hR
    subst hR
    decide
  · intro R hR hk
    rw [initGhost_regions, List.mem_singleton] at hR
    subst hR
    exact absurd hk (by decide)
  · exact List.pairwise_singleton _ _
  · intro q hq _
    refine ⟨⟨0, MAX_ORDER - 1, RKind.freeR⟩, List.mem_singleton_self _,
      Nat.zero_le q, ?_⟩
    show q < 0 + 2 ^ (MAX_ORDER - 1)
    have h1 : (2:Nat) ^ (MAX_ORDER - 1) = 32768 := by decide
    have h2 : NUM_PAGES = 32768 := by decide
    omega
  · intro o ho
    show (if o = MAX_ORDER - 1 then some 0 else none) = none
    rw [if_neg (by omega)]
  · intro o ho
    by_cases ho15 : o = MAX_ORDER - 1
    · subst ho15
      refine ⟨[0], ?_, by simp, ?_⟩
      · show IsChain _ (if MAX_ORDER - 1 = MAX_ORDER - 1 then some 0 else none) [0]
        rw [if_pos rfl]
        exact IsChain.cons 0 [] IsChain.nil
      · intro p
        rw [initGhost_regions, List.mem_singleton, List.mem_singleton]
        constructor
        · intro h
          subst h
          rfl
        · intro h
          exact (congrArg Region.pfn h : p = 0)
    · have harea : (initState m0).buddy_free_area o = none := by
        show (if o = MAX_ORDER - 1 then some 0 else none) = none
        rw [if_neg ho15]
      refine ⟨[], by rw [harea]; exact IsChain.nil, List.nodup_nil, ?_⟩
      intro p
      rw [initGhost_regions]
      simp only [List.not_mem_nil, false_iff, List.mem_singleton]
      intro he
      exact ho15 (congrArg Region.ord he : o = MAX_ORDER - 1)
  · intro R hR _
    rw [initGhost_regions, List.mem_singleton] at hR
    subst hR
    exact ⟨rfl, rfl⟩
  · intro R hR hk
    rw [initGhost_regions, List.mem_singleton] at hR
    subst hR
    exact absurd hk (by decide)
  · intro p o ho hp _
    rw [initGhost_regions, List.mem_singleton] at hp
    have : o = MAX_ORDER - 1 := congrArg Region.ord hp
    omega
  · intro i
    rfl
  · intro R hR hk
    rw [initGhost_regions, List.mem_singleton] at hR
    subst hR
    exact absurd hk (by decide)
  · intro i _
    refine ⟨[], IsChain.nil, List.nodup_nil, ?_⟩
    intro p
    rw [initGhost_regions]
    simp only [List.not_mem_nil, false_iff]
    rintro ⟨hmem, _, _⟩
    rw [List.mem_singleton] at hmem
    exact nomatch (congrArg Region.kind hmem : RKind.slabR = RKind.freeR)
  · intro x hx
    rw [initGhost_live] at hx
    exact absurd hx (List.not_mem_nil x)
  · rw [initGhost_live]
    exact List.nodup_nil

/-- Every reachable state satisfies the invariant with its ghost. -/
theorem reach_inv {s : State} {g : Ghost} (h : ReachG s g) : Inv s g := by
  induction h with
  | init m0 => exact init_inv m0
  | mallocStep size _ ih => exact kmalloc_preserves ih
  | freeStep _ hL ih => exact kfree_preserves ih hL

/-- C4: in every state reachable from initialisation by any sequence of
allocate (`kmalloc`) and protocol-correct free (`kfree`) operations,
every page descriptor on the buddy free list of order `o` has
`flags = PG_free` and recorded `order = o`. -/
theorem C4_buddy_free_list_flags_order {s : State} {g : Ghost} {o p : Nat}
    {l : List Nat}
    (hreach : ReachG s g)
    (hchain : IsChain s.mem_map (s.buddy_free_area o) l)
    (hp : p ∈ l) :
    (s.mem_map p).flags = PG_free ∧ (s.mem_map p).order = o := by
  have hI := reach_inv hreach
  by_cases ho : o < MAX_ORDER
  · obtain ⟨l0, hl0, _, hiff⟩ := hI.chains o ho
    have hle : l = l0 := IsChain.unique hchain hl0
    subst hle
    exact hI.freeflags _ ((hiff p).mp hp) rfl
  · have harea := hI.hiArea o (by omega)
    rw [harea] at hchain
    cases hchain
    exact absurd hp (List.not_mem_nil p)

/-- Concrete instance of C4 at the freshly initialised state: the single
order-`MAX_ORDER-1` free-list entry (page 0) carries the free flags and
the matching order. -/
theorem C4_buddy_free_list_flags_order_witness :
    IsChain (initState (fun _ => 0)).mem_map
      ((initState (fun _ => 0)).buddy_free_area (MAX_ORDER - 1)) [0] ∧
    0 ∈ [0] ∧
    ((initState (fun _ => 0)).mem_map 0).flags = PG_free ∧
    ((initState (fun _ => 0)).mem_map 0).order = MAX_ORDER - 1 :=
  ⟨IsChain.cons 0 [] IsChain.nil, List.mem_singleton_self 0,
    C4_buddy_free_list_flags_order (ReachG.init (fun _ => 0))
      (IsChain.cons 0 [] IsChain.nil) (List.mem_singleton_self 0)⟩

/-- C5: after any free operation (a `kfree`, covering both the buddy
branch and the slab branch that returns an emptied page to the buddy
allocator) from a reachable state, no coalescing opportunity remains:
no two buddy blocks of equal order `o < MAX_ORDER - 1` whose PFNs
differ exactly in bit `o` are both on the order-`o` free list. -/
theorem C5_free_leaves_no_mergeable_pair {s : State} {g : Ghost}
    {ptr o p q : Nat} {l : List Nat}
    (hreach : ReachG s g) (hL : LegalFree s g ptr)
    (ho : o < MAX_ORDER - 1)
    (hchain : IsChain (kfree s ptr).1.mem_map
      ((kfree s ptr).1.buddy_free_area o) l)
    (hq : q = p ^^^ 2 ^ o) :
    ¬ (p ∈ l ∧ q ∈ l) := by
  rintro ⟨hp, hqm⟩
  have hI := reach_inv (ReachG.freeStep hreach hL)
  have hM : MAX_ORDER = 16 := rfl
  obtain ⟨l0, hl0, _, hiff⟩ := hI.chains o (by omega)
  have hle : l = l0 := IsChain.unique hchain hl0
  subst hle
  subst hq
  exact hI.nopair p o ho ((hiff p).mp hp) ((hiff _).mp hqm)

/-- Concrete instance of C5 after freeing NULL in the freshly
initialised state: the empty order-0 list holds no mergeable pair. -/
theorem C5_free_leaves_no_mergeable_pair_witness :
    (0 < MAX_ORDER - 1) ∧
    IsChain (kfree (initState (fun _ => 0)) 0).1.mem_map
      ((kfree (initState (fun _ => 0)) 0).1.buddy_free_area 0) [] ∧
    (1 = 0 ^^^ 2 ^ 0) ∧
    ¬ ((0:Nat) ∈ ([] : List Nat) ∧ (1:Nat) ∈ ([] : List Nat)) :=
  ⟨by decide, IsChain.nil, by decide,
    @C5_free_leaves_no_mergeable_pair (initState (fun _ => 0)) initGhost 0 0 0 1 []
      (ReachG.init (fun _ => 0)) (Or.inl rfl) (by decide) IsChain.nil (by decide)⟩

end Alloc
